import Mathlib

/-!
Verification of the structured-document editing core (model/fragment.ts,
model/replace.ts, transform/transform.ts and the mark-step module) by a
shallow embedding in Lean.

Conventions of the embedding:
* JavaScript numbers holding positions, sizes and open depths are embedded
  as `Int` (list indices stay `Nat`).
* The `Fragment` class caches its `size`; here `size` is computed from the
  child list, which is the value the source constructor computes when no
  explicit size is passed.
* Methods that throw (`RangeError`, `ReplaceError`, `TransformError`)
  return `Except` values; the error carries the source message.
* Classes that are external to the sources under verification
  (`Node`, `Mark`, `ResolvedPos`, the schema contract, step plumbing)
  are modelled from the spec; each such definition carries a doc comment
  starting with `Modelled from the spec:`.
-/

namespace PMCore

/-- Modelled from the spec: a mark type with a canonical rank and
`excludes` rules (the schema contract of section 6; `model/mark.ts` and
`model/schema.ts` are not among the sources).  `excludes` lists the names
of the mark types this one excludes. -/
structure MarkType where
  name : String
  rank : Int
  excludes : List String
deriving DecidableEq, Repr

/-- Modelled from the spec: a mark is an immutable value object
(type + attributes). -/
structure Mark where
  type : MarkType
  attrs : List (String × String)
deriving DecidableEq, Repr

/-- Modelled from the spec: the part of a node type the core reads
directly: its name, whether it is inline, a leaf (no content), and the
`isolating` flag of its spec (used by `Slice.maxOpen`). -/
structure NodeType where
  name : String
  inline : Bool
  leaf : Bool
  isolating : Bool
deriving DecidableEq, Repr

/-- Modelled from the spec: the immutable document node
(`model/node.ts` is not among the sources).  A node is either a text node
(marks + text) or a container/leaf node with a type, attributes, marks and
child content.  The child content is carried as a plain list; the
`Fragment` wrapper is defined below. -/
inductive Node where
  | text : List Mark → String → Node
  | node : NodeType → List (String × String) → List Mark → List Node → Node

mutual

/-- Structural equality of nodes.  This is the extensional content of the
source `Node.eq` / `TextNode.eq` (same markup and, recursively, equal
content; node types are compared as values, which models the reference
equality of type objects within one schema). -/
def Node.eqb : Node → Node → Bool
  | .text m1 s1, .text m2 s2 => m1 == m2 && s1 == s2
  | .node t1 a1 m1 c1, .node t2 a2 m2 c2 => t1 == t2 && a1 == a2 && m1 == m2 && eqbL c1 c2
  | _, _ => false

/-- Pointwise structural equality of node lists (the loop of
`Fragment.eq`). -/
def eqbL : List Node → List Node → Bool
  | [], [] => true
  | c :: cs, d :: ds => c.eqb d && eqbL cs ds
  | _, _ => false

end

mutual

theorem Node.eqb_iff : ∀ a b : Node, Node.eqb a b = true ↔ a = b
  | .text s1 m1, .text s2 m2 => by simp [Node.eqb]
  | .node t1 a1 m1 c1, .node t2 a2 m2 c2 => by
    simp [Node.eqb, eqbL_iff c1 c2, and_assoc]
  | .text s1 m1, .node t2 a2 m2 c2 => by simp [Node.eqb]
  | .node t1 a1 m1 c1, .text s2 m2 => by simp [Node.eqb]

theorem eqbL_iff : ∀ a b : List Node, eqbL a b = true ↔ a = b
  | [], [] => by simp [eqbL]
  | c :: cs, d :: ds => by simp [eqbL, Node.eqb_iff c d, eqbL_iff cs ds]
  | [], d :: ds => by simp [eqbL]
  | c :: cs, [] => by simp [eqbL]

end

instance : DecidableEq Node := fun a b => decidable_of_iff _ (Node.eqb_iff a b)

instance : BEq Node := ⟨Node.eqb⟩

mutual

/-- `nodeSize` as the spec defines it: the text length for text nodes,
1 for leaf nodes, and the content size plus one unit for each of the two
node boundaries otherwise (this is the accounting the `cut`/`findIndex`
arithmetic of `model/fragment.ts` relies on). -/
def Node.nodeSize : Node → Int
  | .text _ s => s.length
  | .node t _ _ cs => if t.leaf then 1 else 2 + sizeL cs

/-- Total `nodeSize` of a list of nodes (the fragment size). -/
def sizeL : List Node → Int
  | [] => 0
  | c :: cs => c.nodeSize + sizeL cs

end

def Node.isText : Node → Bool
  | .text _ _ => true
  | .node _ _ _ _ => false

def Node.isLeaf : Node → Bool
  | .text _ _ => true
  | .node t _ _ _ => t.leaf

def Node.isInline : Node → Bool
  | .text _ _ => true
  | .node t _ _ _ => t.inline

def Node.marks : Node → List Mark
  | .text ms _ => ms
  | .node _ _ ms _ => ms

/-- The `text` property of a text node (non-text nodes have none; the
embedding returns the empty string there, a case no caller reaches). -/
def Node.textStr : Node → String
  | .text _ s => s
  | .node _ _ _ _ => ""

def Node.contentList : Node → List Node
  | .text _ _ => []
  | .node _ _ _ cs => cs

def Node.contentSize (n : Node) : Int := sizeL n.contentList

/-- `Node.sameMarkup`: same type, attributes and marks.  Text nodes all
share the schema text type, so two text nodes have the same markup iff
their mark lists agree; a text node never has the markup of a non-text
node. -/
def Node.sameMarkup : Node → Node → Bool
  | .text m1 _, .text m2 _ => m1 == m2
  | .node t1 a1 m1 _, .node t2 a2 m2 _ => t1 == t2 && a1 == a2 && m1 == m2
  | _, _ => false

/-- `TextNode.withText`: same marks, new text (identity on non-text
nodes, which the source never reaches). -/
def Node.withText : Node → String → Node
  | .text ms _, s => .text ms s
  | n, _ => n

/-- `Node.copy`: a node with the same type, attributes and marks but the
given content (identity on text nodes, which the source never reaches). -/
def Node.copy : Node → List Node → Node
  | .text ms s, _ => .text ms s
  | .node t a ms _, cs => .node t a ms cs

/-- `Node.mark`: the same node carrying the given mark list. -/
def Node.mark : Node → List Mark → Node
  | .text _ s, ms => .text ms s
  | .node t a _ cs, ms => .node t a ms cs

/-- JavaScript `String.prototype.slice` on the substring range
[`f`, `t`): both bounds clamped to the string. -/
def strSlice (s : String) (f t : Int) : String :=
  String.mk ((s.toList.take (min t s.length).toNat).drop (max f 0).toNat)

mutual

/-- `Node.cut` (modelled from the spec, `model/node.ts` not among the
sources): text nodes are sliced by character offset, other nodes keep
their markup and cut their content with `Fragment.cut`.  The fragment-cut
body is inlined here (its identity guard is subsumed by the guard of
`Node.cut` itself, so the inlined guard drops out), which keeps the
mutual recursion structural. -/
def Node.cut (n : Node) (f t : Int) : Node :=
  match n with
  | .text ms s => if f = 0 ∧ t = s.length then .text ms s else .text ms (strSlice s f t)
  | .node ty a ms cs =>
    if f = 0 ∧ t = sizeL cs then .node ty a ms cs
    else .node ty a ms (if t > f then cutGo f t cs 0 else [])

/-- The loop of `Fragment.cut`: `pos` is the position where the current
child starts; a child overlapping [`f`, `t`) is kept, partially covered
ones are sliced (text by character offset, other nodes by offset-1
accounting for their open boundary unit). -/
def cutGo (f t : Int) : List Node → Int → List Node
  | [], _ => []
  | c :: rest, pos =>
    if pos < t then
      (if pos + c.nodeSize > f then
        [if pos < f ∨ pos + c.nodeSize > t then
          (if c.isText = true then c.cut (max 0 (f - pos)) (min c.textStr.length (t - pos))
           else c.cut (max 0 (f - pos - 1)) (min c.contentSize (t - pos - 1)))
         else c]
       else []) ++ cutGo f t rest (pos + c.nodeSize)
    else []

end

/-- The body of `Fragment.cut` on the child list. -/
def cutL (cs : List Node) (f t : Int) : List Node :=
  if f = 0 ∧ t = sizeL cs then cs
  else if t > f then cutGo f t cs 0 else []

/-- A fragment is its list of children; the cached `size` of the source
class is recovered by the `size` function below. -/
structure Fragment where
  content : List Node
deriving DecidableEq

def Fragment.size (fr : Fragment) : Int := sizeL fr.content

def Fragment.empty : Fragment := ⟨[]⟩

def Fragment.firstChild (fr : Fragment) : Option Node := fr.content.head?

def Fragment.lastChild (fr : Fragment) : Option Node := fr.content.getLast?

def Fragment.childCount (fr : Fragment) : Nat := fr.content.length

/-- `Fragment.child` returns the indexed child; the source throws a
`RangeError` out of range, a case its callers inside the replace
algorithm never reach (the embedding returns an inert dummy there). -/
def Fragment.child (fr : Fragment) (i : Nat) : Node :=
  fr.content.getD i (.text [] "")

def Fragment.maybeChild (fr : Fragment) (i : Nat) : Option Node :=
  fr.content.get? i

/-- `Fragment.eq`. -/
def Fragment.eqb (fr other : Fragment) : Bool := eqbL fr.content other.content

/-- `Fragment.append`: concatenation merging a text/text boundary with
identical markup into one text node. -/
def Fragment.append (self other : Fragment) : Fragment :=
  if other.size = 0 then self
  else if self.size = 0 then other
  else
    match self.content.getLast?, other.content.head? with
    | some last, some first =>
      if last.isText = true ∧ last.sameMarkup first = true then
        ⟨self.content.dropLast ++ (last.withText (last.textStr ++ first.textStr) :: other.content.drop 1)⟩
      else ⟨self.content ++ other.content⟩
    | _, _ => ⟨self.content ++ other.content⟩

/-- `Fragment.cut` (with both bounds explicit; the source defaults `to`
to the fragment size). -/
def Fragment.cut (self : Fragment) (f t : Int) : Fragment := ⟨cutL self.content f t⟩

/-- `Fragment.cut` with the default second bound. -/
def Fragment.cutFrom (self : Fragment) (f : Int) : Fragment := self.cut f self.size

/-- `Fragment.replaceChild`. -/
def Fragment.replaceChild (self : Fragment) (index : Nat) (n : Node) : Fragment :=
  ⟨self.content.set index n⟩

/-- The loop of `Fragment.fromArray`: `outLast` is the last node of the
output built so far (possibly a merge of a run of text nodes), `prevOrig`
the previous node of the input array, against which the source checks
`sameMarkup`. -/
def fromArrayGo (outLast prevOrig : Node) : List Node → List Node
  | [] => [outLast]
  | n :: rest =>
    if n.isText = true ∧ prevOrig.sameMarkup n = true then
      fromArrayGo (outLast.withText (outLast.textStr ++ n.textStr)) n rest
    else
      outLast :: fromArrayGo n n rest

/-- `Fragment.fromArray`: build a fragment from an array of nodes,
joining adjacent text nodes with the same marks. -/
def Fragment.fromArray (array : List Node) : Fragment :=
  match array with
  | [] => Fragment.empty
  | a :: rest => ⟨fromArrayGo a a rest⟩

theorem sizeL_append (l1 l2 : List Node) : sizeL (l1 ++ l2) = sizeL l1 + sizeL l2 := by
  induction l1 with
  | nil => simp [sizeL]
  | cons c cs ih => simp [sizeL, ih]; ring

theorem sizeL_eq_zero_of_nil {l : List Node} (h : l = []) : sizeL l = 0 := by
  subst h; rfl

theorem Node.text_nodeSize (ms : List Mark) (s : String) :
    Node.nodeSize (.text ms s) = s.length := rfl

/-- A text node built by `withText` from a text node has the size of the
new text. -/
theorem withText_size (n : Node) (hn : n.isText = true) (s : String) :
    (n.withText s).nodeSize = s.length := by
  cases n with
  | text ms s0 => simp [Node.withText, Node.nodeSize]
  | node t a ms cs => simp [Node.isText] at hn

theorem isText_textStr_size (n : Node) (hn : n.isText = true) :
    n.nodeSize = (n.textStr.length : Int) := by
  cases n with
  | text ms s => simp [Node.nodeSize, Node.textStr]
  | node t a ms cs => simp [Node.isText] at hn

/-- C10 helper: decomposing a nonempty list at its last element. -/
theorem sizeL_dropLast_getLast (l : List Node) (last : Node)
    (h : l.getLast? = some last) :
    sizeL l = sizeL l.dropLast + last.nodeSize := by
  have hl : l = l.dropLast ++ [last] := by
    have := List.getLast?_eq_some_iff.mp h
    obtain ⟨l0, hl0⟩ := this
    rw [hl0]; simp
  conv_lhs => rw [hl]
  rw [sizeL_append]; simp [sizeL]

/-- Size additivity of `append`. -/
theorem Fragment.append_size (a b : Fragment) :
    (a.append b).size = a.size + b.size := by
  unfold Fragment.append
  split_ifs with hb ha
  · rw [hb]; omega
  · rw [ha]; omega
  · cases hl : a.content.getLast? with
    | none =>
      have hnil : a.content = [] := List.getLast?_eq_none_iff.mp hl
      have : a.size = 0 := by simp [Fragment.size, hnil, sizeL]
      exact absurd this ha
    | some last =>
      cases hf : b.content.head? with
      | none =>
        have hnil : b.content = [] := List.head?_eq_none_iff.mp hf
        have : b.size = 0 := by simp [Fragment.size, hnil, sizeL]
        exact absurd this hb
      | some first =>
        simp only [Fragment.size]
        split_ifs with hm
        · obtain ⟨hlt, hsm⟩ := hm
          have hft : first.isText = true := by
            cases last with
            | text ms s =>
              cases first with
              | text ms2 s2 => simp [Node.isText]
              | node t a2 m2 c2 => simp [Node.sameMarkup] at hsm
            | node t a2 m2 c2 => simp [Node.isText] at hlt
          have hbdec : b.content = first :: b.content.drop 1 := by
            cases hbc : b.content with
            | nil => simp [hbc] at hf
            | cons x xs => simp [hbc] at hf; simp [hf]
          have hsza : sizeL a.content = sizeL a.content.dropLast + last.nodeSize :=
            sizeL_dropLast_getLast a.content last hl
          have hszb : sizeL b.content = first.nodeSize + sizeL (b.content.drop 1) := by
            conv_lhs => rw [hbdec]
            simp [sizeL]
          rw [sizeL_append]
          simp only [sizeL]
          rw [withText_size last hlt]
          rw [isText_textStr_size last hlt] at hsza
          rw [isText_textStr_size first hft] at hszb
          simp only [String.length_append]
          push_cast
          omega
        · rw [sizeL_append]

mutual

theorem Node.nodeSize_nonneg : ∀ n : Node, 0 ≤ n.nodeSize
  | .text ms s => by simp [Node.nodeSize]
  | .node t a ms cs => by
    simp only [Node.nodeSize]
    split
    · omega
    · have := sizeL_nonneg cs
      omega

theorem sizeL_nonneg : ∀ l : List Node, 0 ≤ sizeL l
  | [] => by simp [sizeL]
  | c :: cs => by
    have h1 := Node.nodeSize_nonneg c
    have h2 := sizeL_nonneg cs
    simp only [sizeL]
    omega

end

mutual

/-- Well-formed nodes: text nodes are nonempty (the `TextNode`
constructor of the source model rejects empty text, so no fragment of the
system contains a zero-size text node). -/
def Node.wfB : Node → Bool
  | .text _ s => decide (0 < s.length)
  | .node _ _ _ cs => wfLB cs

/-- All nodes of a list are well-formed. -/
def wfLB : List Node → Bool
  | [] => true
  | c :: cs => c.wfB && wfLB cs

end

theorem wf_pos_nodeSize (n : Node) (h : n.wfB = true) : 0 < n.nodeSize := by
  cases n with
  | text ms s =>
    simp only [Node.wfB, decide_eq_true_eq] at h
    simp only [Node.nodeSize]
    omega
  | node t a ms cs =>
    simp only [Node.nodeSize]
    split
    · omega
    · have := sizeL_nonneg cs
      omega

theorem wfLB_cons {c : Node} {cs : List Node} (h : wfLB (c :: cs) = true) :
    c.wfB = true ∧ wfLB cs = true := by
  simp only [wfLB, Bool.and_eq_true] at h
  exact h

theorem sizeL_zero_nil {l : List Node} (hw : wfLB l = true) (h : sizeL l = 0) : l = [] := by
  cases l with
  | nil => rfl
  | cons c cs =>
    obtain ⟨h1, h2⟩ := wfLB_cons hw
    have hc := wf_pos_nodeSize c h1
    have hcs := sizeL_nonneg cs
    simp only [sizeL] at h
    omega

theorem strSlice_append_left (s1 s2 : String) :
    strSlice (s1 ++ s2) 0 s1.length = s1 := by
  unfold strSlice
  have hlen : (s1 ++ s2).length = s1.length + s2.length := String.length_append s1 s2
  have hdata : (s1 ++ s2).toList = s1.toList ++ s2.toList := rfl
  have hmax : (max (0 : Int) 0).toNat = 0 := by simp
  have hmin : (min ((s1.length : Int)) ((s1 ++ s2).length : Int)).toNat = s1.length := by
    rw [hlen]; omega
  rw [hmax, hmin, hdata, List.drop_zero]
  have h1 : s1.length = s1.toList.length := rfl
  have htake : (s1.toList ++ s2.toList).take s1.length = s1.toList := by
    rw [h1, List.take_left]
  rw [htake]
  cases s1
  rfl

theorem strSlice_append_right (s1 s2 : String) :
    strSlice (s1 ++ s2) s1.length (s1.length + s2.length) = s2 := by
  unfold strSlice
  have hlen : (s1 ++ s2).length = s1.length + s2.length := String.length_append s1 s2
  have hdata : (s1 ++ s2).toList = s1.toList ++ s2.toList := rfl
  have hmax : (max ((s1.length : Int)) 0).toNat = s1.length := by omega
  have hmin : (min ((s1.length : Int) + s2.length) ((s1 ++ s2).length : Int)).toNat
      = s1.length + s2.length := by
    rw [hlen]; push_cast; omega
  rw [hmax, hmin, hdata]
  have h1 : s1.length = s1.toList.length := rfl
  have h2 : s2.length = s2.toList.length := rfl
  have htake : (s1.toList ++ s2.toList).take (s1.length + s2.length) = s1.toList ++ s2.toList := by
    apply List.take_of_length_le
    rw [List.length_append]
    omega
  rw [htake]
  have hdrop : (s1.toList ++ s2.toList).drop s1.length = s2.toList := by
    rw [h1, List.drop_left]
  rw [hdrop]
  cases s2
  rfl

/-- C10: Size additivity of `append` (implicit claim): for every pair of
fragments `a` and `b`, `(a.append b).size = a.size + b.size`, also when
the boundary text nodes are merged so that the result has fewer children
than `a.childCount + b.childCount`. -/
theorem claim_C10_append_size_additive (a b : Fragment) :
    (a.append b).size = a.size + b.size :=
  Fragment.append_size a b

theorem cutGo_stop (f t : Int) (l : List Node) (pos : Int) (h : t ≤ pos) :
    cutGo f t l pos = [] := by
  cases l with
  | nil => rw [cutGo]
  | cons c rest =>
    rw [cutGo]
    rw [if_neg (by omega)]

theorem cutGo_drop (f t : Int) (l : List Node) (pos : Int) (h : pos + sizeL l ≤ f) :
    cutGo f t l pos = [] := by
  induction l generalizing pos with
  | nil => rw [cutGo]
  | cons c rest ih =>
    rw [cutGo]
    simp only [sizeL] at h
    have hrest := sizeL_nonneg rest
    have hc := Node.nodeSize_nonneg c
    split
    · rw [if_neg (by omega)]
      simp only [List.nil_append]
      exact ih (pos + c.nodeSize) (by omega)
    · rfl

theorem cutGo_keep (f t : Int) (l : List Node) (pos : Int)
    (hw : wfLB l = true) (hf : f ≤ pos) (ht : pos + sizeL l ≤ t) :
    cutGo f t l pos = l := by
  induction l generalizing pos with
  | nil => rw [cutGo]
  | cons c rest ih =>
    obtain ⟨hc, hrest⟩ := wfLB_cons hw
    have hcpos := wf_pos_nodeSize c hc
    have hrnn := sizeL_nonneg rest
    simp only [sizeL] at ht
    rw [cutGo]
    rw [if_pos (by omega)]
    rw [if_pos (by omega)]
    rw [if_neg (by omega)]
    simp only [List.singleton_append]
    rw [ih (pos + c.nodeSize) hrest (by omega) (by omega)]

theorem cutGo_concat (f t : Int) (l1 l2 : List Node) (pos : Int) :
    cutGo f t (l1 ++ l2) pos = cutGo f t l1 pos ++ cutGo f t l2 (pos + sizeL l1) := by
  induction l1 generalizing pos with
  | nil =>
    rw [cutGo]
    simp [sizeL]
  | cons c rest ih =>
    simp only [List.cons_append]
    rw [cutGo, cutGo]
    split
    · simp only [sizeL]
      rw [ih (pos + c.nodeSize)]
      simp only [List.append_assoc]
      have harith : pos + c.nodeSize + sizeL rest = pos + (c.nodeSize + sizeL rest) := by omega
      rw [harith]
    · rename_i hpos
      have hc := Node.nodeSize_nonneg c
      have hr1 := sizeL_nonneg rest
      rw [cutGo_stop f t l2 _ (by simp only [sizeL]; omega)]
      simp

theorem Fragment.eqb_refl (fr : Fragment) : fr.eqb fr = true :=
  (eqbL_iff fr.content fr.content).mpr rfl

theorem wfLB_append (l1 l2 : List Node) :
    wfLB (l1 ++ l2) = (wfLB l1 && wfLB l2) := by
  induction l1 with
  | nil => simp [wfLB]
  | cons c cs ih => simp [wfLB, ih, Bool.and_assoc]

theorem getLast_decomp {l : List Node} {x : Node} (h : l.getLast? = some x) :
    l = l.dropLast ++ [x] := by
  obtain ⟨l0, hl0⟩ := List.getLast?_eq_some_iff.mp h
  rw [hl0]; simp

theorem head_decomp {l : List Node} {x : Node} (h : l.head? = some x) :
    l = x :: l.drop 1 := by
  cases hc : l with
  | nil => simp [hc] at h
  | cons y ys => simp [hc] at h; simp [h]

theorem sameMarkup_text_left {m1 : List Mark} {s1 : String} {n : Node}
    (h : (Node.text m1 s1).sameMarkup n = true) : ∃ s2, n = .text m1 s2 := by
  cases n with
  | text m2 s2 =>
    simp only [Node.sameMarkup, beq_iff_eq] at h
    exact ⟨s2, by rw [h]⟩
  | node t a m2 c2 => simp [Node.sameMarkup] at h

/-- `append` followed by `cut` up to the first operand's size returns the
first operand. -/
theorem append_cut_left (a b : Fragment)
    (ha : wfLB a.content = true) (hb : wfLB b.content = true) :
    (a.append b).cut 0 a.size = a := by
  have hanneg : 0 ≤ a.size := sizeL_nonneg a.content
  have hbnneg : 0 ≤ b.size := sizeL_nonneg b.content
  have hsa : sizeL a.content = a.size := rfl
  have hsb : sizeL b.content = b.size := rfl
  unfold Fragment.append
  split_ifs with hb0 ha0
  · show Fragment.mk (cutL a.content 0 a.size) = a
    rw [cutL, if_pos ⟨rfl, rfl⟩]
  · show Fragment.mk (cutL b.content 0 a.size) = a
    rw [ha0]
    rw [cutL, if_neg (by
      rintro ⟨h1, h2⟩
      exact hb0 h2.symm)]
    rw [if_neg (by omega)]
    have hnil : a.content = [] := sizeL_zero_nil ha ha0
    rw [← hnil]
  · cases hl : a.content.getLast? with
    | none =>
      have hnil : a.content = [] := List.getLast?_eq_none_iff.mp hl
      have : a.size = 0 := by simp [Fragment.size, hnil, sizeL]
      exact absurd this ha0
    | some last =>
      cases hf : b.content.head? with
      | none =>
        have hnil : b.content = [] := List.head?_eq_none_iff.mp hf
        have : b.size = 0 := by simp [Fragment.size, hnil, sizeL]
        exact absurd this hb0
      | some first =>
        have hadec : a.content = a.content.dropLast ++ [last] := getLast_decomp hl
        have hbdec : b.content = first :: b.content.drop 1 := head_decomp hf
        have hwlast : last.wfB = true := by
          have := ha
          rw [hadec, wfLB_append] at this
          simp only [Bool.and_eq_true, wfLB] at this
          exact this.2.1
        have hwfirst : first.wfB = true := by
          have := hb
          rw [hbdec] at this
          exact (wfLB_cons this).1
        have hwdrop : wfLB a.content.dropLast = true := by
          have := ha
          rw [hadec, wfLB_append] at this
          simp only [Bool.and_eq_true] at this
          exact this.1
        have hsza : a.size = sizeL a.content.dropLast + last.nodeSize := by
          show sizeL a.content = _
          conv_lhs => rw [hadec]
          rw [sizeL_append]; simp [sizeL]
        have hszb : b.size = first.nodeSize + sizeL (b.content.drop 1) := by
          show sizeL b.content = _
          conv_lhs => rw [hbdec]
          simp [sizeL]
        show ((if last.isText = true ∧ last.sameMarkup first = true then
            (⟨a.content.dropLast ++ last.withText (last.textStr ++ first.textStr) :: b.content.drop 1⟩ : Fragment)
          else ⟨a.content ++ b.content⟩)).cut 0 a.size = a
        split_ifs with hm
        · obtain ⟨hlt, hsm⟩ := hm
          obtain ⟨mlast, slast, hlast⟩ : ∃ ms s, last = Node.text ms s := by
            cases last with
            | text ms s => exact ⟨ms, s, rfl⟩
            | node t a2 m2 c2 => simp [Node.isText] at hlt
          subst hlast
          obtain ⟨sfirst, hfirst⟩ := sameMarkup_text_left hsm
          subst hfirst
          have hslast : 0 < slast.length := by
            simp only [Node.wfB, decide_eq_true_eq] at hwlast
            exact hwlast
          have hsfirst : 0 < sfirst.length := by
            simp only [Node.wfB, decide_eq_true_eq] at hwfirst
            exact hwfirst
          have hlsize : (Node.text mlast slast).nodeSize = (slast.length : Int) := rfl
          have hfsize : (Node.text mlast sfirst).nodeSize = (sfirst.length : Int) := rfl
          have hdlnneg : 0 ≤ sizeL a.content.dropLast := sizeL_nonneg _
          have hdrnneg : 0 ≤ sizeL (b.content.drop 1) := sizeL_nonneg _
          show Fragment.mk (cutL _ 0 a.size) = a
          simp only [Node.withText, Node.textStr]
          rw [cutL]
          rw [if_neg (by
            rintro ⟨h1, h2⟩
            rw [sizeL_append] at h2
            simp only [sizeL] at h2
            have hms : (Node.text mlast (slast ++ sfirst)).nodeSize
                = (slast.length : Int) + sfirst.length := by
              simp [Node.nodeSize, String.length_append]
            rw [hms] at h2
            rw [hlsize] at hsza
            rw [hfsize] at hszb
            omega)]
          rw [if_pos (by rw [hlsize] at hsza; omega)]
          rw [cutGo_concat]
          rw [cutGo_keep 0 a.size _ 0 hwdrop (by omega) (by rw [hlsize] at hsza; omega)]
          rw [cutGo]
          rw [if_pos (by rw [hlsize] at hsza; omega)]
          have hms : (Node.text mlast (slast ++ sfirst)).nodeSize
              = (slast.length : Int) + sfirst.length := by
            simp [Node.nodeSize, String.length_append]
          rw [hms]
          rw [if_pos (by omega)]
          rw [if_pos (by right; rw [hlsize] at hsza; omega)]
          rw [if_pos (by simp [Node.isText])]
          have htxt : (Node.text mlast (slast ++ sfirst)).textStr = slast ++ sfirst := rfl
          rw [htxt]
          have hmax : max 0 (0 - (0 + sizeL a.content.dropLast)) = 0 := by omega
          have hmin : min ((slast ++ sfirst).length : Int) (a.size - (0 + sizeL a.content.dropLast))
              = (slast.length : Int) := by
            rw [String.length_append]
            rw [hlsize] at hsza
            push_cast
            omega
          rw [hmax, hmin]
          rw [Node.cut]
          rw [if_neg (by
            rintro ⟨h1, h2⟩
            rw [String.length_append] at h2
            push_cast at h2
            omega)]
          rw [strSlice_append_left]
          rw [cutGo_stop _ _ _ _ (by rw [hlsize] at hsza; omega)]
          rw [List.append_nil]
          rw [← hadec]
        · show Fragment.mk (cutL (a.content ++ b.content) 0 a.size) = a
          rw [cutL]
          rw [if_neg (by
            rintro ⟨h1, h2⟩
            rw [sizeL_append] at h2
            exact hb0 (by show sizeL b.content = 0; omega))]
          rw [if_pos (by omega)]
          rw [cutGo_concat]
          rw [cutGo_keep 0 a.size a.content 0 ha (by omega) (by omega)]
          rw [cutGo_stop _ _ _ _ (by omega)]
          rw [List.append_nil]

/-- `append` followed by `cut` from the first operand's size returns the
second operand. -/
theorem append_cut_right (a b : Fragment)
    (ha : wfLB a.content = true) (hb : wfLB b.content = true) :
    (a.append b).cutFrom a.size = b := by
  have hanneg : 0 ≤ a.size := sizeL_nonneg a.content
  have hbnneg : 0 ≤ b.size := sizeL_nonneg b.content
  have hsa : sizeL a.content = a.size := rfl
  have hsb : sizeL b.content = b.size := rfl
  have happ : (a.append b).size = a.size + b.size := Fragment.append_size a b
  unfold Fragment.cutFrom
  rw [happ]
  unfold Fragment.append
  split_ifs with hb0 ha0
  · show Fragment.mk (cutL a.content a.size (a.size + b.size)) = b
    have hbnil : b.content = [] := sizeL_zero_nil hb hb0
    have hsz : sizeL a.content = a.size := rfl
    rw [hb0]
    by_cases haz : a.size = 0
    · have hanil : a.content = [] := sizeL_zero_nil ha haz
      rw [cutL, if_pos ⟨haz, by omega⟩]
      rw [hanil, ← hbnil]
    · rw [cutL, if_neg (by rintro ⟨h1, h2⟩; exact haz h1)]
      rw [if_neg (by omega)]
      rw [← hbnil]
  · show Fragment.mk (cutL b.content a.size (a.size + b.size)) = b
    rw [ha0]
    simp only [Int.zero_add]
    rw [cutL, if_pos ⟨rfl, rfl⟩]
  · cases hl : a.content.getLast? with
    | none =>
      have hnil : a.content = [] := List.getLast?_eq_none_iff.mp hl
      have : a.size = 0 := by simp [Fragment.size, hnil, sizeL]
      exact absurd this ha0
    | some last =>
      cases hf : b.content.head? with
      | none =>
        have hnil : b.content = [] := List.head?_eq_none_iff.mp hf
        have : b.size = 0 := by simp [Fragment.size, hnil, sizeL]
        exact absurd this hb0
      | some first =>
        have hadec : a.content = a.content.dropLast ++ [last] := getLast_decomp hl
        have hbdec : b.content = first :: b.content.drop 1 := head_decomp hf
        have hwlast : last.wfB = true := by
          have := ha
          rw [hadec, wfLB_append] at this
          simp only [Bool.and_eq_true, wfLB] at this
          exact this.2.1
        have hwfirst : first.wfB = true := by
          have := hb
          rw [hbdec] at this
          exact (wfLB_cons this).1
        have hwdropb : wfLB (b.content.drop 1) = true := by
          have := hb
          rw [hbdec] at this
          exact (wfLB_cons this).2
        have hsza : a.size = sizeL a.content.dropLast + last.nodeSize := by
          show sizeL a.content = _
          conv_lhs => rw [hadec]
          rw [sizeL_append]; simp [sizeL]
        have hszb : b.size = first.nodeSize + sizeL (b.content.drop 1) := by
          show sizeL b.content = _
          conv_lhs => rw [hbdec]
          simp [sizeL]
        show ((if last.isText = true ∧ last.sameMarkup first = true then
            (⟨a.content.dropLast ++ last.withText (last.textStr ++ first.textStr) :: b.content.drop 1⟩ : Fragment)
          else ⟨a.content ++ b.content⟩)).cut a.size (a.size + b.size) = b
        split_ifs with hm
        · obtain ⟨hlt, hsm⟩ := hm
          obtain ⟨mlast, slast, hlast⟩ : ∃ ms s, last = Node.text ms s := by
            cases last with
            | text ms s => exact ⟨ms, s, rfl⟩
            | node t a2 m2 c2 => simp [Node.isText] at hlt
          subst hlast
          obtain ⟨sfirst, hfirst⟩ := sameMarkup_text_left hsm
          subst hfirst
          have hslast : 0 < slast.length := by
            simp only [Node.wfB, decide_eq_true_eq] at hwlast
            exact hwlast
          have hsfirst : 0 < sfirst.length := by
            simp only [Node.wfB, decide_eq_true_eq] at hwfirst
            exact hwfirst
          have hlsize : (Node.text mlast slast).nodeSize = (slast.length : Int) := rfl
          have hfsize : (Node.text mlast sfirst).nodeSize = (sfirst.length : Int) := rfl
          have hdlnneg : 0 ≤ sizeL a.content.dropLast := sizeL_nonneg _
          have hdrnneg : 0 ≤ sizeL (b.content.drop 1) := sizeL_nonneg _
          have hms : (Node.text mlast (slast ++ sfirst)).nodeSize
              = (slast.length : Int) + sfirst.length := by
            simp [Node.nodeSize, String.length_append]
          show Fragment.mk (cutL _ a.size (a.size + b.size)) = b
          simp only [Node.withText, Node.textStr]
          rw [cutL]
          rw [if_neg (by
            rintro ⟨h1, h2⟩
            exact ha0 h1)]
          rw [if_pos (by omega)]
          rw [cutGo_concat]
          rw [cutGo_drop _ _ _ _ (by rw [hlsize] at hsza; omega)]
          rw [List.nil_append]
          rw [cutGo]
          rw [if_pos (by rw [hlsize] at hsza; rw [hfsize] at hszb; omega)]
          rw [hms]
          rw [if_pos (by rw [hlsize] at hsza; rw [hfsize] at hszb; omega)]
          rw [if_pos (by left; rw [hlsize] at hsza; omega)]
          rw [if_pos (by simp [Node.isText])]
          have htxt : (Node.text mlast (slast ++ sfirst)).textStr = slast ++ sfirst := rfl
          rw [htxt]
          have hmax : max 0 (a.size - (0 + sizeL a.content.dropLast)) = (slast.length : Int) := by
            rw [hlsize] at hsza
            omega
          have hmin : min ((slast ++ sfirst).length : Int)
              (a.size + b.size - (0 + sizeL a.content.dropLast))
              = (slast.length : Int) + sfirst.length := by
            rw [String.length_append]
            rw [hlsize] at hsza
            rw [hfsize] at hszb
            push_cast
            omega
          rw [hmax, hmin]
          rw [Node.cut]
          rw [if_neg (by
            rintro ⟨h1, h2⟩
            omega)]
          rw [strSlice_append_right]
          rw [cutGo_keep a.size (a.size + b.size) _ _ hwdropb
            (by rw [hlsize] at hsza; omega)
            (by rw [hlsize] at hsza; rw [hfsize] at hszb; omega)]
          simp only [List.singleton_append]
          rw [← hbdec]
        · show Fragment.mk (cutL (a.content ++ b.content) a.size (a.size + b.size)) = b
          rw [cutL]
          rw [if_neg (by
            rintro ⟨h1, h2⟩
            exact ha0 h1)]
          rw [if_pos (by omega)]
          rw [cutGo_concat]
          rw [cutGo_drop _ _ _ _ (by omega)]
          rw [cutGo_keep a.size (a.size + b.size) b.content _ hb (by omega) (by omega)]
          rw [List.nil_append]

/-- C4: Append/cut round-trip: for fragments of the data model (whose
text nodes are nonempty, as the `TextNode` constructor enforces),
`a.append(b).cut(0, a.size)` is structurally equal (`eq`) to `a` and
`a.append(b).cut(a.size)` is structurally equal to `b`, including the
case where the boundary text nodes are merged by `append`. -/
theorem claim_C4_append_cut_roundtrip (a b : Fragment)
    (ha : wfLB a.content = true) (hb : wfLB b.content = true) :
    ((a.append b).cut 0 a.size).eqb a = true ∧
    ((a.append b).cutFrom a.size).eqb b = true := by
  constructor
  · rw [append_cut_left a b ha hb]
    exact Fragment.eqb_refl a
  · rw [append_cut_right a b ha hb]
    exact Fragment.eqb_refl b

theorem claim_C4_append_cut_roundtrip_witness :
    wfLB (Fragment.mk [Node.text [] "ab"]).content = true ∧
    wfLB (Fragment.mk [Node.text [] "cd"]).content = true ∧
    (((Fragment.mk [Node.text [] "ab"]).append ⟨[Node.text [] "cd"]⟩).cut 0
        (Fragment.mk [Node.text [] "ab"]).size).eqb ⟨[Node.text [] "ab"]⟩ = true ∧
    (((Fragment.mk [Node.text [] "ab"]).append ⟨[Node.text [] "cd"]⟩).cutFrom
        (Fragment.mk [Node.text [] "ab"]).size).eqb ⟨[Node.text [] "cd"]⟩ = true :=
  ⟨by decide, by decide,
    claim_C4_append_cut_roundtrip ⟨[Node.text [] "ab"]⟩ ⟨[Node.text [] "cd"]⟩
      (by decide) (by decide)⟩

/-- Two adjacent children violate the text-merge invariant when both are
text nodes with equal mark sets. -/
def mergeablePair (x y : Node) : Bool := x.isText && y.isText && (x.marks == y.marks)

/-- The fragment invariant of the spec: no two adjacent children are both
text nodes with equal mark sets. -/
def noAdjacentText : List Node → Bool
  | [] => true
  | [_] => true
  | x :: y :: rest => !(mergeablePair x y) && noAdjacentText (y :: rest)

def mergeFree (x y : Node) : Prop := mergeablePair x y = false

theorem noAdjacentText_iff_chain (l : List Node) :
    noAdjacentText l = true ↔ List.Chain' mergeFree l := by
  induction l with
  | nil => simp [noAdjacentText]
  | cons x rest ih =>
    cases rest with
    | nil => simp [noAdjacentText]
    | cons y rest2 =>
      rw [noAdjacentText]
      rw [List.chain'_cons]
      simp only [Bool.and_eq_true, Bool.not_eq_true']
      rw [ih]
      exact and_congr_left (fun _ => Iff.rfl)

theorem mergeablePair_congr {x x2 y y2 : Node}
    (h1 : x2.isText = x.isText) (h2 : x2.marks = x.marks)
    (h3 : y2.isText = y.isText) (h4 : y2.marks = y.marks) :
    mergeablePair x2 y2 = mergeablePair x y := by
  simp [mergeablePair, h1, h2, h3, h4]

/-- `Node.cut` preserves text-ness and marks. -/
theorem Node.cut_isText (c : Node) (f t : Int) :
    (c.cut f t).isText = c.isText := by
  cases c with
  | text ms s => rw [Node.cut]; split_ifs <;> rfl
  | node ty a ms cs => rw [Node.cut]; split_ifs <;> rfl

theorem Node.cut_marks (c : Node) (f t : Int) :
    (c.cut f t).marks = c.marks := by
  cases c with
  | text ms s => rw [Node.cut]; split_ifs <;> rfl
  | node ty a ms cs => rw [Node.cut]; split_ifs <;> rfl

/-- The element `cutGo` keeps for a child has the child's text-ness and
marks. -/
theorem cutKept_textmarks (c : Node) (f t pos : Int) :
    (if pos < f ∨ pos + c.nodeSize > t then
      (if c.isText = true then c.cut (max 0 (f - pos)) (min c.textStr.length (t - pos))
       else c.cut (max 0 (f - pos - 1)) (min c.contentSize (t - pos - 1)))
     else c).isText = c.isText ∧
    (if pos < f ∨ pos + c.nodeSize > t then
      (if c.isText = true then c.cut (max 0 (f - pos)) (min c.textStr.length (t - pos))
       else c.cut (max 0 (f - pos - 1)) (min c.contentSize (t - pos - 1)))
     else c).marks = c.marks := by
  split_ifs with h1 h2
  · exact ⟨Node.cut_isText c _ _, Node.cut_marks c _ _⟩
  · exact ⟨Node.cut_isText c _ _, Node.cut_marks c _ _⟩
  · exact ⟨rfl, rfl⟩

/-- After a kept child ending at `pos > f`, the head of the remaining cut
is (a cut of) the next child. -/
theorem cutGo_head_after (f t : Int) (c : Node) (rest : List Node) (pos : Int)
    (hpos : f < pos)
    (hcompat : ∀ hd, rest.head? = some hd → mergeFree c hd)
    (y : Node) (hy : (cutGo f t rest pos).head? = some y) : mergeFree c y := by
  cases rest with
  | nil => rw [cutGo] at hy; simp at hy
  | cons d rest2 =>
    rw [cutGo] at hy
    by_cases h1 : pos < t
    · rw [if_pos h1] at hy
      have hd := Node.nodeSize_nonneg d
      rw [if_pos (by omega)] at hy
      simp only [List.singleton_append, List.head?] at hy
      have hcd : mergeFree c d := hcompat d rfl
      obtain ⟨ht1, ht2⟩ := cutKept_textmarks d f t pos
      unfold mergeFree
      cases hy
      rw [mergeablePair_congr rfl rfl ht1 ht2]
      exact hcd
    · rw [if_neg h1] at hy
      simp at hy

/-- The cut loop preserves the text-merge invariant. -/
theorem cutGo_chain (f t : Int) (l : List Node) (pos : Int)
    (h : List.Chain' mergeFree l) : List.Chain' mergeFree (cutGo f t l pos) := by
  induction l generalizing pos with
  | nil => rw [cutGo]; exact List.chain'_nil
  | cons c rest ih =>
    obtain ⟨hhead, htail⟩ := List.chain'_cons'.mp h
    rw [cutGo]
    by_cases h1 : pos < t
    · rw [if_pos h1]
      by_cases h2 : pos + c.nodeSize > f
      · rw [if_pos h2]
        simp only [List.singleton_append]
        rw [List.chain'_cons']
        refine ⟨?_, ih (pos + c.nodeSize) htail⟩
        intro y hy
        obtain ⟨ht1, ht2⟩ := cutKept_textmarks c f t pos
        unfold mergeFree
        rw [mergeablePair_congr ht1 ht2 rfl rfl]
        exact cutGo_head_after f t c rest (pos + c.nodeSize) (by omega)
          (fun hd hhd => hhead hd (Option.mem_def.mpr hhd)) y (Option.mem_def.mp hy)
      · rw [if_neg h2]
        simp only [List.nil_append]
        exact ih (pos + c.nodeSize) htail
    · rw [if_neg h1]
      exact List.chain'_nil

/-- The head of `fromArrayGo` has the text-ness and marks of the pending
output node. -/
theorem fromArrayGo_head (rest : List Node) (outLast prevOrig : Node) :
    ∃ y, (fromArrayGo outLast prevOrig rest).head? = some y ∧
      y.isText = outLast.isText ∧ y.marks = outLast.marks := by
  induction rest generalizing outLast prevOrig with
  | nil => exact ⟨outLast, rfl, rfl, rfl⟩
  | cons n rest2 ih =>
    rw [fromArrayGo]
    split_ifs with h
    · obtain ⟨y, hy, h1, h2⟩ := ih (outLast.withText (outLast.textStr ++ n.textStr)) n
      refine ⟨y, hy, ?_, ?_⟩
      · rw [h1]
        cases outLast <;> rfl
      · rw [h2]
        cases outLast <;> rfl
    · exact ⟨outLast, rfl, rfl, rfl⟩

theorem sameMarkup_of_text_marks {x y : Node} (hx : x.isText = true)
    (hy : y.isText = true) (hm : x.marks = y.marks) : x.sameMarkup y = true := by
  cases x with
  | text mx sx =>
    cases y with
    | text my sy =>
      simp only [Node.marks] at hm
      simp [Node.sameMarkup, hm]
    | node ty a my cy => simp [Node.isText] at hy
  | node tx a mx cx => simp [Node.isText] at hx

/-- The loop of `fromArray` produces an invariant-satisfying list,
provided the pending output node has the text-ness and marks of the
previous input node. -/
theorem fromArrayGo_chain (rest : List Node) (outLast prevOrig : Node)
    (hinv : outLast.isText = prevOrig.isText ∧ outLast.marks = prevOrig.marks) :
    List.Chain' mergeFree (fromArrayGo outLast prevOrig rest) := by
  induction rest generalizing outLast prevOrig with
  | nil => exact List.chain'_singleton _
  | cons n rest2 ih =>
    rw [fromArrayGo]
    split_ifs with h
    · obtain ⟨hnt, hsm⟩ := h
      apply ih
      constructor
      · cases outLast with
        | text ms s =>
          rw [hnt]
          rfl
        | node ty a ms cs =>
          -- prevOrig has the markup of a text node, so it is text; but then
          -- outLast is text by hinv, contradiction
          obtain ⟨hpt, _⟩ := hinv
          have : prevOrig.isText = true := by
            cases prevOrig with
            | text _ _ => rfl
            | node _ _ _ _ =>
              cases n with
              | text _ _ => simp [Node.sameMarkup] at hsm
              | node _ _ _ _ => simp [Node.isText] at hnt
          rw [this] at hpt
          simp [Node.isText] at hpt
      · cases outLast with
        | text ms s =>
          simp only [Node.withText, Node.marks]
          obtain ⟨hpt, hpm⟩ := hinv
          have hpo : prevOrig.isText = true := by rw [← hpt]; rfl
          cases prevOrig with
          | text mp sp =>
            cases n with
            | text mn sn =>
              simp only [Node.sameMarkup, beq_iff_eq] at hsm
              simp only [Node.marks] at hpm ⊢
              rw [hpm, hsm]
            | node _ _ _ _ => simp [Node.isText] at hnt
          | node _ _ _ _ => simp [Node.isText] at hpo
        | node ty a ms cs =>
          obtain ⟨hpt, _⟩ := hinv
          have : prevOrig.isText = true := by
            cases prevOrig with
            | text _ _ => rfl
            | node _ _ _ _ =>
              cases n with
              | text _ _ => simp [Node.sameMarkup] at hsm
              | node _ _ _ _ => simp [Node.isText] at hnt
          rw [this] at hpt
          simp [Node.isText] at hpt
    · rw [List.chain'_cons']
      refine ⟨?_, ih n n ⟨rfl, rfl⟩⟩
      intro y hy
      obtain ⟨y2, hy2, hyt, hym⟩ := fromArrayGo_head rest2 n n
      rw [hy2] at hy
      cases hy
      unfold mergeFree
      rw [mergeablePair_congr rfl rfl hyt hym]
      by_contra hcon
      simp only [Bool.not_eq_false] at hcon
      simp only [mergeablePair, Bool.and_eq_true, beq_iff_eq] at hcon
      obtain ⟨⟨hot, hnt⟩, hom⟩ := hcon
      have hpt2 : prevOrig.isText = true := by rw [← hinv.1]; exact hot
      exact h ⟨hnt, sameMarkup_of_text_marks hpt2 hnt (by rw [← hinv.2, hom])⟩

theorem mergeFree_of_not_merge {last first : Node}
    (hm : ¬(last.isText = true ∧ last.sameMarkup first = true)) : mergeFree last first := by
  unfold mergeFree mergeablePair
  cases hl : last.isText with
  | false => simp
  | true =>
    cases hf : first.isText with
    | false => simp [hf]
    | true =>
      simp only [Bool.true_and]
      by_contra hcon
      simp only [Bool.not_eq_false, beq_iff_eq] at hcon
      exact hm ⟨hl, sameMarkup_of_text_marks hl hf hcon⟩

/-- `append` preserves the text-merge invariant. -/
theorem append_chain (a b : Fragment)
    (ha : List.Chain' mergeFree a.content) (hb : List.Chain' mergeFree b.content) :
    List.Chain' mergeFree (a.append b).content := by
  unfold Fragment.append
  split_ifs with hb0 ha0
  · exact ha
  · exact hb
  · cases hl : a.content.getLast? with
    | none => exact (List.chain'_append.mpr ⟨ha, hb, by intro x hx; rw [hl] at hx; cases hx⟩)
    | some last =>
      cases hf : b.content.head? with
      | none =>
        have hnil : b.content = [] := List.head?_eq_none_iff.mp hf
        exact (List.chain'_append.mpr ⟨ha, hb, by intro x hx y hy; rw [hnil] at hy; cases hy⟩)
      | some first =>
        have hadec : a.content = a.content.dropLast ++ [last] := getLast_decomp hl
        have hbdec : b.content = first :: b.content.drop 1 := head_decomp hf
        show List.Chain' mergeFree
          ((if last.isText = true ∧ last.sameMarkup first = true then
              (⟨a.content.dropLast ++ last.withText (last.textStr ++ first.textStr) :: b.content.drop 1⟩ : Fragment)
            else ⟨a.content ++ b.content⟩)).content
        split_ifs with hm
        · obtain ⟨hlt, hsm⟩ := hm
          obtain ⟨mlast, slast, hlast⟩ : ∃ ms s, last = Node.text ms s := by
            cases last with
            | text ms s => exact ⟨ms, s, rfl⟩
            | node ty a2 m2 c2 => simp [Node.isText] at hlt
          subst hlast
          obtain ⟨sfirst, hfirst⟩ := sameMarkup_text_left hsm
          subst hfirst
          show List.Chain' mergeFree
            (a.content.dropLast ++ Node.text mlast (slast ++ sfirst) :: b.content.drop 1)
          have hachain := ha
          rw [hadec] at hachain
          obtain ⟨hdl, hlast1, hbound⟩ := List.chain'_append.mp hachain
          have hbchain := hb
          rw [hbdec] at hbchain
          obtain ⟨hfhead, hdrop⟩ := List.chain'_cons'.mp hbchain
          apply List.chain'_append.mpr
          refine ⟨hdl, ?_, ?_⟩
          · apply List.chain'_cons'.mpr
            refine ⟨?_, hdrop⟩
            intro y hy
            have := hfhead y hy
            unfold mergeFree at this ⊢
            rw [mergeablePair_congr (x := Node.text mlast sfirst) rfl rfl rfl rfl] at this
            exact this
          · intro x hx y hy
            simp only [List.head?_cons, Option.mem_def, Option.some.injEq] at hy
            subst hy
            have := hbound x hx (Node.text mlast slast) (by simp)
            unfold mergeFree at this ⊢
            rw [mergeablePair_congr (x := x) (y := Node.text mlast slast) rfl rfl rfl rfl] at this
            exact this
        · show List.Chain' mergeFree (a.content ++ b.content)
          apply List.chain'_append.mpr
          refine ⟨ha, hb, ?_⟩
          intro x hx y hy
          rw [hl] at hx
          rw [hf] at hy
          simp only [Option.mem_def, Option.some.injEq] at hx hy
          subst hx
          subst hy
          exact mergeFree_of_not_merge hm

/-- `cut` preserves the text-merge invariant. -/
theorem cutL_chain (l : List Node) (f t : Int)
    (h : List.Chain' mergeFree l) : List.Chain' mergeFree (cutL l f t) := by
  rw [cutL]
  split_ifs with h1 h2
  · exact h
  · exact cutGo_chain f t l 0 h
  · exact List.chain'_nil

/-- C5 counterexample: the claim quantifies over all fragments, including
ones that already violate the text-merge invariant; `cut` over the full
range returns such a fragment unchanged, and `append` keeps the violating
pair, so the results do not satisfy the invariant. -/
theorem claim_C5_counterexample :
    noAdjacentText ((Fragment.mk [Node.text [] "a", Node.text [] "b"]).cut 0
      (Fragment.mk [Node.text [] "a", Node.text [] "b"]).size).content = false ∧
    noAdjacentText ((Fragment.mk [Node.text [] "a", Node.text [] "b"]).append
      ⟨[Node.node ⟨"horizontal_rule", false, true, false⟩ [] [] []]⟩).content = false := by
  constructor
  · rfl
  · rfl

/-- C5 (amended): `append` and `cut` preserve the text-merge invariant
(no two adjacent children are both text nodes with equal mark sets) when
their fragment inputs satisfy it, and `Fragment.fromArray` establishes the
invariant for every input array. -/
theorem claim_C5_amended_merge_invariant (a b fr : Fragment) (arr : List Node) (f t : Int)
    (ha : noAdjacentText a.content = true) (hb : noAdjacentText b.content = true)
    (hfr : noAdjacentText fr.content = true) :
    noAdjacentText (a.append b).content = true ∧
    noAdjacentText (fr.cut f t).content = true ∧
    noAdjacentText (Fragment.fromArray arr).content = true := by
  rw [noAdjacentText_iff_chain] at ha hb hfr
  refine ⟨?_, ?_, ?_⟩
  · rw [noAdjacentText_iff_chain]
    exact append_chain a b ha hb
  · rw [noAdjacentText_iff_chain]
    exact cutL_chain fr.content f t hfr
  · rw [noAdjacentText_iff_chain]
    cases arr with
    | nil => exact List.chain'_nil
    | cons x rest => exact fromArrayGo_chain rest x x ⟨rfl, rfl⟩

theorem claim_C5_amended_merge_invariant_witness :
    noAdjacentText (Fragment.mk [Node.text [] "a"]).content = true ∧
    noAdjacentText (Fragment.mk [Node.node ⟨"paragraph", false, false, false⟩ [] [] []]).content = true ∧
    (noAdjacentText ((Fragment.mk [Node.text [] "a"]).append
      ⟨[Node.node ⟨"paragraph", false, false, false⟩ [] [] []]⟩).content = true ∧
    noAdjacentText ((Fragment.mk [Node.text [] "a"]).cut 0 1).content = true ∧
    noAdjacentText (Fragment.fromArray [Node.text [] "a", Node.text [] "b"]).content = true) :=
  ⟨by decide, by decide,
    claim_C5_amended_merge_invariant ⟨[Node.text [] "a"]⟩
      ⟨[Node.node ⟨"paragraph", false, false, false⟩ [] [] []]⟩
      ⟨[Node.text [] "a"]⟩ [Node.text [] "a", Node.text [] "b"] 0 1
      (by decide) (by decide) (by decide)⟩

/-- A slice: a fragment with open depths on both sides
(`model/replace.ts`). -/
structure Slice where
  content : Fragment
  openStart : Int
  openEnd : Int
deriving DecidableEq

/-- `Slice.size`: the size the slice adds when inserted. -/
def Slice.size (s : Slice) : Int := s.content.size - s.openStart - s.openEnd

/-- The shared empty slice. -/
def Slice.empty : Slice := ⟨Fragment.empty, 0, 0⟩

/-- `Slice.eq`. -/
def Slice.eqb (s other : Slice) : Bool :=
  s.content.eqb other.content && s.openStart == other.openStart && s.openEnd == other.openEnd

/-- The `isolating` flag of a node's type spec (text nodes have no such
flag, which is falsy). -/
def Node.isolatingB : Node → Bool
  | .text _ _ => false
  | .node t _ _ _ => t.isolating

mutual

/-- The first loop of `Slice.maxOpen` counted over a node `n`: continue
while `n` exists, is not a leaf, and is not an isolating node being
skipped; then descend into `n.firstChild`. -/
def openDepthStartN (openIsolating : Bool) : Node → Int
  | .text _ _ => 0
  | .node t a ms cs =>
    if t.leaf = true ∨ (openIsolating = false ∧ t.isolating = true) then 0
    else 1 + openDepthStartL openIsolating cs

/-- `openDepthStartN` of a fragment's first child (0 when there is
none). -/
def openDepthStartL (openIsolating : Bool) : List Node → Int
  | [] => 0
  | c :: _ => openDepthStartN openIsolating c

end

mutual

/-- The second loop of `Slice.maxOpen`, descending along last
children. -/
def openDepthEndN (openIsolating : Bool) : Node → Int
  | .text _ _ => 0
  | .node t a ms cs =>
    if t.leaf = true ∨ (openIsolating = false ∧ t.isolating = true) then 0
    else 1 + openDepthEndL openIsolating cs

/-- `openDepthEndN` of a fragment's last child (0 when there is none). -/
def openDepthEndL (openIsolating : Bool) : List Node → Int
  | [] => 0
  | [c] => openDepthEndN openIsolating c
  | _ :: rest => openDepthEndL openIsolating rest

end

/-- `Slice.maxOpen`: a slice taking the maximum possible open depth on
both sides of the fragment (the source's default for `openIsolating` is
`true`). -/
def Slice.maxOpen (fragment : Fragment) (openIsolating : Bool) : Slice :=
  ⟨fragment, openDepthStartL openIsolating fragment.content,
    openDepthEndL openIsolating fragment.content⟩

/-- C8: `Slice.maxOpen` on a fragment that is a single-child chain
wrapping the text leaf "x" (the nested single-child chain of the spec's
scenario, with `ty` the outer, non-leaf node type): with isolating nodes
skipped (`openIsolating = false`) both open depths are 1 when the outer
type is not isolating and 0 when it is isolating; with
`openIsolating = true` (the source default) both open depths are 1. -/
theorem claim_C8_maxOpen_isolating (name : String) (inl iso : Bool)
    (attrs : List (String × String)) :
    ((Slice.maxOpen ⟨[Node.node (NodeType.mk name inl false iso) attrs []
        [Node.text [] "x"]]⟩ false).openStart = if iso = true then 0 else 1) ∧
    ((Slice.maxOpen ⟨[Node.node (NodeType.mk name inl false iso) attrs []
        [Node.text [] "x"]]⟩ false).openEnd = if iso = true then 0 else 1) ∧
    ((Slice.maxOpen ⟨[Node.node (NodeType.mk name inl false iso) attrs []
        [Node.text [] "x"]]⟩ true).openStart = 1) ∧
    ((Slice.maxOpen ⟨[Node.node (NodeType.mk name inl false iso) attrs []
        [Node.text [] "x"]]⟩ true).openEnd = 1) := by
  cases iso with
  | false =>
    refine ⟨?_, ?_, ?_, ?_⟩ <;>
      simp [Slice.maxOpen, openDepthStartL, openDepthStartN,
        openDepthEndL, openDepthEndN]
  | true =>
    refine ⟨?_, ?_, ?_, ?_⟩ <;>
      simp [Slice.maxOpen, openDepthStartL, openDepthStartN,
        openDepthEndL, openDepthEndN]

/-- Modelled from the spec: the result of mapping a position, with the
flag telling whether the position fell in deleted content
(`transform/map.ts` is not among the sources). -/
structure MapResult where
  pos : Int
  deleted : Bool
deriving DecidableEq

/-- Modelled from the spec: the `Mappable` interface as the mark steps
consume it — a position translation `mapResult(pos, assoc)`.  Any
`Mapping` value is used by `AddMarkStep.map`/`RemoveMarkStep.map` only
through this method, so the embedding carries the method itself. -/
structure Mappable where
  mapResultF : Int → Int → MapResult

def Mappable.mapResult (m : Mappable) (pos assoc : Int) : MapResult :=
  m.mapResultF pos assoc

/-- `AddMarkStep` data (the mark-step module). -/
structure AddMarkStep where
  fromPos : Int
  toPos : Int
  mark : Mark
deriving DecidableEq

/-- `RemoveMarkStep` data (the mark-step module). -/
structure RemoveMarkStep where
  fromPos : Int
  toPos : Int
  mark : Mark
deriving DecidableEq

/-- `AddMarkStep.map`: translate `from` with forward bias and `to` with
backward bias; drop the step when both ends are deleted or the range
collapses. -/
def AddMarkStep.map (s : AddMarkStep) (mapping : Mappable) : Option AddMarkStep :=
  if ((mapping.mapResult s.fromPos 1).deleted = true ∧
      (mapping.mapResult s.toPos (-1)).deleted = true) ∨
      (mapping.mapResult s.fromPos 1).pos ≥ (mapping.mapResult s.toPos (-1)).pos then none
  else some ⟨(mapping.mapResult s.fromPos 1).pos, (mapping.mapResult s.toPos (-1)).pos, s.mark⟩

/-- `RemoveMarkStep.map`. -/
def RemoveMarkStep.map (s : RemoveMarkStep) (mapping : Mappable) : Option RemoveMarkStep :=
  if ((mapping.mapResult s.fromPos 1).deleted = true ∧
      (mapping.mapResult s.toPos (-1)).deleted = true) ∨
      (mapping.mapResult s.fromPos 1).pos ≥ (mapping.mapResult s.toPos (-1)).pos then none
  else some ⟨(mapping.mapResult s.fromPos 1).pos, (mapping.mapResult s.toPos (-1)).pos, s.mark⟩

/-- C6: a mark step maps to `none` exactly when both translated endpoints
are deleted or the translated range is empty or inverted; otherwise the
result is the same kind of step with the same mark and the bias-translated
endpoints.  The map functions are total (they never raise an error). -/
theorem claim_C6_markstep_map_noop (s : AddMarkStep) (r : RemoveMarkStep) (m : Mappable) :
    (s.map m = none ↔
      (((m.mapResult s.fromPos 1).deleted = true ∧ (m.mapResult s.toPos (-1)).deleted = true) ∨
        (m.mapResult s.fromPos 1).pos ≥ (m.mapResult s.toPos (-1)).pos)) ∧
    (s.map m = if (((m.mapResult s.fromPos 1).deleted = true ∧
          (m.mapResult s.toPos (-1)).deleted = true) ∨
          (m.mapResult s.fromPos 1).pos ≥ (m.mapResult s.toPos (-1)).pos) then none
      else some ⟨(m.mapResult s.fromPos 1).pos, (m.mapResult s.toPos (-1)).pos, s.mark⟩) ∧
    (r.map m = none ↔
      (((m.mapResult r.fromPos 1).deleted = true ∧ (m.mapResult r.toPos (-1)).deleted = true) ∨
        (m.mapResult r.fromPos 1).pos ≥ (m.mapResult r.toPos (-1)).pos)) ∧
    (r.map m = if (((m.mapResult r.fromPos 1).deleted = true ∧
          (m.mapResult r.toPos (-1)).deleted = true) ∨
          (m.mapResult r.fromPos 1).pos ≥ (m.mapResult r.toPos (-1)).pos) then none
      else some ⟨(m.mapResult r.fromPos 1).pos, (m.mapResult r.toPos (-1)).pos, r.mark⟩) := by
  refine ⟨?_, ?_, ?_, ?_⟩
  · unfold AddMarkStep.map
    split_ifs with h
    · simp [h]
    · simp [h]
  · unfold AddMarkStep.map
    split_ifs with h
    · rfl
    · rfl
  · unfold RemoveMarkStep.map
    split_ifs with h
    · simp [h]
    · simp [h]
  · unfold RemoveMarkStep.map
    split_ifs with h
    · rfl
    · rfl

/-- Modelled from the spec: a StepMap, a sparse set of replacement
ranges (old range, new range, size delta).  `Transform` only carries
these values. -/
structure StepMap where
  ranges : List (Int × Int × Int)

/-- Modelled from the spec: a Mapping as `Transform` maintains it — the
ordered list of the step maps appended so far. -/
structure Mapping where
  maps : List StepMap

def Mapping.appendMap (m : Mapping) (sm : StepMap) : Mapping := ⟨m.maps ++ [sm]⟩

/-- Modelled from the spec: the generic `Step` contract as `Transform`
consumes it: `apply` is a pure function from a document to a result or a
failure, and `getMap` yields the step's position map. -/
structure Step where
  applyF : Node → Except String Node
  getMapF : StepMap

def Step.apply (s : Step) (d : Node) : Except String Node := s.applyF d

def Step.getMap (s : Step) : StepMap := s.getMapF

/-- The `Transform` accumulator state (`transform/transform.ts`). -/
structure Transform where
  doc : Node
  steps : List Step
  docs : List Node
  mapping : Mapping

/-- The `Transform` constructor: current document, no steps, no prior
documents, empty mapping. -/
def Transform.create (doc : Node) : Transform := ⟨doc, [], [], ⟨[]⟩⟩

/-- `Transform.addStep`. -/
def Transform.addStep (tr : Transform) (s : Step) (doc : Node) : Transform :=
  { doc := doc
    steps := tr.steps ++ [s]
    docs := tr.docs ++ [tr.doc]
    mapping := tr.mapping.appendMap s.getMap }

/-- `Transform.maybeStep`: apply the step, record it only on success,
return the step result either way (the source mutates `this`; the
embedding returns the next state). -/
def Transform.maybeStep (tr : Transform) (s : Step) : Except String Node × Transform :=
  match s.apply tr.doc with
  | .ok d => (.ok d, tr.addStep s d)
  | .error msg => (.error msg, tr)

/-- `Transform.step`: like `maybeStep` but a failure becomes a thrown
`TransformError` carrying the failure message. -/
def Transform.step (tr : Transform) (s : Step) : Except String Transform :=
  match tr.maybeStep s with
  | (.error msg, _) => .error msg
  | (.ok _, tr2) => .ok tr2

/-- `Transform.docChanged`. -/
def Transform.docChanged (tr : Transform) : Bool := decide (0 < tr.steps.length)

/-- `Transform.before`. -/
def Transform.before (tr : Transform) : Node :=
  match tr.docs.head? with
  | some d => d
  | none => tr.doc

/-- C7: when a step's `apply` fails, `maybeStep` returns the failed
result and leaves the transform (doc, steps, docs, mapping) unchanged,
while `step` surfaces the failure as a fatal transform error; when it
succeeds, both record the step, push the prior document, append the
step's map and advance the document. -/
theorem claim_C7_transform_failure_atomicity (tr : Transform) (s : Step)
    (msg : String) (d : Node) :
    (s.apply tr.doc = .error msg →
      tr.maybeStep s = (.error msg, tr) ∧ tr.step s = .error msg) ∧
    (s.apply tr.doc = .ok d →
      tr.maybeStep s = (.ok d,
        { doc := d
          steps := tr.steps ++ [s]
          docs := tr.docs ++ [tr.doc]
          mapping := tr.mapping.appendMap s.getMap }) ∧
      tr.step s = .ok
        { doc := d
          steps := tr.steps ++ [s]
          docs := tr.docs ++ [tr.doc]
          mapping := tr.mapping.appendMap s.getMap }) := by
  constructor
  · intro h
    constructor
    · unfold Transform.maybeStep
      rw [h]
    · unfold Transform.step Transform.maybeStep
      rw [h]
  · intro h
    constructor
    · unfold Transform.maybeStep
      rw [h]
      rfl
    · unfold Transform.step Transform.maybeStep
      rw [h]
      rfl

theorem claim_C7_transform_failure_atomicity_witness :
    ((Step.mk (fun _ => Except.error "fail") ⟨[]⟩).apply
        (Transform.create (Node.text [] "x")).doc = .error "fail" →
      (Transform.create (Node.text [] "x")).maybeStep
          (Step.mk (fun _ => Except.error "fail") ⟨[]⟩) =
        (.error "fail", Transform.create (Node.text [] "x")) ∧
      (Transform.create (Node.text [] "x")).step
          (Step.mk (fun _ => Except.error "fail") ⟨[]⟩) = .error "fail") ∧
    ((Step.mk (fun _ => Except.error "fail") ⟨[]⟩).apply
        (Transform.create (Node.text [] "x")).doc = .ok (Node.text [] "y") →
      (Transform.create (Node.text [] "x")).maybeStep
          (Step.mk (fun _ => Except.error "fail") ⟨[]⟩) =
        (.ok (Node.text [] "y"),
          { doc := Node.text [] "y"
            steps := (Transform.create (Node.text [] "x")).steps ++
              [Step.mk (fun _ => Except.error "fail") ⟨[]⟩]
            docs := (Transform.create (Node.text [] "x")).docs ++
              [(Transform.create (Node.text [] "x")).doc]
            mapping := (Transform.create (Node.text [] "x")).mapping.appendMap
              (Step.mk (fun _ => Except.error "fail") ⟨[]⟩).getMap }) ∧
      (Transform.create (Node.text [] "x")).step
          (Step.mk (fun _ => Except.error "fail") ⟨[]⟩) = .ok
        { doc := Node.text [] "y"
          steps := (Transform.create (Node.text [] "x")).steps ++
            [Step.mk (fun _ => Except.error "fail") ⟨[]⟩]
          docs := (Transform.create (Node.text [] "x")).docs ++
            [(Transform.create (Node.text [] "x")).doc]
          mapping := (Transform.create (Node.text [] "x")).mapping.appendMap
            (Step.mk (fun _ => Except.error "fail") ⟨[]⟩).getMap }) :=
  claim_C7_transform_failure_atomicity (Transform.create (Node.text [] "x"))
    (Step.mk (fun _ => Except.error "fail") ⟨[]⟩) "fail" (Node.text [] "y")

/-- Modelled from the spec: the JSON shape of a mark
(`{type, attrs}`). -/
structure MarkJSON where
  type : String
  attrs : List (String × String)
deriving DecidableEq

/-- Modelled from the spec: the JSON shape of a node (`{type, attrs,
marks, content}` for containers, `{text, marks}` for text nodes). -/
inductive NodeJSON where
  | text : List MarkJSON → String → NodeJSON
  | node : String → List (String × String) → List MarkJSON → List NodeJSON → NodeJSON

/-- The JSON object `Slice.toJSON` produces: content (the fragment JSON,
`null` for the empty fragment), and the two open depths, each omitted
when 0. -/
structure SliceJSON where
  content : Option (List NodeJSON)
  openStart : Option Int
  openEnd : Option Int

/-- Modelled from the spec: the schema contract the core consumes —
node and mark type lookup by name (for the deserializers), content-model
validation, content compatibility for joins, and mark admissibility
(section 6: the core calls into these but does not define them). -/
structure Schema where
  nodeTypeByName : String → Option NodeType
  markTypeByName : String → Option MarkType
  validContent : NodeType → List Node → Bool
  compatibleContent : NodeType → NodeType → Bool
  allowsMarkType : NodeType → MarkType → Bool

def markToJSON (m : Mark) : MarkJSON := ⟨m.type.name, m.attrs⟩

/-- Modelled from the spec: mark deserialization fails on an unknown
type name. -/
def markFromJSON (sch : Schema) (j : MarkJSON) : Except String Mark :=
  match sch.markTypeByName j.type with
  | some t => .ok ⟨t, j.attrs⟩
  | none => .error ("There is no mark type " ++ j.type ++ " in this schema")

def marksFromJSON (sch : Schema) : List MarkJSON → Except String (List Mark)
  | [] => .ok []
  | j :: rest =>
    match markFromJSON sch j with
    | .error e => .error e
    | .ok m =>
      match marksFromJSON sch rest with
      | .error e => .error e
      | .ok ms => .ok (m :: ms)

mutual

/-- Modelled from the spec: `Node.toJSON`. -/
def nodeToJSON : Node → NodeJSON
  | .text ms s => .text (ms.map markToJSON) s
  | .node t a ms cs => .node t.name a (ms.map markToJSON) (nodesToJSON cs)

def nodesToJSON : List Node → List NodeJSON
  | [] => []
  | c :: rest => nodeToJSON c :: nodesToJSON rest

end

mutual

/-- Modelled from the spec: `schema.nodeFromJSON`, failing on unknown
type names. -/
def nodeFromJSON (sch : Schema) : NodeJSON → Except String Node
  | .text ms s =>
    match marksFromJSON sch ms with
    | .error e => .error e
    | .ok msN => .ok (.text msN s)
  | .node name attrs ms cs =>
    match sch.nodeTypeByName name with
    | none => .error ("Unknown node type: " ++ name)
    | some t =>
      match marksFromJSON sch ms with
      | .error e => .error e
      | .ok msN =>
        match nodesFromJSON sch cs with
        | .error e => .error e
        | .ok csN => .ok (.node t attrs msN csN)

def nodesFromJSON (sch : Schema) : List NodeJSON → Except String (List Node)
  | [] => .ok []
  | c :: rest =>
    match nodeFromJSON sch c with
    | .error e => .error e
    | .ok n =>
      match nodesFromJSON sch rest with
      | .error e => .error e
      | .ok ns => .ok (n :: ns)

end

/-- `Fragment.toJSON`: the mapped child array, or `null` when there are
no children. -/
def Fragment.toJSON (fr : Fragment) : Option (List NodeJSON) :=
  match fr.content with
  | [] => none
  | _ => some (nodesToJSON fr.content)

/-- `Fragment.fromJSON`: `null`-ish input gives the empty fragment; an
array is deserialized child by child (the `Array.isArray` check of the
source is satisfied by the typed embedding). -/
def Fragment.fromJSON (sch : Schema) : Option (List NodeJSON) → Except String Fragment
  | none => .ok Fragment.empty
  | some arr =>
    match nodesFromJSON sch arr with
    | .error e => .error e
    | .ok ns => .ok ⟨ns⟩

/-- `Slice.toJSON`: `null` for a contentless slice; otherwise the content
JSON with `openStart`/`openEnd` present only when positive. -/
def Slice.toJSON (s : Slice) : Option SliceJSON :=
  if s.content.size = 0 then none
  else some ⟨s.content.toJSON,
    if s.openStart > 0 then some s.openStart else none,
    if s.openEnd > 0 then some s.openEnd else none⟩

/-- `Slice.fromJSON`: `null`-ish input gives the empty slice; missing
`openStart`/`openEnd` mean 0 (the `typeof` check of the source is
satisfied by the typed embedding). -/
def Slice.fromJSON (sch : Schema) : Option SliceJSON → Except String Slice
  | none => .ok Slice.empty
  | some ⟨content, openStart, openEnd⟩ =>
    match Fragment.fromJSON sch content with
    | .error e => .error e
    | .ok fr => .ok ⟨fr, openStart.getD 0, openEnd.getD 0⟩

def marksAgree (sch : Schema) (ms : List Mark) : Bool :=
  ms.all (fun m => sch.markTypeByName m.type.name == some m.type)

mutual

/-- Every node and mark type appearing in the node resolves to itself in
the given schema (the coherence every schema grants its own nodes). -/
def Node.typesAgree (sch : Schema) : Node → Bool
  | .text ms _ => marksAgree sch ms
  | .node t _ ms cs =>
    (sch.nodeTypeByName t.name == some t) && marksAgree sch ms && nodesAgree sch cs

def nodesAgree (sch : Schema) : List Node → Bool
  | [] => true
  | c :: rest => c.typesAgree sch && nodesAgree sch rest

end

theorem marksFromJSON_roundtrip (sch : Schema) (ms : List Mark)
    (h : marksAgree sch ms = true) :
    marksFromJSON sch (ms.map markToJSON) = .ok ms := by
  induction ms with
  | nil => rfl
  | cons m rest ih =>
    simp only [marksAgree, List.all_cons, Bool.and_eq_true, beq_iff_eq] at h
    obtain ⟨h1, h2⟩ := h
    rw [List.map_cons, marksFromJSON]
    have hm : markFromJSON sch (markToJSON m) = .ok m := by
      unfold markFromJSON markToJSON
      rw [h1]
    rw [hm]
    rw [ih (by simp [marksAgree, h2])]

mutual

theorem nodeFromJSON_roundtrip (sch : Schema) :
    ∀ n : Node, Node.typesAgree sch n = true →
      nodeFromJSON sch (nodeToJSON n) = .ok n
  | .text ms s => by
    intro h
    rw [Node.typesAgree] at h
    rw [nodeToJSON, nodeFromJSON]
    rw [marksFromJSON_roundtrip sch ms h]
  | .node t a ms cs => by
    intro h
    rw [Node.typesAgree] at h
    simp only [Bool.and_eq_true, beq_iff_eq] at h
    obtain ⟨⟨h1, h2⟩, h3⟩ := h
    rw [nodeToJSON, nodeFromJSON]
    rw [h1]
    rw [marksFromJSON_roundtrip sch ms h2]
    rw [nodesFromJSON_roundtrip sch cs h3]

theorem nodesFromJSON_roundtrip (sch : Schema) :
    ∀ cs : List Node, nodesAgree sch cs = true →
      nodesFromJSON sch (nodesToJSON cs) = .ok cs
  | [] => by
    intro h
    rfl
  | c :: rest => by
    intro h
    rw [nodesAgree] at h
    simp only [Bool.and_eq_true] at h
    rw [nodesToJSON, nodesFromJSON]
    rw [nodeFromJSON_roundtrip sch c h.1]
    rw [nodesFromJSON_roundtrip sch rest h.2]

end

/-- Well-formed slice: well-formed content, nonnegative open depths, and
open depths bounded by the open depth of the content's boundary chains
(the invariant of the data model for slices). -/
def Slice.wfB (s : Slice) : Bool :=
  wfLB s.content.content && decide (0 ≤ s.openStart) && decide (0 ≤ s.openEnd) &&
  decide (s.openStart ≤ openDepthStartL true s.content.content) &&
  decide (s.openEnd ≤ openDepthEndL true s.content.content)

/-- C9: Slice JSON round-trip: for well-formed slices whose types live in
the schema, `toJSON` yields `null` exactly for contentless slices (which
`fromJSON` maps back to the empty slice), omits `openStart`/`openEnd`
exactly when they are 0, and `fromJSON (toJSON s)` is structurally equal
(`eq`) to `s`. -/
theorem claim_C9_slice_json_roundtrip (sch : Schema) (s : Slice)
    (hw : s.wfB = true) (hagree : nodesAgree sch s.content.content = true) :
    (s.toJSON = none ↔ s.content.size = 0) ∧
    (∀ j, s.toJSON = some j →
      (j.openStart = if 0 < s.openStart then some s.openStart else none) ∧
      (j.openEnd = if 0 < s.openEnd then some s.openEnd else none)) ∧
    (∃ s2, Slice.fromJSON sch s.toJSON = .ok s2 ∧ s2.eqb s = true) := by
  unfold Slice.wfB at hw
  simp only [Bool.and_eq_true, decide_eq_true_eq] at hw
  obtain ⟨⟨⟨⟨hwl, hos⟩, hoe⟩, hbs⟩, hbe⟩ := hw
  refine ⟨?_, ?_, ?_⟩
  · unfold Slice.toJSON
    split_ifs with h
    · simp [h]
    · simp [h]
  · intro j hj
    unfold Slice.toJSON at hj
    by_cases h : s.content.size = 0
    · rw [if_pos h] at hj
      simp at hj
    · rw [if_neg h] at hj
      have hj2 := Option.some.inj hj
      subst hj2
      exact ⟨rfl, rfl⟩
  · unfold Slice.toJSON
    by_cases h : s.content.size = 0
    · rw [if_pos h]
      -- contentless: openStart and openEnd are 0 because the boundary
      -- chain of the empty content has depth 0
      have hnil : s.content.content = [] := sizeL_zero_nil hwl h
      have h1 : s.openStart = 0 := by
        rw [hnil] at hbs
        unfold openDepthStartL at hbs
        omega
      have h2 : s.openEnd = 0 := by
        rw [hnil] at hbe
        unfold openDepthEndL at hbe
        omega
      refine ⟨Slice.empty, rfl, ?_⟩
      unfold Slice.eqb Slice.empty Fragment.eqb Fragment.empty
      rw [hnil, h1, h2]
      rfl
    · rw [if_neg h]
      have hne : s.content.content ≠ [] := by
        intro hnil
        exact h (by rw [Fragment.size, hnil]; rfl)
      have h1 : s.content.toJSON = some (nodesToJSON s.content.content) := by
        unfold Fragment.toJSON
        cases hfc : s.content.content with
        | nil => exact absurd hfc hne
        | cons c rest => rfl
      have hfj : Fragment.fromJSON sch s.content.toJSON = .ok s.content := by
        rw [h1]
        show (match nodesFromJSON sch (nodesToJSON s.content.content) with
          | Except.error e => Except.error e
          | Except.ok ns => Except.ok (Fragment.mk ns)) = Except.ok s.content
        rw [nodesFromJSON_roundtrip sch s.content.content hagree]
      rw [Slice.fromJSON]
      rw [hfj]
      have e1 : (if s.openStart > 0 then some s.openStart else none).getD 0 = s.openStart := by
        split_ifs with hgt
        · rfl
        · simp only [Option.getD]
          omega
      have e2 : (if s.openEnd > 0 then some s.openEnd else none).getD 0 = s.openEnd := by
        split_ifs with hgt
        · rfl
        · simp only [Option.getD]
          omega
      rw [e1, e2]
      refine ⟨⟨s.content, s.openStart, s.openEnd⟩, rfl, ?_⟩
      unfold Slice.eqb Fragment.eqb
      simp [eqbL_iff]

theorem claim_C9_slice_json_roundtrip_witness :
    (Slice.mk ⟨[Node.node (NodeType.mk "paragraph" false false false) [] []
        [Node.text [] "hi"]]⟩ 1 1).wfB = true ∧
    nodesAgree (Schema.mk
        (fun nm => if nm == "paragraph" then some (NodeType.mk "paragraph" false false false) else none)
        (fun _ => none) (fun _ _ => true) (fun _ _ => true) (fun _ _ => true))
      (Slice.mk ⟨[Node.node (NodeType.mk "paragraph" false false false) [] []
        [Node.text [] "hi"]]⟩ 1 1).content.content = true ∧
    (((Slice.mk ⟨[Node.node (NodeType.mk "paragraph" false false false) [] []
        [Node.text [] "hi"]]⟩ 1 1).toJSON = none ↔
      (Slice.mk ⟨[Node.node (NodeType.mk "paragraph" false false false) [] []
        [Node.text [] "hi"]]⟩ 1 1).content.size = 0) ∧
    (∀ j, (Slice.mk ⟨[Node.node (NodeType.mk "paragraph" false false false) [] []
        [Node.text [] "hi"]]⟩ 1 1).toJSON = some j →
      (j.openStart = if 0 < (Slice.mk ⟨[Node.node (NodeType.mk "paragraph" false false false) [] []
        [Node.text [] "hi"]]⟩ 1 1).openStart then some (Slice.mk ⟨[Node.node (NodeType.mk "paragraph" false false false) [] []
        [Node.text [] "hi"]]⟩ 1 1).openStart else none) ∧
      (j.openEnd = if 0 < (Slice.mk ⟨[Node.node (NodeType.mk "paragraph" false false false) [] []
        [Node.text [] "hi"]]⟩ 1 1).openEnd then some (Slice.mk ⟨[Node.node (NodeType.mk "paragraph" false false false) [] []
        [Node.text [] "hi"]]⟩ 1 1).openEnd else none)) ∧
    (∃ s2, Slice.fromJSON (Schema.mk
        (fun nm => if nm == "paragraph" then some (NodeType.mk "paragraph" false false false) else none)
        (fun _ => none) (fun _ _ => true) (fun _ _ => true) (fun _ _ => true))
        (Slice.mk ⟨[Node.node (NodeType.mk "paragraph" false false false) [] []
          [Node.text [] "hi"]]⟩ 1 1).toJSON = .ok s2 ∧
      s2.eqb (Slice.mk ⟨[Node.node (NodeType.mk "paragraph" false false false) [] []
        [Node.text [] "hi"]]⟩ 1 1) = true)) :=
  ⟨by decide, by decide,
    claim_C9_slice_json_roundtrip
      (Schema.mk
        (fun nm => if nm == "paragraph" then some (NodeType.mk "paragraph" false false false) else none)
        (fun _ => none) (fun _ _ => true) (fun _ _ => true) (fun _ _ => true))
      (Slice.mk ⟨[Node.node (NodeType.mk "paragraph" false false false) [] []
        [Node.text [] "hi"]]⟩ 1 1)
      (by decide) (by decide)⟩

/-- The error taxonomy of the replace layer: a thrown `RangeError` or a
thrown `ReplaceError` (the structural-replace/join/content-validity
faults). -/
inductive PMErr where
  | range : String → PMErr
  | repl : String → PMErr
deriving DecidableEq

instance {α β : Type} [DecidableEq α] [DecidableEq β] : DecidableEq (Except α β) :=
  fun a b =>
    match a, b with
    | .ok x, .ok y =>
      if h : x = y then isTrue (by rw [h]) else isFalse (by intro hc; cases hc; exact h rfl)
    | .error x, .error y =>
      if h : x = y then isTrue (by rw [h]) else isFalse (by intro hc; cases hc; exact h rfl)
    | .ok _, .error _ => isFalse (by intro hc; cases hc)
    | .error _, .ok _ => isFalse (by intro hc; cases hc)

/-- The node type carried by a node (text nodes all have the schema text
type, embedded as a fixed value). -/
def textType : NodeType := ⟨"text", true, true, false⟩

def Node.typeOf : Node → NodeType
  | .text _ _ => textType
  | .node t _ _ _ => t

/-- The loop of `Fragment.findIndex` (the empty-list fallthrough is
unreachable for positions strictly inside the fragment). -/
def findIndexGo (pos round : Int) : List Node → Nat → Int → Nat × Int
  | [], i, curPos => (i, curPos)
  | c :: rest, i, curPos =>
    if curPos + c.nodeSize ≥ pos then
      if curPos + c.nodeSize = pos ∨ round > 0 then (i + 1, curPos + c.nodeSize)
      else (i, curPos)
    else findIndexGo pos round rest (i + 1) (curPos + c.nodeSize)

/-- `Fragment.findIndex`: the child index and child start offset of a
size offset (throwing a range fault outside [0, size]). -/
def Fragment.findIndex (fr : Fragment) (pos round : Int) : Except PMErr (Nat × Int) :=
  if pos = 0 then .ok (0, pos)
  else if pos = fr.size then .ok (fr.content.length, pos)
  else if pos > fr.size ∨ pos < 0 then .error (.range "Position outside of fragment")
  else .ok (findIndexGo pos round fr.content 0 0)

/-- Modelled from the spec: a resolved position
(`model/resolvedpos.ts` is not among the sources): the absolute
position, the ancestor path — one `(parent node, child index, absolute
start position of the indexed child)` triple per depth — and the offset
into the deepest parent. -/
structure ResolvedPos where
  pos : Int
  path : List (Node × Nat × Int)
  parentOffset : Int
deriving DecidableEq

def ResolvedPos.depth (p : ResolvedPos) : Nat := p.path.length - 1

def ResolvedPos.node (p : ResolvedPos) (d : Nat) : Node :=
  (p.path.getD d (Node.text [] "", 0, 0)).1

def ResolvedPos.index (p : ResolvedPos) (d : Nat) : Nat :=
  (p.path.getD d (Node.text [] "", 0, 0)).2.1

/-- The third path component: the absolute position at which the indexed
child of the depth-`d` ancestor starts. -/
def ResolvedPos.childStart (p : ResolvedPos) (d : Nat) : Int :=
  (p.path.getD d (Node.text [] "", 0, 0)).2.2

def ResolvedPos.parent (p : ResolvedPos) : Node := p.node p.depth

/-- `ResolvedPos.start(depth)`: the absolute position where the content
of the depth-`d` ancestor starts. -/
def ResolvedPos.start (p : ResolvedPos) (d : Nat) : Int :=
  match d with
  | 0 => 0
  | e + 1 => p.childStart e + 1

/-- `ResolvedPos.textOffset`: how far the position is into the text node
it points into (0 at a child boundary). -/
def ResolvedPos.textOffset (p : ResolvedPos) : Int := p.pos - p.childStart p.depth

/-- `Node.cut` with the default second bound (the node's content size or
text length). -/
def Node.cutDefault (n : Node) (f : Int) : Node :=
  match n with
  | .text ms s => Node.cut (.text ms s) f s.length
  | .node ty a ms cs => Node.cut (.node ty a ms cs) f (sizeL cs)

/-- `ResolvedPos.nodeAfter`. -/
def ResolvedPos.nodeAfter (p : ResolvedPos) : Option Node :=
  if p.index p.depth = p.parent.contentList.length then none
  else if p.pos - p.childStart p.depth ≠ 0 then
    some (((Fragment.mk p.parent.contentList).child (p.index p.depth)).cutDefault
      (p.pos - p.childStart p.depth))
  else some ((Fragment.mk p.parent.contentList).child (p.index p.depth))

/-- `ResolvedPos.nodeBefore`. -/
def ResolvedPos.nodeBefore (p : ResolvedPos) : Option Node :=
  if p.pos - p.childStart p.depth ≠ 0 then
    some (((Fragment.mk p.parent.contentList).child (p.index p.depth)).cut 0
      (p.pos - p.childStart p.depth))
  else if p.index p.depth = 0 then none
  else some ((Fragment.mk p.parent.contentList).child (p.index p.depth - 1))

mutual

/-- Structural depth of a node (a fuel bound for descent loops). -/
def Node.depthNat : Node → Nat
  | .text _ _ => 0
  | .node _ _ _ cs => depthLNat cs + 1

def depthLNat : List Node → Nat
  | [] => 0
  | c :: cs => max c.depthNat (depthLNat cs)

end

/-- The loop of `resolve` (modelled from the spec: `ResolvedPos.resolve`
of `model/resolvedpos.ts` is not among the sources).  The fuel only
bounds the descent, which the node depth already bounds. -/
def resolveGo (pos : Int) : Nat → Node → Int → Int → List (Node × Nat × Int) →
    Except PMErr ResolvedPos
  | 0, _, _, _, _ => .error (.range "resolve: out of fuel")
  | fuel + 1, node, parentOffset, start, path =>
    match (Fragment.mk node.contentList).findIndex parentOffset (-1) with
    | .error e => .error e
    | .ok (index, offset) =>
      if parentOffset - offset = 0 then
        .ok ⟨pos, path ++ [(node, index, start + offset)], parentOffset⟩
      else
        match node.contentList.get? index with
        | none => .error (.range "resolve: missing child")
        | some child =>
          if child.isText then
            .ok ⟨pos, path ++ [(node, index, start + offset)], parentOffset⟩
          else
            resolveGo pos fuel child (parentOffset - offset - 1) (start + offset + 1)
              (path ++ [(node, index, start + offset)])

/-- `Node.resolve` (and `resolveNoCache`, the same computation). -/
def Node.resolve (doc : Node) (pos : Int) : Except PMErr ResolvedPos :=
  if pos < 0 ∨ pos > doc.contentSize then
    .error (.range "Position out of range")
  else resolveGo pos (doc.depthNat + 1) doc pos 0 []

/-- `checkJoin`: the join fault when the joined content models are not
compatible. -/
def checkJoin (sch : Schema) (main sub : Node) : Except PMErr Unit :=
  if sch.compatibleContent sub.typeOf main.typeOf then .ok ()
  else .error (.repl ("Cannot join " ++ sub.typeOf.name ++ " onto " ++ main.typeOf.name))

/-- `joinable`. -/
def joinable (sch : Schema) (pb pa : ResolvedPos) (depth : Nat) : Except PMErr Node :=
  match checkJoin sch (pb.node depth) (pa.node depth) with
  | .error e => .error e
  | .ok _ => .ok (pb.node depth)

/-- `addNode`: push a child onto the assembled content, merging a
text/text boundary with identical markup. -/
def addNodeL (child : Node) (target : List Node) : List Node :=
  match target.getLast? with
  | some last =>
    if child.isText = true ∧ child.sameMarkup last = true then
      target.dropLast ++ [child.withText (last.textStr ++ child.textStr)]
    else target ++ [child]
  | none => [child]

/-- The child-copy loop of `addRange`, adding `count` children starting
at index `i`. -/
def addChildrenGo (node : Node) : Nat → Nat → List Node → List Node
  | _, 0, target => target
  | i, count + 1, target =>
    addChildrenGo node (i + 1) count
      (addNodeL ((Fragment.mk node.contentList).child i) target)

/-- The start-side bookkeeping of `addRange`: the start index and the
target extended with the partial text node after `$start` when the
position sits inside one (`$start.nodeAfter` cannot be missing there; the
none-branch is unreachable). -/
def addRangeStart (os : Option ResolvedPos) (depth : Nat) (target : List Node) :
    Nat × List Node :=
  match os with
  | none => (0, target)
  | some st =>
    if st.depth > depth then (st.index depth + 1, target)
    else if st.textOffset ≠ 0 then
      (st.index depth + 1,
        match st.nodeAfter with
        | some n => addNodeL n target
        | none => target)
    else (st.index depth, target)

/-- The end-side bookkeeping of `addRange` (the partial text node before
`$end`). -/
def addRangeEnd (oe : Option ResolvedPos) (depth : Nat) (target : List Node) : List Node :=
  match oe with
  | some e =>
    if e.depth = depth ∧ e.textOffset ≠ 0 then
      match e.nodeBefore with
      | some n => addNodeL n target
      | none => target
    else target
  | none => target

/-- The node `addRange` reads children from (`($end || $start).node(depth)`;
both missing is unreachable). -/
def rangeNode (os oe : Option ResolvedPos) (depth : Nat) : Node :=
  match oe, os with
  | some e, _ => e.node depth
  | none, some st => st.node depth
  | none, none => Node.text [] ""

/-- The end index of `addRange`. -/
def rangeEndIndex (oe : Option ResolvedPos) (node : Node) (depth : Nat) : Nat :=
  match oe with
  | some e => e.index depth
  | none => node.contentList.length

/-- `addRange`: append the children of the depth-`depth` ancestor lying
between `$start` (or the content start) and `$end` (or the content end),
with partial text nodes at both ends. -/
def addRangeL (os oe : Option ResolvedPos) (depth : Nat) (target : List Node) : List Node :=
  addRangeEnd oe depth
    (addChildrenGo (rangeNode os oe depth) (addRangeStart os depth target).1
      (rangeEndIndex oe (rangeNode os oe depth) depth - (addRangeStart os depth target).1)
      (addRangeStart os depth target).2)

/-- `close`: validate assembled content against the node type before
copying it into the node. -/
def close (sch : Schema) (node : Node) (content : List Node) : Except PMErr Node :=
  if sch.validContent node.typeOf content then .ok (node.copy content)
  else .error (.repl ("Invalid content for node " ++ node.typeOf.name))

/-- `replaceTwoWay` (fuel-indexed; the fuel only bounds the depth
recursion, which the resolved depths already bound). -/
def replaceTwoWay : Nat → Schema → ResolvedPos → ResolvedPos → Nat → Except PMErr (List Node)
  | 0, _, _, _, _ => .error (.range "replace: out of fuel")
  | fuel + 1, sch, pf, pt, depth =>
    if pf.depth > depth then
      match joinable sch pf pt (depth + 1) with
      | .error e => .error e
      | .ok ty =>
        match replaceTwoWay fuel sch pf pt (depth + 1) with
        | .error e => .error e
        | .ok inner =>
          match close sch ty inner with
          | .error e => .error e
          | .ok closed =>
            .ok (addRangeL (some pt) none depth
              (addNodeL closed (addRangeL none (some pf) depth [])))
    else .ok (addRangeL (some pt) none depth (addRangeL none (some pf) depth []))

/-- The non-nested assembly of `replaceThreeWay` (open start side, middle
range, open end side). -/
def threeWayMiddle (fuel : Nat) (sch : Schema) (pf ps pe pt : ResolvedPos) (depth : Nat)
    (openStart openEnd : Option Node) (content0 : List Node) : Except PMErr (List Node) :=
  match (match openStart with
         | some osN =>
           match replaceTwoWay fuel sch pf ps (depth + 1) with
           | .error e => Except.error e
           | .ok inner =>
             match close sch osN inner with
             | .error e => Except.error e
             | .ok closed => Except.ok (addNodeL closed content0)
         | none => Except.ok content0) with
  | .error e => .error e
  | .ok content1 =>
    match (match openEnd with
           | some oeN =>
             match replaceTwoWay fuel sch pe pt (depth + 1) with
             | .error e => Except.error e
             | .ok inner =>
               match close sch oeN inner with
               | .error e => Except.error e
               | .ok closed =>
                 Except.ok (addNodeL closed (addRangeL (some ps) (some pe) depth content1))
           | none => Except.ok (addRangeL (some ps) (some pe) depth content1)) with
    | .error e => .error e
    | .ok content3 => .ok (addRangeL (some pt) none depth content3)

/-- `replaceThreeWay`. -/
def replaceThreeWay : Nat → Schema → ResolvedPos → ResolvedPos → ResolvedPos → ResolvedPos →
    Nat → Except PMErr (List Node)
  | 0, _, _, _, _, _, _ => .error (.range "replace: out of fuel")
  | fuel + 1, sch, pf, ps, pe, pt, depth =>
    match (if pf.depth > depth then
             match joinable sch pf ps (depth + 1) with
             | .error e => Except.error e
             | .ok n => Except.ok (some n)
           else Except.ok none) with
    | .error e => .error e
    | .ok openStart =>
      match (if pt.depth > depth then
               match joinable sch pe pt (depth + 1) with
               | .error e => Except.error e
               | .ok n => Except.ok (some n)
             else Except.ok none) with
      | .error e => .error e
      | .ok openEnd =>
        match openStart, openEnd with
        | some osN, some oeN =>
          if ps.index depth = pe.index depth then
            match checkJoin sch osN oeN with
            | .error e => .error e
            | .ok _ =>
              match replaceThreeWay fuel sch pf ps pe pt (depth + 1) with
              | .error e => .error e
              | .ok inner =>
                match close sch osN inner with
                | .error e => .error e
                | .ok closed =>
                  .ok (addRangeL (some pt) none depth
                    (addNodeL closed (addRangeL none (some pf) depth [])))
          else
            threeWayMiddle fuel sch pf ps pe pt depth (some osN) (some oeN)
              (addRangeL none (some pf) depth [])
        | osO, oeO =>
          threeWayMiddle fuel sch pf ps pe pt depth osO oeO
            (addRangeL none (some pf) depth [])

/-- The wrapping loop of `prepareSliceForReplace` (`i` from `extra - 1`
down to 0). -/
def prepWrap (along : ResolvedPos) : Nat → Node → Node
  | 0, node => node
  | i + 1, node => prepWrap along i ((along.node i).copy [node])

/-- `prepareSliceForReplace`: wrap the slice content in copies of the
ancestors of `$along` and resolve the two boundary positions inside the
synthetic tree. -/
def prepareSliceForReplace (slice : Slice) (along : ResolvedPos) :
    Except PMErr (ResolvedPos × ResolvedPos) :=
  match ((along.depth : Int) - slice.openStart).toNat with
  | extra =>
    match prepWrap along extra ((along.node extra).copy slice.content.content) with
    | node =>
      match node.resolve (slice.openStart + extra) with
      | .error e => .error e
      | .ok start =>
        match node.resolve (sizeL node.contentList - slice.openEnd - extra) with
        | .error e => .error e
        | .ok endR => .ok (start, endR)

/-- `replaceOuter`. -/
def replaceOuter : Nat → Schema → ResolvedPos → ResolvedPos → Slice → Nat → Except PMErr Node
  | 0, _, _, _, _, _ => .error (.range "replace: out of fuel")
  | fuel + 1, sch, pf, pt, slice, depth =>
    if pf.index depth = pt.index depth ∧ (depth : Int) < (pf.depth : Int) - slice.openStart then
      match replaceOuter fuel sch pf pt slice (depth + 1) with
      | .error e => .error e
      | .ok inner =>
        .ok ((pf.node depth).copy
          ((Fragment.mk (pf.node depth).contentList).replaceChild (pf.index depth) inner).content)
    else if slice.content.size = 0 then
      match replaceTwoWay fuel sch pf pt depth with
      | .error e => .error e
      | .ok content => close sch (pf.node depth) content
    else if slice.openStart = 0 ∧ slice.openEnd = 0 ∧ pf.depth = depth ∧ pt.depth = depth then
      close sch pf.parent
        ((((Fragment.mk pf.parent.contentList).cut 0 pf.parentOffset).append
          slice.content).append
          ((Fragment.mk pf.parent.contentList).cutFrom pt.parentOffset)).content
    else
      match prepareSliceForReplace slice pf with
      | .error e => .error e
      | .ok (start, endR) =>
        match replaceThreeWay fuel sch pf start endR pt depth with
        | .error e => .error e
        | .ok content => close sch (pf.node depth) content

/-- A fuel bound sufficient for every depth recursion of the replace
algorithm on the given resolved positions. -/
def replFuel (pf pt : ResolvedPos) : Nat := 2 * (pf.depth + pt.depth) + 4

/-- `replace($from, $to, slice)` of `model/replace.ts`: the two
structural preconditions, then the recursive descent. -/
def replaceE (sch : Schema) (pf pt : ResolvedPos) (slice : Slice) : Except PMErr Node :=
  if slice.openStart > (pf.depth : Int) then
    .error (.repl "Inserted content deeper than insertion position")
  else if (pf.depth : Int) - slice.openStart ≠ (pt.depth : Int) - slice.openEnd then
    .error (.repl "Inconsistent open depths")
  else replaceOuter (replFuel pf pt) sch pf pt slice 0

/-- `Node.replace(from, to, slice)` (modelled from the spec: resolve the
endpoints and run the replace algorithm). -/
def Node.replaceAt (doc : Node) (sch : Schema) (f t : Int) (slice : Slice) :
    Except PMErr Node :=
  match doc.resolve f with
  | .error e => .error e
  | .ok pf =>
    match doc.resolve t with
    | .error e => .error e
    | .ok pt => replaceE sch pf pt slice

/-- The loop of `ResolvedPos.sharedDepth` (modelled from the spec:
deepest depth whose node contains both this position and `pos`). -/
def ResolvedPos.sharedDepthGo (p : ResolvedPos) (pos : Int) : Nat → Nat
  | 0 => 0
  | d + 1 =>
    if p.start (d + 1) ≤ pos ∧ pos ≤ p.start (d + 1) + (p.node (d + 1)).contentSize
    then d + 1
    else p.sharedDepthGo pos d

def ResolvedPos.sharedDepth (p : ResolvedPos) (pos : Int) : Nat :=
  p.sharedDepthGo pos p.depth

/-- `Node.slice(from, to)` (modelled from the spec, without
`includeParents`): cut the shared ancestor's content and record the open
depths. -/
def Node.sliceE (doc : Node) (f t : Int) : Except PMErr Slice :=
  if f = t then .ok Slice.empty
  else
    match doc.resolve f with
    | .error e => .error e
    | .ok pf =>
      match doc.resolve t with
      | .error e => .error e
      | .ok pt =>
        .ok ⟨⟨cutL (pf.node (pf.sharedDepth t)).contentList
            (pf.pos - pf.start (pf.sharedDepth t)) (pt.pos - pf.start (pf.sharedDepth t))⟩,
          (pf.depth : Int) - (pf.sharedDepth t : Int),
          (pt.depth : Int) - (pf.sharedDepth t : Int)⟩

/-- Mark-type exclusion (modelled from the spec: the resolved `excludes`
set of the schema, by type name). -/
def MarkType.excludesB (a b : MarkType) : Bool := a.excludes.contains b.name

/-- The loop of `Mark.addToSet` (modelled from the spec and the MarkSpec
excludes contract): scan the rank-ordered set; an equal mark or a mark
that excludes the new one keeps the set unchanged (`none` here), excluded
marks are dropped, and the new mark is placed before the first mark of
higher rank.  `pre` is the already scanned prefix, `copy` the diverged
output being built (once needed), `placed` whether the mark was
inserted. -/
def addToSetGo (m : Mark) : List Mark → List Mark → Option (List Mark) → Bool →
    Option (List Mark)
  | [], pre, copy, placed =>
    some ((copy.getD pre) ++ (if placed then [] else [m]))
  | other :: rest, pre, copy, placed =>
    if m == other then none
    else if m.type.excludesB other.type then
      addToSetGo m rest (pre ++ [other]) (some (copy.getD pre)) placed
    else if other.type.excludesB m.type then none
    else if placed = false ∧ other.type.rank > m.type.rank then
      addToSetGo m rest (pre ++ [other]) (some ((copy.getD pre) ++ [m, other])) true
    else
      addToSetGo m rest (pre ++ [other])
        (match copy with
         | some c => some (c ++ [other])
         | none => none) placed

/-- `Mark.addToSet`. -/
def Mark.addToSet (m : Mark) (set : List Mark) : List Mark :=
  (addToSetGo m set [] none false).getD set

/-- `Mark.removeFromSet`. -/
def Mark.removeFromSet (m : Mark) (set : List Mark) : List Mark :=
  set.filter (fun other => !(other == m))

/-- The per-child mark rewrite of `mapFragment` (applied after the
child's own content was mapped). -/
def mapFragInline (f : Node → Option Node → Nat → Node) (parent : Option Node) (i : Nat)
    (c1 : Node) : Node :=
  if c1.isInline then f c1 parent i else c1

mutual

/-- The loop of `mapFragment` over a child list. -/
def mapFragmentGo (f : Node → Option Node → Nat → Node) (parent : Option Node) :
    List Node → Nat → List Node
  | [], _ => []
  | c :: rest, i => mapFragmentChild f parent c i :: mapFragmentGo f parent rest (i + 1)

/-- One child of `mapFragment`: map the child's own content (rebuilt with
`Fragment.fromArray`), then apply `f` to inline nodes. -/
def mapFragmentChild (f : Node → Option Node → Nat → Node) (parent : Option Node)
    (c : Node) (i : Nat) : Node :=
  match c with
  | .text ms s => mapFragInline f parent i (.text ms s)
  | .node ty a ms cs =>
    mapFragInline f parent i
      (if sizeL cs ≠ 0 then
        (Node.node ty a ms cs).copy
          (Fragment.fromArray (mapFragmentGo f (some (Node.node ty a ms cs)) cs 0)).content
      else .node ty a ms cs)

end

/-- `mapFragment` of the mark-step module. -/
def mapFragment (f : Node → Option Node → Nat → Node) (fr : Fragment)
    (parent : Option Node) : Fragment :=
  Fragment.fromArray (mapFragmentGo f parent fr.content 0)

/-- The mark rewrite `AddMarkStep.apply` maps over the slice: add the
mark where the parent allows its type (the missing-parent branch is
unreachable: `mapFragment` passes the enclosing node at every level). -/
def addMarkF (sch : Schema) (mark : Mark) : Node → Option Node → Nat → Node :=
  fun node parentOpt _ =>
    match parentOpt with
    | some p =>
      if sch.allowsMarkType p.typeOf mark.type then node.mark (mark.addToSet node.marks)
      else node
    | none => node

/-- `AddMarkStep.apply`: re-slice the document, add the mark to the
inline content, and reinsert with the replace algorithm
(`StepResult.fromReplace`; a `ReplaceError` becomes a failed step result,
the `PMErr.repl` constructor here). -/
def AddMarkStep.apply (sch : Schema) (st : AddMarkStep) (doc : Node) : Except PMErr Node :=
  match doc.sliceE st.fromPos st.toPos with
  | .error e => .error e
  | .ok oldSlice =>
    match doc.resolve st.fromPos with
    | .error e => .error e
    | .ok pf =>
      doc.replaceAt sch st.fromPos st.toPos
        ⟨mapFragment (addMarkF sch st.mark) oldSlice.content
          (some (pf.node (pf.sharedDepth st.toPos))),
        oldSlice.openStart, oldSlice.openEnd⟩

/-- `AddMarkStep.invert`. -/
def AddMarkStep.invert (st : AddMarkStep) : RemoveMarkStep := ⟨st.fromPos, st.toPos, st.mark⟩

/-- The mark rewrite `RemoveMarkStep.apply` maps over the slice. -/
def removeMarkF (mark : Mark) : Node → Option Node → Nat → Node :=
  fun node _ _ => node.mark (mark.removeFromSet node.marks)

/-- `RemoveMarkStep.apply` (the source passes no parent to
`mapFragment`). -/
def RemoveMarkStep.apply (sch : Schema) (st : RemoveMarkStep) (doc : Node) :
    Except PMErr Node :=
  match doc.sliceE st.fromPos st.toPos with
  | .error e => .error e
  | .ok oldSlice =>
    doc.replaceAt sch st.fromPos st.toPos
      ⟨mapFragment (removeMarkF st.mark) oldSlice.content none,
      oldSlice.openStart, oldSlice.openEnd⟩

/-- `RemoveMarkStep.invert`. -/
def RemoveMarkStep.invert (st : RemoveMarkStep) : AddMarkStep := ⟨st.fromPos, st.toPos, st.mark⟩

/-- C2: `replace` rejects a slice opened deeper than the start position,
and mismatched landing depths, with a `ReplaceError` (structural-replace
fault); it never clips or coerces the inputs. -/
theorem claim_C2_replace_precondition_faults (sch : Schema) (pf pt : ResolvedPos)
    (slice : Slice)
    (h : slice.openStart > (pf.depth : Int) ∨
      (pf.depth : Int) - slice.openStart ≠ (pt.depth : Int) - slice.openEnd) :
    replaceE sch pf pt slice = .error (.repl "Inserted content deeper than insertion position") ∨
    replaceE sch pf pt slice = .error (.repl "Inconsistent open depths") := by
  unfold replaceE
  by_cases h1 : slice.openStart > (pf.depth : Int)
  · rw [if_pos h1]
    left
    rfl
  · rw [if_neg h1]
    have h2 : (pf.depth : Int) - slice.openStart ≠ (pt.depth : Int) - slice.openEnd := by
      rcases h with h | h
      · exact absurd h h1
      · exact h
    rw [if_pos h2]
    right
    rfl

theorem claim_C2_replace_precondition_faults_witness :
    ((Slice.mk ⟨[Node.node ⟨"paragraph", false, false, false⟩ [] [] []]⟩ 1 0).openStart >
      (((ResolvedPos.mk 0 [(Node.node ⟨"doc", false, false, false⟩ [] [] [], 0, 0)] 0)).depth : Int) ∨
      ((((ResolvedPos.mk 0 [(Node.node ⟨"doc", false, false, false⟩ [] [] [], 0, 0)] 0)).depth : Int) -
        (Slice.mk ⟨[Node.node ⟨"paragraph", false, false, false⟩ [] [] []]⟩ 1 0).openStart ≠
       (((ResolvedPos.mk 0 [(Node.node ⟨"doc", false, false, false⟩ [] [] [], 0, 0)] 0)).depth : Int) -
        (Slice.mk ⟨[Node.node ⟨"paragraph", false, false, false⟩ [] [] []]⟩ 1 0).openEnd)) ∧
    (replaceE (Schema.mk (fun _ => none) (fun _ => none) (fun _ _ => true) (fun _ _ => true)
        (fun _ _ => true))
      (ResolvedPos.mk 0 [(Node.node ⟨"doc", false, false, false⟩ [] [] [], 0, 0)] 0)
      (ResolvedPos.mk 0 [(Node.node ⟨"doc", false, false, false⟩ [] [] [], 0, 0)] 0)
      (Slice.mk ⟨[Node.node ⟨"paragraph", false, false, false⟩ [] [] []]⟩ 1 0) =
        .error (.repl "Inserted content deeper than insertion position") ∨
     replaceE (Schema.mk (fun _ => none) (fun _ => none) (fun _ _ => true) (fun _ _ => true)
        (fun _ _ => true))
      (ResolvedPos.mk 0 [(Node.node ⟨"doc", false, false, false⟩ [] [] [], 0, 0)] 0)
      (ResolvedPos.mk 0 [(Node.node ⟨"doc", false, false, false⟩ [] [] [], 0, 0)] 0)
      (Slice.mk ⟨[Node.node ⟨"paragraph", false, false, false⟩ [] [] []]⟩ 1 0) =
        .error (.repl "Inconsistent open depths")) :=
  ⟨by decide,
    claim_C2_replace_precondition_faults
      (Schema.mk (fun _ => none) (fun _ => none) (fun _ _ => true) (fun _ _ => true)
        (fun _ _ => true))
      (ResolvedPos.mk 0 [(Node.node ⟨"doc", false, false, false⟩ [] [] [], 0, 0)] 0)
      (ResolvedPos.mk 0 [(Node.node ⟨"doc", false, false, false⟩ [] [] [], 0, 0)] 0)
      (Slice.mk ⟨[Node.node ⟨"paragraph", false, false, false⟩ [] [] []]⟩ 1 0)
      (by decide)⟩

/-- A concrete document type for the mark round-trip counterexample. -/
def exDocT : NodeType := ⟨"doc", false, false, false⟩

def exParaT : NodeType := ⟨"paragraph", false, false, false⟩

def exStrong : Mark := ⟨⟨"strong", 0, []⟩, []⟩

/-- A schema whose paragraphs admit all marks and whose content models
accept everything. -/
def exSchema : Schema :=
  ⟨fun _ => none, fun _ => none, fun _ _ => true, fun _ _ => true,
    fun t _ => t.name == "paragraph"⟩

/-- doc(paragraph(strong("ab"))): the text already carries the mark. -/
def exDoc : Node := .node exDocT [] [] [.node exParaT [] [] [.text [exStrong] "ab"]]

def exStep : AddMarkStep := ⟨1, 3, exStrong⟩

/-- doc(paragraph("ab")): the document the inverted step produces. -/
def exDoc3 : Node := .node exDocT [] [] [.node exParaT [] [] [.text [] "ab"]]

/-- C3 counterexample: on a document whose range already carries the
mark, `AddMarkStep(1,3,strong)` applies successfully and leaves the
document unchanged, but its inverse `RemoveMarkStep(1,3,strong)` applied
to that result strips the pre-existing mark, so the round trip does not
restore the original document. -/
theorem claim_C3_counterexample :
    AddMarkStep.apply exSchema exStep exDoc = .ok exDoc ∧
    RemoveMarkStep.apply exSchema (AddMarkStep.invert exStep) exDoc = .ok exDoc3 ∧
    exDoc3.eqb exDoc = false := by decide

/-- Size of the first `i` children. -/
def takeSize (l : List Node) (i : Nat) : Int := sizeL (l.take i)

theorem takeSize_zero (l : List Node) : takeSize l 0 = 0 := rfl

theorem takeSize_len (l : List Node) : takeSize l l.length = sizeL l := by
  unfold takeSize
  rw [List.take_length]

theorem wfLB_mem {l : List Node} {x : Node} (hw : wfLB l = true) (hx : x ∈ l) :
    x.wfB = true := by
  induction l with
  | nil => cases hx
  | cons c cs ih =>
    obtain ⟨h1, h2⟩ := wfLB_cons hw
    cases hx with
    | head => exact h1
    | tail _ hx2 => exact ih h2 hx2

theorem getD_mem {l : List Node} {i : Nat} (hi : i < l.length) :
    l.getD i (Node.text [] "") ∈ l := by
  rw [List.getD_eq_getElem?_getD]
  cases hg : l[i]? with
  | none =>
    rw [List.getElem?_eq_none_iff] at hg
    omega
  | some x =>
    have := List.getElem?_mem hg
    simpa using this

theorem takeSize_succ (l : List Node) (i : Nat) (hi : i < l.length) :
    takeSize l (i + 1) = takeSize l i + (l.getD i (Node.text [] "")).nodeSize := by
  unfold takeSize
  rw [List.take_succ]
  rw [sizeL_append]
  congr 1
  have hg : l[i]? = some (l.getD i (Node.text [] "")) := by
    rw [List.getD_eq_getElem?_getD, List.getElem?_eq_getElem hi]
    rfl
  rw [hg]
  simp [sizeL]

theorem takeSize_mono (l : List Node) (i j : Nat) (hij : i ≤ j) :
    takeSize l i ≤ takeSize l j := by
  induction j with
  | zero =>
    have : i = 0 := by omega
    subst this
    omega
  | succ k ih =>
    by_cases hik : i = k + 1
    · subst hik
      omega
    · have hik2 : i ≤ k := by omega
      have h1 := ih hik2
      by_cases hk : k < l.length
      · rw [takeSize_succ l k hk]
        have := Node.nodeSize_nonneg (l.getD k (Node.text [] ""))
        omega
      · have he : l.take (k + 1) = l.take k := by
          rw [List.take_of_length_le (by omega), List.take_of_length_le (by omega)]
        unfold takeSize
        rw [he]
        exact h1

theorem takeSize_nonneg (l : List Node) (i : Nat) : 0 ≤ takeSize l i := by
  have := takeSize_mono l 0 i (by omega)
  rw [takeSize_zero] at this
  exact this

theorem takeSize_le_size (l : List Node) (i : Nat) : takeSize l i ≤ sizeL l := by
  by_cases h : i ≤ l.length
  · have := takeSize_mono l i l.length h
    rw [takeSize_len] at this
    exact this
  · unfold takeSize
    rw [List.take_of_length_le (by omega)]

/-- Strict monotonicity under well-formedness (all sizes positive):
`takeSize` reflects the order of indices below the length. -/
theorem takeSize_lt (l : List Node) (i j : Nat) (hw : wfLB l = true)
    (hij : i < j) (hj : j ≤ l.length) : takeSize l i < takeSize l j := by
  have hi : i < l.length := by omega
  have hstep : takeSize l i < takeSize l (i + 1) := by
    rw [takeSize_succ l i hi]
    have hwx : (l.getD i (Node.text [] "")).wfB = true :=
      wfLB_mem hw (getD_mem hi)
    have := wf_pos_nodeSize _ hwx
    omega
  have := takeSize_mono l (i + 1) j (by omega)
  omega

/-- Specification of the `findIndex` loop (`round = -1`). -/
theorem findIndexGo_spec (pos : Int) (l : List Node) :
    ∀ (i : Nat) (curPos : Int), curPos < pos → pos ≤ curPos + sizeL l →
    ∃ k, findIndexGo pos (-1) l i curPos = (i + k, curPos + takeSize l k) ∧
      k ≤ l.length ∧
      (curPos + takeSize l k = pos ∨
        (k < l.length ∧ curPos + takeSize l k < pos ∧
          pos < curPos + takeSize l k + (l.getD k (Node.text [] "")).nodeSize)) := by
  induction l with
  | nil =>
    intro i curPos h1 h2
    simp only [sizeL] at h2
    omega
  | cons c rest ih =>
    intro i curPos h1 h2
    rw [findIndexGo]
    by_cases hge : curPos + c.nodeSize ≥ pos
    · rw [if_pos hge]
      by_cases heq : curPos + c.nodeSize = pos
      · rw [if_pos (by left; exact heq)]
        refine ⟨1, ?_, by simp, ?_⟩
        · have ht : takeSize (c :: rest) 1 = c.nodeSize := by
            unfold takeSize
            simp [sizeL]
          rw [ht]
        · left
          have ht : takeSize (c :: rest) 1 = c.nodeSize := by
            unfold takeSize
            simp [sizeL]
          rw [ht, heq]
      · rw [if_neg (by
          rintro (ha | hb)
          · exact heq ha
          · omega)]
        refine ⟨0, ?_, by simp, ?_⟩
        · rw [takeSize_zero]
          simp
        · right
          refine ⟨by simp, by rw [takeSize_zero]; omega, ?_⟩
          rw [takeSize_zero]
          simp only [List.getD_cons_zero]
          omega
    · rw [if_neg hge]
      have h3 : curPos + c.nodeSize < pos := by omega
      have h4 : pos ≤ curPos + c.nodeSize + sizeL rest := by
        simp only [sizeL] at h2
        omega
      obtain ⟨k, hk1, hk2, hk3⟩ := ih (i + 1) (curPos + c.nodeSize) h3 h4
      refine ⟨k + 1, ?_, by simp; omega, ?_⟩
      · rw [hk1]
        have ht : takeSize (c :: rest) (k + 1) = c.nodeSize + takeSize rest k := by
          unfold takeSize
          simp only [List.take_succ_cons, sizeL]
        rw [ht]
        refine Prod.ext (by omega) (by simp; omega)
      · have ht : takeSize (c :: rest) (k + 1) = c.nodeSize + takeSize rest k := by
          unfold takeSize
          simp only [List.take_succ_cons, sizeL]
        rcases hk3 with ha | ⟨hb1, hb2, hb3⟩
        · left
          rw [ht]
          omega
        · right
          refine ⟨by simp; omega, by rw [ht]; omega, ?_⟩
          rw [ht]
          simp only [List.getD_cons_succ]
          omega

/-- Specification of `Fragment.findIndex` at `round = -1`. -/
theorem findIndex_spec (fr : Fragment) (pos : Int) (i : Nat) (off : Int)
    (h : fr.findIndex pos (-1) = .ok (i, off)) :
    off = takeSize fr.content i ∧ i ≤ fr.content.length ∧ 0 ≤ pos ∧ pos ≤ fr.size ∧
      (off = pos ∨
        (i < fr.content.length ∧ off < pos ∧
          pos < off + (fr.content.getD i (Node.text [] "")).nodeSize)) := by
  unfold Fragment.findIndex at h
  by_cases h0 : pos = 0
  · rw [if_pos h0] at h
    cases h
    subst h0
    refine ⟨by rw [takeSize_zero], by omega, by omega, ?_, by left; rfl⟩
    have := sizeL_nonneg fr.content
    exact this
  · rw [if_neg h0] at h
    by_cases hs : pos = fr.size
    · rw [if_pos hs] at h
      cases h
      have hfs : fr.size = sizeL fr.content := rfl
      refine ⟨?_, by omega, ?_, by omega, by left; rfl⟩
      · rw [takeSize_len]
        exact hs
      · have := sizeL_nonneg fr.content
        show 0 ≤ pos
        omega
    · rw [if_neg hs] at h
      by_cases hr : pos > fr.size ∨ pos < 0
      · rw [if_pos hr] at h
        cases h
      · rw [if_neg hr] at h
        push_neg at hr
        obtain ⟨hr1, hr2⟩ := hr
        have h1 : (0 : Int) < pos := by omega
        have h2 : pos ≤ 0 + sizeL fr.content := by
          show pos ≤ 0 + fr.size
          omega
        obtain ⟨k, hk1, hk2, hk3⟩ := findIndexGo_spec pos fr.content 0 0 h1 h2
        rw [hk1] at h
        cases h
        simp only [Nat.zero_add, zero_add] at hk3 ⊢
        refine ⟨trivial, hk2, by omega, by omega, ?_⟩
        rcases hk3 with ha | hb
        · left; exact ha
        · right; exact hb

/-- Node component of a path entry. -/
def eN (l : List (Node × Nat × Int)) (d : Nat) : Node :=
  (l.getD d (Node.text [] "", 0, 0)).1

/-- Index component of a path entry. -/
def eI (l : List (Node × Nat × Int)) (d : Nat) : Nat :=
  (l.getD d (Node.text [] "", 0, 0)).2.1

/-- Child-start component of a path entry. -/
def eC (l : List (Node × Nat × Int)) (d : Nat) : Int :=
  (l.getD d (Node.text [] "", 0, 0)).2.2

/-- The absolute content-start of the depth-`d` level of a path whose
root content starts at `start`. -/
def levelStart (start : Int) (l : List (Node × Nat × Int)) : Nat → Int
  | 0 => start
  | d + 1 => eC l d + 1

/-- The content-start of the deepest level of a path. -/
def spineStart (start : Int) : List (Node × Nat × Int) → Int
  | [] => start
  | [_] => start
  | e :: rest => spineStart (e.2.2 + 1) rest

theorem spineStart_single (start : Int) (e : Node × Nat × Int) :
    spineStart start [e] = start := rfl

theorem spineStart_cons (start : Int) (e : Node × Nat × Int)
    (rest : List (Node × Nat × Int)) (h : rest ≠ []) :
    spineStart start (e :: rest) = spineStart (e.2.2 + 1) rest := by
  cases rest with
  | nil => exact absurd rfl h
  | cons f fs => rfl

theorem eN_cons (e : Node × Nat × Int) (l : List (Node × Nat × Int)) (d : Nat) :
    eN (e :: l) (d + 1) = eN l d := rfl

theorem eI_cons (e : Node × Nat × Int) (l : List (Node × Nat × Int)) (d : Nat) :
    eI (e :: l) (d + 1) = eI l d := rfl

theorem eC_cons (e : Node × Nat × Int) (l : List (Node × Nat × Int)) (d : Nat) :
    eC (e :: l) (d + 1) = eC l d := rfl

theorem levelStart_cons (start : Int) (e : Node × Nat × Int)
    (l : List (Node × Nat × Int)) (d : Nat) :
    levelStart start (e :: l) (d + 1) = levelStart (e.2.2 + 1) l d := by
  cases d with
  | zero => rfl
  | succ k => rfl

/-- The shape of a successful `resolveGo` descent: one constructor for
each way the loop stops at a level (`rem = 0`, or a text child) and one
for a descent into a non-text child. -/
inductive Spine (pos : Int) : Node → Int → List (Node × Nat × Int) → Prop
  | stop : ∀ (node : Node) (start : Int) (index : Nat) (offset : Int),
      offset = takeSize node.contentList index →
      index ≤ node.contentList.length →
      0 ≤ pos - start → pos - start ≤ sizeL node.contentList →
      (offset = pos - start ∨
        (index < node.contentList.length ∧ offset < pos - start ∧
          pos - start < offset + (node.contentList.getD index (Node.text [] "")).nodeSize ∧
          (node.contentList.getD index (Node.text [] "")).isText = true)) →
      Spine pos node start [(node, index, start + offset)]
  | descend : ∀ (node : Node) (start : Int) (index : Nat) (offset : Int) (child : Node)
      (rest : List (Node × Nat × Int)),
      offset = takeSize node.contentList index →
      node.contentList.get? index = some child →
      child.isText = false →
      offset < pos - start → pos - start < offset + child.nodeSize →
      Spine pos child (start + offset + 1) rest →
      Spine pos node start ((node, index, start + offset) :: rest)

theorem Spine.ne {pos : Int} {node : Node} {start : Int}
    {l : List (Node × Nat × Int)} (h : Spine pos node start l) : l ≠ [] := by
  cases h with
  | stop _ _ _ _ _ _ _ _ _ => simp
  | descend _ _ _ _ _ _ _ _ _ _ _ _ => simp

theorem get?_eq_getD {l : List Node} {i : Nat} {c : Node}
    (h : l.get? i = some c) : c = l.getD i (Node.text [] "") ∧ i < l.length := by
  rw [List.get?_eq_getElem?] at h
  constructor
  · rw [List.getD_eq_getElem?_getD, h]
    rfl
  · by_contra hc
    push_neg at hc
    rw [List.getElem?_eq_none_iff.mpr (by omega)] at h
    cases h

/-- Soundness of the `resolve` loop: a successful run appends a spine to
the accumulated path and stores the deepest level's offset. -/
theorem resolveGo_ok (pos : Int) : ∀ (fuel : Nat) (node : Node) (po start : Int)
    (path : List (Node × Nat × Int)) (p : ResolvedPos),
    resolveGo pos fuel node po start path = .ok p →
    pos = start + po →
    p.pos = pos ∧ ∃ rest, rest ≠ [] ∧ p.path = path ++ rest ∧ Spine pos node start rest ∧
      p.parentOffset = pos - spineStart start rest := by
  intro fuel
  induction fuel with
  | zero => intro node po start path p h _; cases h
  | succ f ih =>
    intro node po start path p h hpos
    rw [resolveGo] at h
    cases hfi : (Fragment.mk node.contentList).findIndex po (-1) with
    | error e => rw [hfi] at h; cases h
    | ok pair =>
      obtain ⟨index, offset⟩ := pair
      rw [hfi] at h
      replace h : (if po - offset = 0 then
            Except.ok (⟨pos, path ++ [(node, index, start + offset)], po⟩ : ResolvedPos)
          else
            match node.contentList.get? index with
            | none => Except.error (PMErr.range "resolve: missing child")
            | some child =>
              if child.isText = true then
                Except.ok (⟨pos, path ++ [(node, index, start + offset)], po⟩ : ResolvedPos)
              else resolveGo pos f child (po - offset - 1) (start + offset + 1)
                (path ++ [(node, index, start + offset)])) = Except.ok p := h
      obtain ⟨hoff, hidx, hpo0, hpos1, hdisj⟩ := findIndex_spec _ po index offset hfi
      have hcc : ({ content := node.contentList } : Fragment).content = node.contentList := rfl
      have hss : ({ content := node.contentList } : Fragment).size = sizeL node.contentList := rfl
      rw [hcc] at hoff hidx hdisj
      rw [hss] at hpos1
      by_cases hrem : po - offset = 0
      · rw [if_pos hrem] at h
        cases h
        refine ⟨rfl, [(node, index, start + offset)], by simp, rfl, ?_, ?_⟩
        · refine Spine.stop node start index offset hoff hidx (by omega) ?_ ?_
          · show pos - start ≤ sizeL node.contentList
            have hsz : (Fragment.mk node.contentList).size = sizeL node.contentList := rfl
            omega
          · left
            omega
        · rw [spineStart_single]
          show po = pos - start
          omega
      · rw [if_neg hrem] at h
        cases hg : node.contentList.get? index with
        | none => rw [hg] at h; cases h
        | some child =>
          rw [hg] at h
          replace h : (if child.isText = true then
                Except.ok (⟨pos, path ++ [(node, index, start + offset)], po⟩ : ResolvedPos)
              else resolveGo pos f child (po - offset - 1) (start + offset + 1)
                (path ++ [(node, index, start + offset)])) = Except.ok p := h
          obtain ⟨hcg, hclen⟩ := get?_eq_getD hg
          by_cases htx : child.isText
          · rw [if_pos htx] at h
            cases h
            refine ⟨rfl, [(node, index, start + offset)], by simp, rfl, ?_, ?_⟩
            · refine Spine.stop node start index offset hoff hidx (by omega) ?_ ?_
              · show pos - start ≤ sizeL node.contentList
                have hsz : (Fragment.mk node.contentList).size = sizeL node.contentList := rfl
                omega
              · right
                rcases hdisj with ha | ⟨hb1, hb2, hb3⟩
                · exact absurd ha (by omega)
                · rw [← hcg] at hb3
                  exact ⟨hb1, by omega, by rw [← hcg]; omega, by rw [← hcg]; exact htx⟩
            · rw [spineStart_single]
              show po = pos - start
              omega
          · rw [if_neg htx] at h
            obtain ⟨hp1, rest, hne, hp2, hsp, hpo⟩ :=
              ih child (po - offset - 1) (start + offset + 1) (path ++ [(node, index, start + offset)]) p h (by omega)
            refine ⟨hp1, (node, index, start + offset) :: rest, by simp, ?_, ?_, ?_⟩
            · rw [hp2, List.append_assoc]
              rfl
            · refine Spine.descend node start index offset child rest hoff hg
                (by simpa using htx) ?_ ?_ hsp
              · rcases hdisj with ha | ⟨_, hb2, _⟩
                · exact absurd ha (by omega)
                · omega
              · rcases hdisj with ha | ⟨_, _, hb3⟩
                · exact absurd ha (by omega)
                · rw [hcg]; omega
            · rw [spineStart_cons start _ rest hne]
              exact hpo

theorem spine_head {pos : Int} {node : Node} {start : Int} {l : List (Node × Nat × Int)}
    (h : Spine pos node start l) : eN l 0 = node := by
  cases h with
  | stop _ _ _ _ _ _ _ _ _ => rfl
  | descend _ _ _ _ _ _ _ _ _ _ _ _ => rfl

theorem spine_cs {pos : Int} : ∀ {node : Node} {start : Int} {l : List (Node × Nat × Int)},
    Spine pos node start l → 0 ≤ start → ∀ d, d < l.length →
    eC l d = levelStart start l d + takeSize (eN l d).contentList (eI l d) ∧
      eI l d ≤ (eN l d).contentList.length ∧ 0 ≤ levelStart start l d := by
  intro node start l h
  induction h with
  | stop nd st index offset hoff hidx _ _ _ =>
    intro hst d hd
    simp only [List.length_singleton] at hd
    have hd0 : d = 0 := by omega
    subst hd0
    refine ⟨?_, hidx, hst⟩
    show st + offset = st + takeSize nd.contentList index
    omega
  | descend nd st index offset child rest hoff hg htx h1 h2 hsp ih =>
    intro hst d hd
    cases d with
    | zero =>
      refine ⟨?_, ?_, hst⟩
      · show st + offset = st + takeSize nd.contentList index
        omega
      · show index ≤ nd.contentList.length
        exact (get?_eq_getD hg).2.le
    | succ k =>
      have hoff0 : 0 ≤ offset := by
        rw [hoff]; exact takeSize_nonneg _ _
      have hst' : 0 ≤ st + offset + 1 := by omega
      have hk : k < rest.length := by
        simp only [List.length_cons] at hd
        omega
      obtain ⟨ha, hb, hc⟩ := ih hst' k hk
      rw [eC_cons, eN_cons, eI_cons, levelStart_cons]
      exact ⟨ha, hb, hc⟩

theorem spine_child {pos : Int} : ∀ {node : Node} {start : Int} {l : List (Node × Nat × Int)},
    Spine pos node start l → ∀ d, d + 1 < l.length →
    (eN l d).contentList.get? (eI l d) = some (eN l (d + 1)) ∧
      (eN l (d + 1)).isText = false ∧
      eC l d < pos ∧ pos < eC l d + (eN l (d + 1)).nodeSize := by
  intro node start l h
  induction h with
  | stop nd st index offset hoff hidx _ _ _ =>
    intro d hd
    simp only [List.length_singleton] at hd
    omega
  | descend nd st index offset child rest hoff hg htx h1 h2 hsp ih =>
    intro d hd
    cases d with
    | zero =>
      have hh : eN ((nd, index, st + offset) :: rest) 1 = child := by
        rw [eN_cons]
        exact spine_head hsp
      rw [hh]
      refine ⟨hg, htx, ?_, ?_⟩
      · show st + offset < pos
        omega
      · show pos < st + offset + child.nodeSize
        omega
    | succ k =>
      have hk : k + 1 < rest.length := by
        simp only [List.length_cons] at hd
        omega
      obtain ⟨ha, hb, hc, hd2⟩ := ih k hk
      rw [eN_cons, eI_cons, eC_cons, eN_cons]
      exact ⟨ha, hb, hc, hd2⟩

theorem spine_last {pos : Int} : ∀ {node : Node} {start : Int} {l : List (Node × Nat × Int)},
    Spine pos node start l →
    0 ≤ pos - levelStart start l (l.length - 1) ∧
      pos - levelStart start l (l.length - 1) ≤ sizeL (eN l (l.length - 1)).contentList ∧
      (pos - eC l (l.length - 1) = 0 ∨
        (eI l (l.length - 1) < (eN l (l.length - 1)).contentList.length ∧
          0 < pos - eC l (l.length - 1) ∧
          pos - eC l (l.length - 1) <
            ((eN l (l.length - 1)).contentList.getD (eI l (l.length - 1))
              (Node.text [] "")).nodeSize ∧
          ((eN l (l.length - 1)).contentList.getD (eI l (l.length - 1))
            (Node.text [] "")).isText = true)) := by
  intro node start l h
  induction h with
  | stop nd st index offset hoff hidx hge hle hdisj =>
    have e1 : eN [(nd, index, st + offset)] 0 = nd := rfl
    have e2 : eI [(nd, index, st + offset)] 0 = index := rfl
    have e3 : eC [(nd, index, st + offset)] 0 = st + offset := rfl
    have e4 : levelStart st [(nd, index, st + offset)] 0 = st := rfl
    have hL : ([(nd, index, st + offset)] : List (Node × Nat × Int)).length - 1 = 0 := rfl
    rw [hL, e1, e2, e3, e4]
    refine ⟨hge, hle, ?_⟩
    rcases hdisj with ha | ⟨hb1, hb2, hb3, hb4⟩
    · left; omega
    · right
      exact ⟨hb1, by omega, by omega, hb4⟩
  | descend nd st index offset child rest hoff hg htx h1 h2 hsp ih =>
    have hne := hsp.ne
    have hlen : 1 ≤ rest.length := by
      cases rest with
      | nil => exact absurd rfl hne
      | cons x xs => simp
    have hL : ((nd, index, st + offset) :: rest).length - 1 = (rest.length - 1) + 1 := by
      simp only [List.length_cons]
      omega
    rw [hL, eN_cons, eI_cons, eC_cons, levelStart_cons]
    exact ih

theorem spineStart_eq_levelStart (start : Int) : ∀ (l : List (Node × Nat × Int)), l ≠ [] →
    spineStart start l = levelStart start l (l.length - 1) := by
  intro l
  induction l generalizing start with
  | nil => intro h; exact absurd rfl h
  | cons e rest ih =>
    intro _
    cases rest with
    | nil => rfl
    | cons f fs =>
      rw [spineStart_cons start e (f :: fs) (by simp)]
      rw [ih (e.2.2 + 1) (by simp)]
      have hL : (e :: f :: fs).length - 1 = ((f :: fs).length - 1) + 1 := by
        simp only [List.length_cons]
        omega
      rw [hL, levelStart_cons]

/-- The structural invariants of a resolved position: the per-level
relation between path entries, positions and sizes established by
`resolve`. -/
structure PathOK (p : ResolvedPos) : Prop where
  ne : p.path ≠ []
  cs_eq : ∀ d, d ≤ p.depth → p.childStart d = p.start d + takeSize (p.node d).contentList (p.index d)
  idx_le : ∀ d, d ≤ p.depth → p.index d ≤ (p.node d).contentList.length
  start_nonneg : ∀ d, d ≤ p.depth → 0 ≤ p.start d
  child_eq : ∀ d, d < p.depth → (p.node d).contentList.get? (p.index d) = some (p.node (d + 1))
  child_notext : ∀ d, d < p.depth → (p.node (d + 1)).isText = false
  pos_gt : ∀ d, d < p.depth → p.childStart d < p.pos
  pos_lt : ∀ d, d < p.depth → p.pos < p.childStart d + (p.node (d + 1)).nodeSize
  po_eq : p.parentOffset = p.pos - p.start p.depth
  po_nonneg : 0 ≤ p.parentOffset
  po_le : p.parentOffset ≤ sizeL (p.node p.depth).contentList
  stop : p.textOffset = 0 ∨
    (p.index p.depth < (p.node p.depth).contentList.length ∧
      0 < p.textOffset ∧
      p.textOffset < ((p.node p.depth).contentList.getD (p.index p.depth)
        (Node.text [] "")).nodeSize ∧
      ((p.node p.depth).contentList.getD (p.index p.depth)
        (Node.text [] "")).isText = true)

theorem p_node_eq (p : ResolvedPos) (d : Nat) : p.node d = eN p.path d := rfl

theorem p_index_eq (p : ResolvedPos) (d : Nat) : p.index d = eI p.path d := rfl

theorem p_cs_eq (p : ResolvedPos) (d : Nat) : p.childStart d = eC p.path d := rfl

theorem p_start_eq (p : ResolvedPos) (d : Nat) : p.start d = levelStart 0 p.path d := by
  cases d with
  | zero => rfl
  | succ k => rfl

/-- `Node.resolve` yields a position satisfying the path invariants,
rooted at the document. -/
theorem resolve_spec (doc : Node) (pos : Int) (p : ResolvedPos)
    (h : doc.resolve pos = .ok p) :
    p.pos = pos ∧ p.node 0 = doc ∧ PathOK p := by
  unfold Node.resolve at h
  by_cases hb : pos < 0 ∨ pos > doc.contentSize
  · rw [if_pos hb] at h
    cases h
  · rw [if_neg hb] at h
    obtain ⟨hp1, rest, hne, hp2, hsp, hpo⟩ :=
      resolveGo_ok pos (doc.depthNat + 1) doc pos 0 [] p h (by omega)
    simp only [List.nil_append] at hp2
    subst hp2
    have hdep : p.depth = p.path.length - 1 := rfl
    have hdlt : ∀ d : Nat, d ≤ p.depth → d < p.path.length := by
      intro d hd
      have : 1 ≤ p.path.length := by
        cases hpp : p.path with
        | nil => exact absurd hpp hne
        | cons x xs => simp [hpp]
      omega
    refine ⟨hp1, by rw [p_node_eq]; exact spine_head hsp, ?_⟩
    refine ⟨hne, ?_, ?_, ?_, ?_, ?_, ?_, ?_, ?_, ?_, ?_, ?_⟩
    · intro d hd
      rw [p_cs_eq, p_start_eq, p_node_eq, p_index_eq]
      exact (spine_cs hsp le_rfl d (hdlt d hd)).1
    · intro d hd
      rw [p_node_eq, p_index_eq]
      exact (spine_cs hsp le_rfl d (hdlt d hd)).2.1
    · intro d hd
      rw [p_start_eq]
      exact (spine_cs hsp le_rfl d (hdlt d hd)).2.2
    · intro d hd
      rw [p_node_eq, p_index_eq, p_node_eq]
      exact (spine_child hsp d (by omega)).1
    · intro d hd
      rw [p_node_eq]
      exact (spine_child hsp d (by omega)).2.1
    · intro d hd
      rw [p_cs_eq, hp1]
      exact (spine_child hsp d (by omega)).2.2.1
    · intro d hd
      rw [p_cs_eq, p_node_eq, hp1]
      exact (spine_child hsp d (by omega)).2.2.2
    · rw [hpo, hp1, p_start_eq, hdep]
      rw [spineStart_eq_levelStart 0 p.path hne]
    · rw [hpo]
      rw [spineStart_eq_levelStart 0 p.path hne]
      have := (spine_last hsp).1
      omega
    · rw [hpo]
      rw [spineStart_eq_levelStart 0 p.path hne]
      have := (spine_last hsp).2.1
      rw [p_node_eq, hdep]
      omega
    · have hto : p.textOffset = pos - eC p.path (p.path.length - 1) := by
        show p.pos - p.childStart p.depth = _
        rw [hp1, p_cs_eq, hdep]
      rw [hto, p_node_eq, p_index_eq, hdep]
      exact (spine_last hsp).2.2

theorem addNodeL_size (c : Node) (t : List Node) :
    sizeL (addNodeL c t) = sizeL t + c.nodeSize := by
  unfold addNodeL
  cases hl : t.getLast? with
  | none =>
    have ht : t = [] := List.getLast?_eq_none_iff.mp hl
    subst ht
    simp [sizeL]
  | some last =>
    show sizeL (if c.isText = true ∧ c.sameMarkup last = true then
        t.dropLast ++ [c.withText (last.textStr ++ c.textStr)]
      else t ++ [c]) = sizeL t + c.nodeSize
    by_cases hm : c.isText = true ∧ c.sameMarkup last = true
    · rw [if_pos hm]
      obtain ⟨hct, hsm⟩ := hm
      cases c with
      | node ty a ms cs => simp [Node.isText] at hct
      | text ms s =>
        obtain ⟨s2, hlast⟩ := sameMarkup_text_left hsm
        rw [sizeL_append]
        rw [sizeL_dropLast_getLast t last hl]
        subst hlast
        have h1 : ((Node.text ms s).withText
            ((Node.text ms s2).textStr ++ (Node.text ms s).textStr)).nodeSize =
            ((s2 ++ s).length : Int) := rfl
        have h2 : (Node.text ms s2).nodeSize = (s2.length : Int) := rfl
        have h3 : (Node.text ms s).nodeSize = (s.length : Int) := rfl
        have h4 : (s2 ++ s).length = s2.length + s.length := by
          show (s2.toList ++ s.toList).length = _
          rw [List.length_append]
          rfl
        simp only [sizeL, h1, h2, h3, h4]
        push_cast
        ring
    · rw [if_neg hm]
      rw [sizeL_append]
      simp only [sizeL]
      ring

theorem addChildrenGo_size (node : Node) : ∀ (count i : Nat) (t : List Node),
    i + count ≤ node.contentList.length →
    sizeL (addChildrenGo node i count t) =
      sizeL t + (takeSize node.contentList (i + count) - takeSize node.contentList i) := by
  intro count
  induction count with
  | zero =>
    intro i t _
    show sizeL t = sizeL t + (takeSize node.contentList (i + 0) - takeSize node.contentList i)
    rw [Nat.add_zero]
    omega
  | succ k ih =>
    intro i t h
    show sizeL (addChildrenGo node (i + 1) k
      (addNodeL ((Fragment.mk node.contentList).child i) t)) = _
    rw [ih (i + 1) _ (by omega)]
    rw [addNodeL_size]
    have hc : (Fragment.mk node.contentList).child i =
        node.contentList.getD i (Node.text [] "") := rfl
    rw [hc]
    have hts : takeSize node.contentList (i + 1) =
        takeSize node.contentList i + (node.contentList.getD i (Node.text [] "")).nodeSize :=
      takeSize_succ node.contentList i (by omega)
    have hik : i + 1 + k = i + (k + 1) := by omega
    rw [hik]
    omega

theorem strSlice_length (s : String) (f t : Int) (h0 : 0 ≤ f) (hft : f ≤ t)
    (ht : t ≤ (s.length : Int)) : ((strSlice s f t).length : Int) = t - f := by
  unfold strSlice
  have hst : (String.mk ((s.toList.take (min t (s.length : Int)).toNat).drop
      (max f 0).toNat)).length =
      ((s.toList.take (min t (s.length : Int)).toNat).drop (max f 0).toNat).length := rfl
  rw [hst, List.length_drop, List.length_take]
  have h1 : (min t (s.length : Int)).toNat = t.toNat := by omega
  have h2 : (max f 0).toNat = f.toNat := by omega
  have h3 : s.toList.length = s.length := rfl
  rw [h1, h2, h3]
  omega

theorem text_cut_size (ms : List Mark) (s : String) (f t : Int) (h0 : 0 ≤ f) (hft : f ≤ t)
    (ht : t ≤ (s.length : Int)) : (Node.cut (.text ms s) f t).nodeSize = t - f := by
  show (if f = 0 ∧ t = (s.length : Int) then Node.text ms s
    else Node.text ms (strSlice s f t)).nodeSize = t - f
  by_cases hg : f = 0 ∧ t = (s.length : Int)
  · rw [if_pos hg]
    show ((s.length : Int)) = t - f
    omega
  · rw [if_neg hg]
    show ((strSlice s f t).length : Int) = t - f
    exact strSlice_length s f t h0 hft ht

/-- Relative size of the depth-`d` level's content lying before the
position (what `addRange(null, p, d)` contributes). -/
def relB (p : ResolvedPos) (d : Nat) : Int :=
  if d = p.depth then p.parentOffset else p.childStart d - p.start d

/-- Relative position at which `addRange(p, null, d)` resumes taking
content at level `d` (past the child holding the position when the
position lies deeper). -/
def relResume (p : ResolvedPos) (d : Nat) : Int :=
  relB p d + (if d < p.depth then
    ((p.node d).contentList.getD (p.index d) (Node.text [] "")).nodeSize else 0)

/-- The start index `addRange` uses for a present `$start`. -/
def startIndexVal (st : ResolvedPos) (d : Nat) : Nat :=
  if st.depth > d then st.index d + 1
  else if st.textOffset ≠ 0 then st.index d + 1
  else st.index d

theorem pathOK_idx_lt (p : ResolvedPos) (hp : PathOK p) (d : Nat) (hd : d < p.depth) :
    p.index d < (p.node d).contentList.length :=
  (get?_eq_getD (hp.child_eq d hd)).2

theorem nonleaf_of_two_le (n : Node) (hn : n.isText = false) (h2 : 2 ≤ n.nodeSize) :
    n.typeOf.leaf = false ∧ n.nodeSize = 2 + sizeL n.contentList := by
  cases n with
  | text ms s => simp [Node.isText] at hn
  | node ty a ms cs =>
    have hns : (Node.node ty a ms cs).nodeSize = if ty.leaf = true then 1 else 2 + sizeL cs := rfl
    cases hl : ty.leaf with
    | true =>
      rw [hns, if_pos hl] at h2
      omega
    | false =>
      refine ⟨hl, ?_⟩
      rw [hns, if_neg (by rw [hl]; exact Bool.false_ne_true)]
      rfl

theorem pathOK_child_nonleaf (p : ResolvedPos) (hp : PathOK p) (d : Nat) (hd : d < p.depth) :
    (p.node (d + 1)).typeOf.leaf = false ∧
      (p.node (d + 1)).nodeSize = 2 + sizeL (p.node (d + 1)).contentList := by
  have h1 := hp.pos_gt d hd
  have h2 := hp.pos_lt d hd
  exact nonleaf_of_two_le _ (hp.child_notext d hd) (by omega)

theorem nodeAfter_size (p : ResolvedPos) (hp : PathOK p) (hto : p.textOffset ≠ 0) :
    ∃ n, p.nodeAfter = some n ∧
      n.nodeSize = ((p.node p.depth).contentList.getD (p.index p.depth)
        (Node.text [] "")).nodeSize - p.textOffset := by
  rcases hp.stop with h0 | ⟨hlt, h1, h2, h3⟩
  · exact absurd h0 hto
  · cases hc : (p.node p.depth).contentList.getD (p.index p.depth) (Node.text [] "") with
    | node ty a ms cs => rw [hc] at h3; simp [Node.isText] at h3
    | text ms s =>
      rw [hc] at h2
      have hpar : p.parent = p.node p.depth := rfl
      have hchild : (Fragment.mk p.parent.contentList).child (p.index p.depth) =
          (p.node p.depth).contentList.getD (p.index p.depth) (Node.text [] "") := rfl
      refine ⟨(Node.text ms s).cutDefault p.textOffset, ?_, ?_⟩
      · unfold ResolvedPos.nodeAfter
        rw [if_neg (by rw [hpar]; omega)]
        rw [if_pos (show p.pos - p.childStart p.depth ≠ 0 from hto)]
        rw [hchild, hc]
        rfl
      · have hsz : (Node.text ms s).nodeSize = (s.length : Int) := rfl
        rw [hsz] at h2
        show (Node.cut (.text ms s) p.textOffset (s.length : Int)).nodeSize =
          (Node.text ms s).nodeSize - p.textOffset
        rw [hsz]
        exact text_cut_size ms s _ _ (by omega) (by omega) le_rfl

theorem nodeBefore_size (p : ResolvedPos) (hp : PathOK p) (hto : p.textOffset ≠ 0) :
    ∃ n, p.nodeBefore = some n ∧ n.nodeSize = p.textOffset := by
  rcases hp.stop with h0 | ⟨hlt, h1, h2, h3⟩
  · exact absurd h0 hto
  · cases hc : (p.node p.depth).contentList.getD (p.index p.depth) (Node.text [] "") with
    | node ty a ms cs => rw [hc] at h3; simp [Node.isText] at h3
    | text ms s =>
      rw [hc] at h2
      have hchild : (Fragment.mk p.parent.contentList).child (p.index p.depth) =
          (p.node p.depth).contentList.getD (p.index p.depth) (Node.text [] "") := rfl
      refine ⟨(Node.text ms s).cut 0 p.textOffset, ?_, ?_⟩
      · unfold ResolvedPos.nodeBefore
        rw [if_pos (show p.pos - p.childStart p.depth ≠ 0 from hto)]
        rw [hchild, hc]
        rfl
      · have hsz : (Node.text ms s).nodeSize = (s.length : Int) := rfl
        rw [hsz] at h2
        rw [text_cut_size ms s _ _ le_rfl (by omega) (by omega)]
        omega

theorem addRangeStart_some_eq (st : ResolvedPos) (d : Nat) (t : List Node) :
    addRangeStart (some st) d t =
      (if st.depth > d then (st.index d + 1, t)
       else if st.textOffset ≠ 0 then
         (st.index d + 1, match st.nodeAfter with
           | some n => addNodeL n t
           | none => t)
       else (st.index d, t)) := rfl

theorem addRangeStart_size (st : ResolvedPos) (hp : PathOK st) (d : Nat) (hd : d ≤ st.depth)
    (t : List Node) :
    (addRangeStart (some st) d t).1 = startIndexVal st d ∧
    sizeL (addRangeStart (some st) d t).2 =
      sizeL t + (takeSize (st.node d).contentList (startIndexVal st d) - relResume st d) ∧
    startIndexVal st d ≤ (st.node d).contentList.length := by
  rw [addRangeStart_some_eq]
  by_cases hgt : st.depth > d
  · have hsv : startIndexVal st d = st.index d + 1 := by
      unfold startIndexVal
      rw [if_pos hgt]
    have hlt := pathOK_idx_lt st hp d hgt
    rw [if_pos hgt]
    refine ⟨hsv.symm, ?_, by omega⟩
    show sizeL t = _
    rw [hsv]
    rw [takeSize_succ _ _ hlt]
    have hcg : st.childStart d = st.start d + takeSize (st.node d).contentList (st.index d) :=
      hp.cs_eq d (by omega)
    have hchild : (st.node d).contentList.getD (st.index d) (Node.text [] "") = st.node (d + 1) :=
      (get?_eq_getD (hp.child_eq d hgt)).1.symm
    unfold relResume relB
    rw [if_neg (by omega), if_pos hgt]
    omega
  · have hdd : st.depth = d := by omega
    subst hdd
    rw [if_neg hgt]
    by_cases hto : st.textOffset ≠ 0
    · have hsv : startIndexVal st st.depth = st.index st.depth + 1 := by
        unfold startIndexVal
        rw [if_neg hgt, if_pos hto]
      rcases hp.stop with h0 | ⟨hlt, h1, h2, h3⟩
      · exact absurd h0 hto
      · obtain ⟨n, hna, hns⟩ := nodeAfter_size st hp hto
        rw [if_pos hto, hna]
        refine ⟨hsv.symm, ?_, by rw [hsv]; omega⟩
        show sizeL (addNodeL n t) = _
        rw [addNodeL_size, hsv]
        rw [takeSize_succ _ _ hlt]
        have hcg := hp.cs_eq st.depth le_rfl
        have hpo := hp.po_eq
        have htoe : st.textOffset = st.pos - st.childStart st.depth := rfl
        unfold relResume relB
        rw [if_pos rfl, if_neg (by omega)]
        omega
    · have hsv : startIndexVal st st.depth = st.index st.depth := by
        unfold startIndexVal
        rw [if_neg hgt, if_neg hto]
      rw [if_neg hto]
      refine ⟨hsv.symm, ?_, by rw [hsv]; exact hp.idx_le st.depth le_rfl⟩
      show sizeL t = _
      rw [hsv]
      push_neg at hto
      have hcg := hp.cs_eq st.depth le_rfl
      have hpo := hp.po_eq
      have htoe : st.textOffset = st.pos - st.childStart st.depth := rfl
      unfold relResume relB
      rw [if_pos rfl, if_neg (by omega)]
      omega

theorem addRangeEnd_some_eq (e : ResolvedPos) (d : Nat) (t : List Node) :
    addRangeEnd (some e) d t =
      if e.depth = d ∧ e.textOffset ≠ 0 then
        (match e.nodeBefore with
         | some n => addNodeL n t
         | none => t)
      else t := rfl

/-- Size of `addRange(null, $end, depth, target)`: the content of the
level-`depth` ancestor lying before the position. -/
theorem addRange_none_some_size (pf : ResolvedPos) (hp : PathOK pf) (d : Nat)
    (hd : d ≤ pf.depth) (t : List Node) :
    sizeL (addRangeL none (some pf) d t) = sizeL t + relB pf d := by
  unfold addRangeL
  have h1 : addRangeStart none d t = (0, t) := rfl
  rw [h1]
  have h2 : rangeNode none (some pf) d = pf.node d := rfl
  rw [h2]
  have h3 : rangeEndIndex (some pf) (pf.node d) d = pf.index d := rfl
  rw [h3]
  have hq1 : ((0, t) : Nat × List Node).1 = 0 := rfl
  have hq2 : ((0, t) : Nat × List Node).2 = t := rfl
  rw [hq1, hq2, Nat.sub_zero]
  have hcs := addChildrenGo_size (pf.node d) (pf.index d - 0) 0 t
    (by have := hp.idx_le d hd; omega)
  rw [Nat.sub_zero] at hcs
  rw [Nat.zero_add] at hcs
  by_cases he : pf.depth = d ∧ pf.textOffset ≠ 0
  · obtain ⟨he1, he2⟩ := he
    subst he1
    obtain ⟨n, hnb, hns⟩ := nodeBefore_size pf hp he2
    rw [addRangeEnd_some_eq, if_pos ⟨rfl, he2⟩, hnb]
    rw [addNodeL_size, hcs, hns]
    unfold relB
    rw [if_pos rfl]
    have hcg := hp.cs_eq pf.depth le_rfl
    have hpo := hp.po_eq
    have hto : pf.textOffset = pf.pos - pf.childStart pf.depth := rfl
    rw [takeSize_zero]
    omega
  · rw [addRangeEnd_some_eq, if_neg he]
    rw [hcs, takeSize_zero]
    unfold relB
    by_cases hdd : d = pf.depth
    · rw [if_pos hdd]
      subst hdd
      have hto0 : pf.textOffset = 0 := by
        by_contra hc
        exact he ⟨rfl, hc⟩
      have hcg := hp.cs_eq pf.depth le_rfl
      have hpo := hp.po_eq
      have hto : pf.textOffset = pf.pos - pf.childStart pf.depth := rfl
      omega
    · rw [if_neg hdd]
      have hcg := hp.cs_eq d hd
      omega

/-- Size of `addRange($start, null, depth, target)`: the content of the
level-`depth` ancestor from the resume point to the content end. -/
theorem addRange_some_none_size (pt : ResolvedPos) (hp : PathOK pt) (d : Nat)
    (hd : d ≤ pt.depth) (t : List Node) :
    sizeL (addRangeL (some pt) none d t) =
      sizeL t + (sizeL (pt.node d).contentList - relResume pt d) := by
  unfold addRangeL
  have h2 : rangeNode (some pt) none d = pt.node d := rfl
  rw [h2]
  have h3 : rangeEndIndex none (pt.node d) d = (pt.node d).contentList.length := rfl
  rw [h3]
  obtain ⟨hs1, hs2, hs3⟩ := addRangeStart_size pt hp d hd t
  rw [hs1]
  have h4 : ∀ x : List Node, addRangeEnd none d x = x := fun _ => rfl
  rw [h4]
  have hcs := addChildrenGo_size (pt.node d)
    ((pt.node d).contentList.length - startIndexVal pt d) (startIndexVal pt d)
    (addRangeStart (some pt) d t).2 (by omega)
  have hix : startIndexVal pt d + ((pt.node d).contentList.length - startIndexVal pt d) =
      (pt.node d).contentList.length := by omega
  rw [hix] at hcs
  rw [hcs, hs2, takeSize_len]
  omega

/-- Size of `addRange($start, $end, depth, target)` when both are
present: the level-`depth` content between the resume point and the end
position.  Requires the two positions to share the level-`depth` node
with the start's resume index not past the end's index. -/
theorem addRange_some_some_size (ps pe : ResolvedPos) (hps : PathOK ps) (hpe : PathOK pe)
    (d : Nat) (hds : d ≤ ps.depth) (hde : d ≤ pe.depth)
    (hnode : ps.node d = pe.node d)
    (hidx : startIndexVal ps d ≤ pe.index d)
    (t : List Node) :
    sizeL (addRangeL (some ps) (some pe) d t) = sizeL t + (relB pe d - relResume ps d) := by
  unfold addRangeL
  have h2 : rangeNode (some ps) (some pe) d = pe.node d := rfl
  rw [h2]
  have h3 : rangeEndIndex (some pe) (pe.node d) d = pe.index d := rfl
  rw [h3]
  obtain ⟨hs1, hs2, hs3⟩ := addRangeStart_size ps hps d hds t
  rw [hs1]
  rw [hnode] at hs2
  have hcs := addChildrenGo_size (pe.node d)
    (pe.index d - startIndexVal ps d) (startIndexVal ps d)
    (addRangeStart (some ps) d t).2 (by have := hpe.idx_le d hde; omega)
  have hix : startIndexVal ps d + (pe.index d - startIndexVal ps d) = pe.index d := by omega
  rw [hix] at hcs
  by_cases he : pe.depth = d ∧ pe.textOffset ≠ 0
  · obtain ⟨he1, he2⟩ := he
    subst he1
    obtain ⟨n, hnb, hns⟩ := nodeBefore_size pe hpe he2
    rw [addRangeEnd_some_eq, if_pos ⟨rfl, he2⟩, hnb]
    rw [addNodeL_size, hcs, hs2, hns]
    unfold relB
    rw [if_pos rfl]
    have hcg := hpe.cs_eq pe.depth le_rfl
    have hpo := hpe.po_eq
    have hto : pe.textOffset = pe.pos - pe.childStart pe.depth := rfl
    omega
  · rw [addRangeEnd_some_eq, if_neg he]
    rw [hcs, hs2]
    unfold relB
    by_cases hdd : d = pe.depth
    · rw [if_pos hdd]
      subst hdd
      have hto0 : pe.textOffset = 0 := by
        by_contra hc
        exact he ⟨rfl, hc⟩
      have hcg := hpe.cs_eq pe.depth le_rfl
      have hpo := hpe.po_eq
      have hto : pe.textOffset = pe.pos - pe.childStart pe.depth := rfl
      omega
    · rw [if_neg hdd]
      have hcg := hpe.cs_eq d hde
      omega

theorem joinable_ok {sch : Schema} {pb pa : ResolvedPos} {dd : Nat} {ty : Node}
    (h : joinable sch pb pa dd = .ok ty) : ty = pb.node dd := by
  unfold joinable at h
  cases hcj : checkJoin sch (pb.node dd) (pa.node dd) with
  | error e => rw [hcj] at h; cases h
  | ok u =>
    rw [hcj] at h
    cases h
    rfl

theorem close_ok {sch : Schema} {node : Node} {content : List Node} {res : Node}
    (h : close sch node content = .ok res) : res = node.copy content := by
  unfold close at h
  by_cases hv : sch.validContent node.typeOf content = true
  · rw [if_pos hv] at h
    cases h
    rfl
  · rw [if_neg hv] at h
    cases h

theorem node_copy_nodeSize (n : Node) (hn : n.isText = false) (hl : n.typeOf.leaf = false)
    (cs : List Node) : (n.copy cs).nodeSize = 2 + sizeL cs := by
  cases n with
  | text ms s => simp [Node.isText] at hn
  | node ty a ms cs0 =>
    have hty : (Node.node ty a ms cs0).typeOf = ty := rfl
    rw [hty] at hl
    show (if ty.leaf = true then (1 : Int) else 2 + sizeL cs) = 2 + sizeL cs
    rw [if_neg (by rw [hl]; exact Bool.false_ne_true)]

theorem node_copy_contentList (n : Node) (hn : n.isText = false) (cs : List Node) :
    (n.copy cs).contentList = cs := by
  cases n with
  | text ms s => simp [Node.isText] at hn
  | node ty a ms cs0 => rfl

theorem replaceTwoWay_succ (fuel : Nat) (sch : Schema) (pf pt : ResolvedPos) (d : Nat) :
    replaceTwoWay (fuel + 1) sch pf pt d =
      (if pf.depth > d then
        match joinable sch pf pt (d + 1) with
        | .error e => .error e
        | .ok ty =>
          match replaceTwoWay fuel sch pf pt (d + 1) with
          | .error e => .error e
          | .ok inner =>
            match close sch ty inner with
            | .error e => .error e
            | .ok closed =>
              .ok (addRangeL (some pt) none d (addNodeL closed (addRangeL none (some pf) d [])))
      else .ok (addRangeL (some pt) none d (addRangeL none (some pf) d []))) := rfl

/-- Size invariant of `replaceTwoWay`: the assembled content consists of
what lies before `$from` and after `$to` at the given depth (the inner
levels contributing their open-node units). -/
theorem replaceTwoWay_size : ∀ (fuel : Nat) (sch : Schema) (pf pt : ResolvedPos) (d : Nat)
    (l : List Node),
    replaceTwoWay fuel sch pf pt d = .ok l →
    PathOK pf → PathOK pt → pf.depth = pt.depth → d ≤ pf.depth →
    sizeL l = (pf.pos - pf.start d) + (sizeL (pt.node d).contentList - (pt.pos - pt.start d)) := by
  intro fuel
  induction fuel with
  | zero => intro sch pf pt d l h _ _ _ _; cases h
  | succ f ih =>
    intro sch pf pt d l h hpf hpt hdep hd
    rw [replaceTwoWay_succ] at h
    by_cases hgt : pf.depth > d
    · rw [if_pos hgt] at h
      cases hj : joinable sch pf pt (d + 1) with
      | error e => rw [hj] at h; cases h
      | ok ty =>
        rw [hj] at h
        replace h : (match replaceTwoWay f sch pf pt (d + 1) with
          | .error e => Except.error e
          | .ok inner =>
            match close sch ty inner with
            | .error e => Except.error e
            | .ok closed =>
              Except.ok (addRangeL (some pt) none d
                (addNodeL closed (addRangeL none (some pf) d [])))) = Except.ok l := h
        cases hr : replaceTwoWay f sch pf pt (d + 1) with
        | error e => rw [hr] at h; cases h
        | ok inner =>
          rw [hr] at h
          replace h : (match close sch ty inner with
            | .error e => Except.error e
            | .ok closed =>
              Except.ok (addRangeL (some pt) none d
                (addNodeL closed (addRangeL none (some pf) d [])))) = Except.ok l := h
          cases hc : close sch ty inner with
          | error e => rw [hc] at h; cases h
          | ok closed =>
            rw [hc] at h
            cases h
            have hty := joinable_ok hj
            have hcl := close_ok hc
            have hinner := ih sch pf pt (d + 1) inner hr hpf hpt hdep (by omega)
            have hnl := pathOK_child_nonleaf pf hpf d hgt
            have hclsz : closed.nodeSize = 2 + sizeL inner := by
              rw [hcl, hty]
              exact node_copy_nodeSize _ (hpf.child_notext d hgt) hnl.1 inner
            have hs1 : sizeL (addRangeL none (some pf) d []) = sizeL [] + relB pf d :=
              addRange_none_some_size pf hpf d (by omega) []
            have hs2 := addNodeL_size closed (addRangeL none (some pf) d [])
            have hs3 : sizeL (addRangeL (some pt) none d
                (addNodeL closed (addRangeL none (some pf) d []))) =
                sizeL (addNodeL closed (addRangeL none (some pf) d [])) +
                  (sizeL (pt.node d).contentList - relResume pt d) :=
              addRange_some_none_size pt hpt d (by omega) _
            have hz : sizeL ([] : List Node) = 0 := rfl
            have hrelB : relB pf d = pf.childStart d - pf.start d := by
              unfold relB
              rw [if_neg (by omega)]
            have hsf : pf.start (d + 1) = pf.childStart d + 1 := rfl
            have hst : pt.start (d + 1) = pt.childStart d + 1 := rfl
            have hgt' : d < pt.depth := by omega
            have hchild : (pt.node d).contentList.getD (pt.index d) (Node.text [] "") =
                pt.node (d + 1) := (get?_eq_getD (hpt.child_eq d hgt')).1.symm
            have hcnl := pathOK_child_nonleaf pt hpt d hgt'
            have hrelR : relResume pt d =
                (pt.childStart d - pt.start d) + (2 + sizeL (pt.node (d + 1)).contentList) := by
              unfold relResume relB
              rw [if_neg (by omega), if_pos hgt', hchild, hcnl.2]
            have hcgt := hpt.cs_eq d (by omega)
            rw [hs3, hs2, hs1, hz, hclsz, hinner, hrelB, hrelR]
            rw [hsf, hst]
            ring
    · rw [if_neg hgt] at h
      cases h
      have hdd : d = pf.depth := by omega
      have hs1 : sizeL (addRangeL none (some pf) d []) = sizeL [] + relB pf d :=
        addRange_none_some_size pf hpf d hd []
      have hs3 : sizeL (addRangeL (some pt) none d (addRangeL none (some pf) d [])) =
          sizeL (addRangeL none (some pf) d []) +
            (sizeL (pt.node d).contentList - relResume pt d) :=
        addRange_some_none_size pt hpt d (by omega) _
      have hz : sizeL ([] : List Node) = 0 := rfl
      have hrelB : relB pf d = pf.parentOffset := by
        unfold relB
        rw [if_pos (by omega)]
      have hrelR : relResume pt d = pt.parentOffset := by
        unfold relResume relB
        rw [if_pos (show d = pt.depth by omega), if_neg (show ¬d < pt.depth by omega)]
        omega
      have hpof := hpf.po_eq
      have hpot := hpt.po_eq
      have hdf : pf.depth = d := by omega
      have hdt : pt.depth = d := by omega
      rw [hdf] at hpof
      rw [hdt] at hpot
      rw [hs3, hs1, hz, hrelB, hrelR]
      omega

/-- Ordering of the `addRange` indices when `$start` and `$end` share
their level-`d` ancestor: the resume index is not past the end index.
Needs the boundary shape (`textOffset = 0`) that prepared slice
positions always have, and excludes the same-child case the three-way
descent handles separately. -/
theorem resume_le (ps pe : ResolvedPos) (hps : PathOK ps) (hpe : PathOK pe)
    (d : Nat) (hds : d ≤ ps.depth) (hde : d ≤ pe.depth)
    (hnode : ps.node d = pe.node d) (hstart : ps.start d = pe.start d)
    (hpos : ps.pos ≤ pe.pos)
    (htos : ps.textOffset = 0) (htoe : pe.textOffset = 0)
    (hwf : wfLB (pe.node d).contentList = true)
    (hne : ¬(d < ps.depth ∧ d < pe.depth ∧ ps.index d = pe.index d)) :
    startIndexVal ps d ≤ pe.index d := by
  have hcs_s := hps.cs_eq d hds
  have hcs_e := hpe.cs_eq d hde
  rw [hnode] at hcs_s
  have hlen_s := hps.idx_le d hds
  have hlen_e := hpe.idx_le d hde
  rw [hnode] at hlen_s
  by_cases hdps : d < ps.depth
  · have hsv : startIndexVal ps d = ps.index d + 1 := by
      unfold startIndexVal
      rw [if_pos hdps]
    rw [hsv]
    have hg_s := hps.pos_gt d hdps
    have hl_s := hps.pos_lt d hdps
    have hch_s : (pe.node d).contentList.getD (ps.index d) (Node.text [] "") =
        ps.node (d + 1) := by
      rw [← hnode]
      exact (get?_eq_getD (hps.child_eq d hdps)).1.symm
    have hidx_s : ps.index d < (pe.node d).contentList.length := by
      rw [← hnode]
      exact pathOK_idx_lt ps hps d hdps
    by_cases hdpe : d < pe.depth
    · have hneq : ps.index d ≠ pe.index d := by
        intro hcontra
        exact hne ⟨hdps, hdpe, hcontra⟩
      by_contra hcon
      push_neg at hcon
      have hle : pe.index d + 1 ≤ ps.index d := by omega
      have hg_e := hpe.pos_gt d hdpe
      have hl_e := hpe.pos_lt d hdpe
      have hch_e : (pe.node d).contentList.getD (pe.index d) (Node.text [] "") =
          pe.node (d + 1) := (get?_eq_getD (hpe.child_eq d hdpe)).1.symm
      have hidx_e : pe.index d < (pe.node d).contentList.length :=
        pathOK_idx_lt pe hpe d hdpe
      have hts_e := takeSize_succ (pe.node d).contentList (pe.index d) hidx_e
      rw [hch_e] at hts_e
      have hmono := takeSize_mono (pe.node d).contentList (pe.index d + 1) (ps.index d) hle
      omega
    · have hdd : pe.depth = d := by omega
      have hpe_pos : pe.pos = pe.start d + takeSize (pe.node d).contentList (pe.index d) := by
        have hpo := hpe.po_eq
        have hto : pe.textOffset = pe.pos - pe.childStart pe.depth := rfl
        rw [hdd] at hpo hto
        omega
      by_contra hcon
      push_neg at hcon
      have hle : pe.index d ≤ ps.index d := by omega
      have hmono := takeSize_mono (pe.node d).contentList (pe.index d) (ps.index d) hle
      omega
  · have hdd : ps.depth = d := by omega
    have hsv : startIndexVal ps d = ps.index d := by
      unfold startIndexVal
      rw [if_neg (by omega), if_neg (by rw [htos]; simp)]
    rw [hsv]
    have hps_pos : ps.pos = ps.start d + takeSize (pe.node d).contentList (ps.index d) := by
      have hpo := hps.po_eq
      have hto : ps.textOffset = ps.pos - ps.childStart ps.depth := rfl
      rw [hdd] at hpo hto
      omega
    by_cases hdpe : d < pe.depth
    · by_contra hcon
      push_neg at hcon
      have hle : pe.index d + 1 ≤ ps.index d := by omega
      have hl_e := hpe.pos_lt d hdpe
      have hch_e : (pe.node d).contentList.getD (pe.index d) (Node.text [] "") =
          pe.node (d + 1) := (get?_eq_getD (hpe.child_eq d hdpe)).1.symm
      have hidx_e : pe.index d < (pe.node d).contentList.length :=
        pathOK_idx_lt pe hpe d hdpe
      have hts_e := takeSize_succ (pe.node d).contentList (pe.index d) hidx_e
      rw [hch_e] at hts_e
      have hmono := takeSize_mono (pe.node d).contentList (pe.index d + 1) (ps.index d) hle
      omega
    · have hdd_e : pe.depth = d := by omega
      have hpe_pos : pe.pos = pe.start d + takeSize (pe.node d).contentList (pe.index d) := by
        have hpo := hpe.po_eq
        have hto : pe.textOffset = pe.pos - pe.childStart pe.depth := rfl
        rw [hdd_e] at hpo hto
        omega
      by_contra hcon
      push_neg at hcon
      have hlt := takeSize_lt (pe.node d).contentList (pe.index d) (ps.index d) hwf
        (by omega) hlen_s
      omega

theorem wfB_contentList {n : Node} (h : n.wfB = true) : wfLB n.contentList = true := by
  cases n with
  | text ms s => rfl
  | node ty a ms cs => exact h

theorem pathOK_wf (p : ResolvedPos) (hp : PathOK p) (hw : (p.node 0).wfB = true) :
    ∀ d, d ≤ p.depth → (p.node d).wfB = true := by
  intro d
  induction d with
  | zero => intro _; exact hw
  | succ k ih =>
    intro hd
    have hk : k < p.depth := by omega
    have hchild := hp.child_eq k hk
    have hwk := ih (by omega)
    have hmem : p.node (k + 1) ∈ (p.node k).contentList := by
      rw [List.get?_eq_getElem?] at hchild
      have := List.getElem?_mem hchild
      simpa using this
    exact wfLB_mem (wfB_contentList hwk) hmem

/-- Size of the non-nested assembly of `replaceThreeWay`. -/
theorem threeWayMiddle_size (fuel : Nat) (sch : Schema) (pf ps pe pt : ResolvedPos) (d : Nat)
    (osO oeO : Option Node) (content0 l : List Node)
    (h : threeWayMiddle fuel sch pf ps pe pt d osO oeO content0 = .ok l)
    (hpf : PathOK pf) (hps : PathOK ps) (hpe : PathOK pe) (hpt : PathOK pt)
    (hdfs : ps.depth = pf.depth) (hdet : pe.depth = pt.depth)
    (hdf : d ≤ pf.depth) (hdt : d ≤ pt.depth)
    (hnode : ps.node d = pe.node d) (hstart : ps.start d = pe.start d)
    (hpos : ps.pos ≤ pe.pos) (htos : ps.textOffset = 0) (htoe : pe.textOffset = 0)
    (hwfe : (pe.node 0).wfB = true)
    (hos : (osO = none ∧ pf.depth ≤ d) ∨ (osO = some (pf.node (d + 1)) ∧ d < pf.depth))
    (hoe : (oeO = none ∧ pt.depth ≤ d) ∨ (oeO = some (pe.node (d + 1)) ∧ d < pt.depth))
    (hne : ¬(d < pf.depth ∧ d < pt.depth ∧ ps.index d = pe.index d))
    (hc0 : sizeL content0 = relB pf d)
    (hS2 : ∀ (pa pb : ResolvedPos) (dd : Nat) (inner : List Node),
      replaceTwoWay fuel sch pa pb dd = .ok inner →
      PathOK pa → PathOK pb → pa.depth = pb.depth → dd ≤ pa.depth →
      sizeL inner = (pa.pos - pa.start dd) +
        (sizeL (pb.node dd).contentList - (pb.pos - pb.start dd))) :
    sizeL l = (pf.pos - pf.start d) + (pe.pos - ps.pos) +
      (sizeL (pt.node d).contentList - (pt.pos - pt.start d)) := by
  have hds : d ≤ ps.depth := by omega
  have hde : d ≤ pe.depth := by omega
  have hwfd : wfLB (pe.node d).contentList = true :=
    wfB_contentList (pathOK_wf pe hpe hwfe d hde)
  have hidx : startIndexVal ps d ≤ pe.index d :=
    resume_le ps pe hps hpe d hds hde hnode hstart hpos htos htoe hwfd
      (by intro ⟨a, b, c⟩; exact hne ⟨by omega, by omega, c⟩)
  have hmid : ∀ t : List Node, sizeL (addRangeL (some ps) (some pe) d t) =
      sizeL t + (relB pe d - relResume ps d) :=
    fun t => addRange_some_some_size ps pe hps hpe d hds hde hnode hidx t
  have hlast : ∀ t : List Node, sizeL (addRangeL (some pt) none d t) =
      sizeL t + (sizeL (pt.node d).contentList - relResume pt d) :=
    fun t => addRange_some_none_size pt hpt d hdt t
  rcases hos with ⟨hosN, hfd⟩ | ⟨hosS, hfd⟩
  · -- openStart absent: the from side is flat at this depth
    subst hosN
    have hdfd : pf.depth = d := by omega
    have hdsd : ps.depth = d := by omega
    replace h : (match (match oeO with
        | some oeN =>
          match replaceTwoWay fuel sch pe pt (d + 1) with
          | .error e => Except.error e
          | .ok inner =>
            match close sch oeN inner with
            | .error e => Except.error e
            | .ok closed =>
              Except.ok (addNodeL closed (addRangeL (some ps) (some pe) d content0))
        | none => Except.ok (addRangeL (some ps) (some pe) d content0)) with
      | .error e => Except.error e
      | .ok content3 => Except.ok (addRangeL (some pt) none d content3)) = Except.ok l := h
    have hrelBf : relB pf d = pf.pos - pf.start d := by
      unfold relB
      rw [if_pos hdfd.symm]
      have := hpf.po_eq
      rw [hdfd] at this
      omega
    have hrelRs : relResume ps d = ps.pos - ps.start d := by
      unfold relResume relB
      rw [if_pos hdsd.symm, if_neg (by omega)]
      have := hps.po_eq
      rw [hdsd] at this
      omega
    rcases hoe with ⟨hoeN, htd⟩ | ⟨hoeS, htd⟩
    · subst hoeN
      cases h
      have hdtd : pt.depth = d := by omega
      have hded : pe.depth = d := by omega
      have hrelBe : relB pe d = pe.pos - pe.start d := by
        unfold relB
        rw [if_pos hded.symm]
        have := hpe.po_eq
        rw [hded] at this
        omega
      have hrelRt : relResume pt d = pt.pos - pt.start d := by
        unfold relResume relB
        rw [if_pos hdtd.symm, if_neg (by omega)]
        have := hpt.po_eq
        rw [hdtd] at this
        omega
      rw [hlast, hmid, hc0, hrelBf, hrelBe, hrelRs, hrelRt, hstart]
      ring
    · subst hoeS
      have hded : d < pe.depth := by omega
      cases hr : replaceTwoWay fuel sch pe pt (d + 1) with
      | error e => rw [hr] at h; cases h
      | ok inner =>
        rw [hr] at h
        replace h : (match (match close sch (pe.node (d + 1)) inner with
            | .error e => Except.error e
            | .ok closed =>
              Except.ok (addNodeL closed (addRangeL (some ps) (some pe) d content0))) with
          | .error e => Except.error e
          | .ok content3 => Except.ok (addRangeL (some pt) none d content3)) =
            Except.ok l := h
        cases hcl : close sch (pe.node (d + 1)) inner with
        | error e => rw [hcl] at h; cases h
        | ok closed =>
          rw [hcl] at h
          replace h : Except.ok (addRangeL (some pt) none d
              (addNodeL closed (addRangeL (some ps) (some pe) d content0))) =
              Except.ok l := h
          cases h
          have hinner := hS2 pe pt (d + 1) inner hr hpe hpt hdet (by omega)
          have hnl := pathOK_child_nonleaf pe hpe d hded
          have hclsz : closed.nodeSize = 2 + sizeL inner := by
            rw [close_ok hcl]
            exact node_copy_nodeSize _ (hpe.child_notext d hded) hnl.1 inner
          have hrelBe : relB pe d = pe.childStart d - pe.start d := by
            unfold relB
            rw [if_neg (by omega)]
          have hrelRt : relResume pt d =
              (pt.childStart d - pt.start d) + (2 + sizeL (pt.node (d + 1)).contentList) := by
            have hgt' : d < pt.depth := by omega
            have hchild : (pt.node d).contentList.getD (pt.index d) (Node.text [] "") =
                pt.node (d + 1) := (get?_eq_getD (hpt.child_eq d hgt')).1.symm
            have hcnl := pathOK_child_nonleaf pt hpt d hgt'
            unfold relResume relB
            rw [if_neg (by omega), if_pos hgt', hchild, hcnl.2]
          have hse : pe.start (d + 1) = pe.childStart d + 1 := rfl
          have hst : pt.start (d + 1) = pt.childStart d + 1 := rfl
          rw [hlast, addNodeL_size, hmid, hc0, hclsz, hinner, hrelBf, hrelBe, hrelRs, hrelRt]
          rw [hse, hst, hstart]
          ring
  · -- openStart present
    subst hosS
    have hdsd : d < ps.depth := by omega
    replace h : (match (match replaceTwoWay fuel sch pf ps (d + 1) with
          | .error e => Except.error e
          | .ok inner =>
            match close sch (pf.node (d + 1)) inner with
            | .error e => Except.error e
            | .ok closed => Except.ok (addNodeL closed content0)) with
        | .error e => Except.error e
        | .ok content1 =>
          match (match oeO with
            | some oeN =>
              match replaceTwoWay fuel sch pe pt (d + 1) with
              | .error e => Except.error e
              | .ok inner =>
                match close sch oeN inner with
                | .error e => Except.error e
                | .ok closed =>
                  Except.ok (addNodeL closed (addRangeL (some ps) (some pe) d content1))
            | none => Except.ok (addRangeL (some ps) (some pe) d content1)) with
          | .error e => Except.error e
          | .ok content3 => Except.ok (addRangeL (some pt) none d content3)) = Except.ok l := h
    cases hr1 : replaceTwoWay fuel sch pf ps (d + 1) with
    | error e => rw [hr1] at h; cases h
    | ok inner1 =>
      rw [hr1] at h
      replace h : (match (match close sch (pf.node (d + 1)) inner1 with
            | .error e => Except.error e
            | .ok closed => Except.ok (addNodeL closed content0)) with
          | .error e => Except.error e
          | .ok content1 =>
            match (match oeO with
              | some oeN =>
                match replaceTwoWay fuel sch pe pt (d + 1) with
                | .error e => Except.error e
                | .ok inner =>
                  match close sch oeN inner with
                  | .error e => Except.error e
                  | .ok closed =>
                    Except.ok (addNodeL closed (addRangeL (some ps) (some pe) d content1))
              | none => Except.ok (addRangeL (some ps) (some pe) d content1)) with
            | .error e => Except.error e
            | .ok content3 => Except.ok (addRangeL (some pt) none d content3)) =
          Except.ok l := h
      cases hcl1 : close sch (pf.node (d + 1)) inner1 with
      | error e => rw [hcl1] at h; cases h
      | ok closed1 =>
        rw [hcl1] at h
        replace h : (match (match oeO with
            | some oeN =>
              match replaceTwoWay fuel sch pe pt (d + 1) with
              | .error e => Except.error e
              | .ok inner =>
                match close sch oeN inner with
                | .error e => Except.error e
                | .ok closed =>
                  Except.ok (addNodeL closed (addRangeL (some ps) (some pe) d
                    (addNodeL closed1 content0)))
            | none => Except.ok (addRangeL (some ps) (some pe) d
                (addNodeL closed1 content0))) with
          | .error e => Except.error e
          | .ok content3 => Except.ok (addRangeL (some pt) none d content3)) =
            Except.ok l := h
        have hinner1 := hS2 pf ps (d + 1) inner1 hr1 hpf hps hdfs.symm (by omega)
        have hnl1 := pathOK_child_nonleaf pf hpf d hfd
        have hclsz1 : closed1.nodeSize = 2 + sizeL inner1 := by
          rw [close_ok hcl1]
          exact node_copy_nodeSize _ (hpf.child_notext d hfd) hnl1.1 inner1
        have hc1 : sizeL (addNodeL closed1 content0) =
            relB pf d + (2 + sizeL inner1) := by
          rw [addNodeL_size, hc0, hclsz1]
        have hrelBf : relB pf d = pf.childStart d - pf.start d := by
          unfold relB
          rw [if_neg (by omega)]
        have hrelRs : relResume ps d =
            (ps.childStart d - ps.start d) + (2 + sizeL (ps.node (d + 1)).contentList) := by
          have hchild : (ps.node d).contentList.getD (ps.index d) (Node.text [] "") =
              ps.node (d + 1) := (get?_eq_getD (hps.child_eq d hdsd)).1.symm
          have hcnl := pathOK_child_nonleaf ps hps d hdsd
          unfold relResume relB
          rw [if_neg (by omega), if_pos hdsd, hchild, hcnl.2]
        have hsf : pf.start (d + 1) = pf.childStart d + 1 := rfl
        have hss : ps.start (d + 1) = ps.childStart d + 1 := rfl
        rcases hoe with ⟨hoeN, htd⟩ | ⟨hoeS, htd⟩
        · subst hoeN
          cases h
          have hdtd : pt.depth = d := by omega
          have hded : pe.depth = d := by omega
          have hrelBe : relB pe d = pe.pos - pe.start d := by
            unfold relB
            rw [if_pos hded.symm]
            have := hpe.po_eq
            rw [hded] at this
            omega
          have hrelRt : relResume pt d = pt.pos - pt.start d := by
            unfold relResume relB
            rw [if_pos hdtd.symm, if_neg (by omega)]
            have := hpt.po_eq
            rw [hdtd] at this
            omega
          rw [hlast, hmid, hc1, hinner1, hrelBf, hrelBe, hrelRs, hrelRt]
          rw [hsf, hss, hstart]
          ring
        · subst hoeS
          have hded : d < pe.depth := by omega
          cases hr2 : replaceTwoWay fuel sch pe pt (d + 1) with
          | error e => rw [hr2] at h; cases h
          | ok inner2 =>
            rw [hr2] at h
            replace h : (match (match close sch (pe.node (d + 1)) inner2 with
                | .error e => Except.error e
                | .ok closed =>
                  Except.ok (addNodeL closed (addRangeL (some ps) (some pe) d
                    (addNodeL closed1 content0)))) with
              | .error e => Except.error e
              | .ok content3 => Except.ok (addRangeL (some pt) none d content3)) =
                Except.ok l := h
            cases hcl2 : close sch (pe.node (d + 1)) inner2 with
            | error e => rw [hcl2] at h; cases h
            | ok closed2 =>
              rw [hcl2] at h
              replace h : Except.ok (addRangeL (some pt) none d (addNodeL closed2
                  (addRangeL (some ps) (some pe) d (addNodeL closed1 content0)))) =
                  Except.ok l := h
              cases h
              have hinner2 := hS2 pe pt (d + 1) inner2 hr2 hpe hpt hdet (by omega)
              have hnl2 := pathOK_child_nonleaf pe hpe d hded
              have hclsz2 : closed2.nodeSize = 2 + sizeL inner2 := by
                rw [close_ok hcl2]
                exact node_copy_nodeSize _ (hpe.child_notext d hded) hnl2.1 inner2
              have hrelBe : relB pe d = pe.childStart d - pe.start d := by
                unfold relB
                rw [if_neg (by omega)]
              have hrelRt : relResume pt d =
                  (pt.childStart d - pt.start d) +
                    (2 + sizeL (pt.node (d + 1)).contentList) := by
                have hgt' : d < pt.depth := by omega
                have hchild : (pt.node d).contentList.getD (pt.index d) (Node.text [] "") =
                    pt.node (d + 1) := (get?_eq_getD (hpt.child_eq d hgt')).1.symm
                have hcnl := pathOK_child_nonleaf pt hpt d hgt'
                unfold relResume relB
                rw [if_neg (by omega), if_pos hgt', hchild, hcnl.2]
              have hse : pe.start (d + 1) = pe.childStart d + 1 := rfl
              have hst : pt.start (d + 1) = pt.childStart d + 1 := rfl
              rw [hlast, addNodeL_size, hmid, hc1, hclsz2, hinner2, hinner1]
              rw [hrelBf, hrelBe, hrelRs, hrelRt]
              rw [hsf, hss, hse, hst, hstart]
              ring

theorem replaceThreeWay_succ (fuel : Nat) (sch : Schema) (pf ps pe pt : ResolvedPos)
    (d : Nat) :
    replaceThreeWay (fuel + 1) sch pf ps pe pt d =
      (match (if pf.depth > d then
               match joinable sch pf ps (d + 1) with
               | .error e => Except.error e
               | .ok n => Except.ok (some n)
             else Except.ok none) with
       | .error e => .error e
       | .ok openStart =>
         match (if pt.depth > d then
                  match joinable sch pe pt (d + 1) with
                  | .error e => Except.error e
                  | .ok n => Except.ok (some n)
                else Except.ok none) with
         | .error e => .error e
         | .ok openEnd =>
           match openStart, openEnd with
           | some osN, some oeN =>
             if ps.index d = pe.index d then
               match checkJoin sch osN oeN with
               | .error e => .error e
               | .ok _ =>
                 match replaceThreeWay fuel sch pf ps pe pt (d + 1) with
                 | .error e => .error e
                 | .ok inner =>
                   match close sch osN inner with
                   | .error e => .error e
                   | .ok closed =>
                     .ok (addRangeL (some pt) none d
                       (addNodeL closed (addRangeL none (some pf) d [])))
             else
               threeWayMiddle fuel sch pf ps pe pt d (some osN) (some oeN)
                 (addRangeL none (some pf) d [])
           | osO, oeO =>
             threeWayMiddle fuel sch pf ps pe pt d osO oeO
               (addRangeL none (some pf) d [])) := rfl

/-- Size invariant of `replaceThreeWay`: between the before-`$from` and
after-`$to` material, the part of the prepared tree between `$start` and
`$end` contributes exactly their position difference. -/
theorem replaceThreeWay_size : ∀ (fuel : Nat) (sch : Schema) (pf ps pe pt : ResolvedPos)
    (d : Nat) (l : List Node),
    replaceThreeWay fuel sch pf ps pe pt d = .ok l →
    PathOK pf → PathOK ps → PathOK pe → PathOK pt →
    ps.depth = pf.depth → pe.depth = pt.depth →
    d ≤ pf.depth → d ≤ pt.depth →
    ps.node d = pe.node d → ps.start d = pe.start d →
    ps.pos ≤ pe.pos → ps.textOffset = 0 → pe.textOffset = 0 →
    (pe.node 0).wfB = true →
    sizeL l = (pf.pos - pf.start d) + (pe.pos - ps.pos) +
      (sizeL (pt.node d).contentList - (pt.pos - pt.start d)) := by
  intro fuel
  induction fuel with
  | zero =>
    intro sch pf ps pe pt d l h
    cases h
  | succ f ih =>
    intro sch pf ps pe pt d l h hpf hps hpe hpt hdfs hdet hdf hdt hnode hstart hpos
      htos htoe hwfe
    rw [replaceThreeWay_succ] at h
    have hc0 : sizeL (addRangeL none (some pf) d []) = relB pf d := by
      rw [addRange_none_some_size pf hpf d hdf []]
      have hz : sizeL ([] : List Node) = 0 := rfl
      rw [hz]
      omega
    have hS2 : ∀ (pa pb : ResolvedPos) (dd : Nat) (inner : List Node),
        replaceTwoWay f sch pa pb dd = .ok inner →
        PathOK pa → PathOK pb → pa.depth = pb.depth → dd ≤ pa.depth →
        sizeL inner = (pa.pos - pa.start dd) +
          (sizeL (pb.node dd).contentList - (pb.pos - pb.start dd)) :=
      fun pa pb dd inner hr hpa hpb hdep hdd =>
        replaceTwoWay_size f sch pa pb dd inner hr hpa hpb hdep hdd
    by_cases hgf : pf.depth > d
    · rw [if_pos hgf] at h
      cases hj1 : joinable sch pf ps (d + 1) with
      | error e => rw [hj1] at h; cases h
      | ok osN =>
        rw [hj1] at h
        have hosN := joinable_ok hj1
        replace h : (match (if pt.depth > d then
              match joinable sch pe pt (d + 1) with
              | .error e => Except.error e
              | .ok n => Except.ok (some n)
            else Except.ok none) with
          | .error e => Except.error e
          | .ok openEnd =>
            match (some osN : Option Node), openEnd with
            | some osN, some oeN =>
              if ps.index d = pe.index d then
                match checkJoin sch osN oeN with
                | .error e => Except.error e
                | .ok _ =>
                  match replaceThreeWay f sch pf ps pe pt (d + 1) with
                  | .error e => Except.error e
                  | .ok inner =>
                    match close sch osN inner with
                    | .error e => Except.error e
                    | .ok closed =>
                      Except.ok (addRangeL (some pt) none d
                        (addNodeL closed (addRangeL none (some pf) d [])))
              else
                threeWayMiddle f sch pf ps pe pt d (some osN) (some oeN)
                  (addRangeL none (some pf) d [])
            | osO, oeO =>
              threeWayMiddle f sch pf ps pe pt d osO oeO
                (addRangeL none (some pf) d [])) = Except.ok l := h
        by_cases hgt : pt.depth > d
        · rw [if_pos hgt] at h
          cases hj2 : joinable sch pe pt (d + 1) with
          | error e => rw [hj2] at h; cases h
          | ok oeN =>
            rw [hj2] at h
            have hoeN := joinable_ok hj2
            replace h : (if ps.index d = pe.index d then
                match checkJoin sch osN oeN with
                | .error e => Except.error e
                | .ok _ =>
                  match replaceThreeWay f sch pf ps pe pt (d + 1) with
                  | .error e => Except.error e
                  | .ok inner =>
                    match close sch osN inner with
                    | .error e => Except.error e
                    | .ok closed =>
                      Except.ok (addRangeL (some pt) none d
                        (addNodeL closed (addRangeL none (some pf) d [])))
              else
                threeWayMiddle f sch pf ps pe pt d (some osN) (some oeN)
                  (addRangeL none (some pf) d [])) = Except.ok l := h
            by_cases hie : ps.index d = pe.index d
            · -- nested descent
              rw [if_pos hie] at h
              cases hcj : checkJoin sch osN oeN with
              | error e => rw [hcj] at h; cases h
              | ok u =>
                rw [hcj] at h
                replace h : (match replaceThreeWay f sch pf ps pe pt (d + 1) with
                  | .error e => Except.error e
                  | .ok inner =>
                    match close sch osN inner with
                    | .error e => Except.error e
                    | .ok closed =>
                      Except.ok (addRangeL (some pt) none d
                        (addNodeL closed (addRangeL none (some pf) d [])))) =
                    Except.ok l := h
                cases hr : replaceThreeWay f sch pf ps pe pt (d + 1) with
                | error e => rw [hr] at h; cases h
                | ok inner =>
                  rw [hr] at h
                  replace h : (match close sch osN inner with
                    | .error e => Except.error e
                    | .ok closed =>
                      Except.ok (addRangeL (some pt) none d
                        (addNodeL closed (addRangeL none (some pf) d [])))) =
                      Except.ok l := h
                  cases hcl : close sch osN inner with
                  | error e => rw [hcl] at h; cases h
                  | ok closed =>
                    rw [hcl] at h
                    cases h
                    have hdps : d < ps.depth := by omega
                    have hdpe : d < pe.depth := by omega
                    have h1 := hps.child_eq d hdps
                    have h2 := hpe.child_eq d hdpe
                    rw [hnode, hie] at h1
                    have hnode' : ps.node (d + 1) = pe.node (d + 1) :=
                      Option.some.inj (h1.symm.trans h2)
                    have hstart' : ps.start (d + 1) = pe.start (d + 1) := by
                      have hc1 := hps.cs_eq d (by omega)
                      have hc2 := hpe.cs_eq d (by omega)
                      rw [hnode, hie, hstart] at hc1
                      show ps.childStart d + 1 = pe.childStart d + 1
                      omega
                    have hinner := ih sch pf ps pe pt (d + 1) inner hr hpf hps hpe hpt
                      hdfs hdet (by omega) (by omega) hnode' hstart' hpos htos htoe hwfe
                    have hnl := pathOK_child_nonleaf pf hpf d hgf
                    have hclsz : closed.nodeSize = 2 + sizeL inner := by
                      rw [close_ok hcl, hosN]
                      exact node_copy_nodeSize _ (hpf.child_notext d hgf) hnl.1 inner
                    have hs3 : sizeL (addRangeL (some pt) none d
                        (addNodeL closed (addRangeL none (some pf) d []))) =
                        sizeL (addNodeL closed (addRangeL none (some pf) d [])) +
                          (sizeL (pt.node d).contentList - relResume pt d) :=
                      addRange_some_none_size pt hpt d hdt _
                    have hrelBf : relB pf d = pf.childStart d - pf.start d := by
                      unfold relB
                      rw [if_neg (by omega)]
                    have hrelRt : relResume pt d =
                        (pt.childStart d - pt.start d) +
                          (2 + sizeL (pt.node (d + 1)).contentList) := by
                      have hchild : (pt.node d).contentList.getD (pt.index d)
                          (Node.text [] "") = pt.node (d + 1) :=
                        (get?_eq_getD (hpt.child_eq d hgt)).1.symm
                      have hcnl := pathOK_child_nonleaf pt hpt d hgt
                      unfold relResume relB
                      rw [if_neg (by omega), if_pos hgt, hchild, hcnl.2]
                    have hsf : pf.start (d + 1) = pf.childStart d + 1 := rfl
                    have hst : pt.start (d + 1) = pt.childStart d + 1 := rfl
                    rw [hs3, addNodeL_size, hc0, hclsz, hinner, hrelBf, hrelRt]
                    rw [hsf, hst]
                    ring
            · rw [if_neg hie] at h
              exact threeWayMiddle_size f sch pf ps pe pt d (some osN) (some oeN) _ l h
                hpf hps hpe hpt hdfs hdet hdf hdt hnode hstart hpos htos htoe hwfe
                (Or.inr ⟨by rw [hosN], hgf⟩) (Or.inr ⟨by rw [hoeN], hgt⟩)
                (by intro ⟨_, _, hc⟩; exact hie hc) hc0 hS2
        · rw [if_neg hgt] at h
          replace h : threeWayMiddle f sch pf ps pe pt d (some osN) none
              (addRangeL none (some pf) d []) = Except.ok l := h
          exact threeWayMiddle_size f sch pf ps pe pt d (some osN) none _ l h
            hpf hps hpe hpt hdfs hdet hdf hdt hnode hstart hpos htos htoe hwfe
            (Or.inr ⟨by rw [hosN], hgf⟩) (Or.inl ⟨rfl, by omega⟩)
            (by intro ⟨_, hb, _⟩; omega) hc0 hS2
    · rw [if_neg hgf] at h
      replace h : (match (if pt.depth > d then
            match joinable sch pe pt (d + 1) with
            | .error e => Except.error e
            | .ok n => Except.ok (some n)
          else Except.ok none) with
        | .error e => Except.error e
        | .ok openEnd =>
          match (none : Option Node), openEnd with
          | some osN, some oeN =>
            if ps.index d = pe.index d then
              match checkJoin sch osN oeN with
              | .error e => Except.error e
              | .ok _ =>
                match replaceThreeWay f sch pf ps pe pt (d + 1) with
                | .error e => Except.error e
                | .ok inner =>
                  match close sch osN inner with
                  | .error e => Except.error e
                  | .ok closed =>
                    Except.ok (addRangeL (some pt) none d
                      (addNodeL closed (addRangeL none (some pf) d [])))
            else
              threeWayMiddle f sch pf ps pe pt d (some osN) (some oeN)
                (addRangeL none (some pf) d [])
          | osO, oeO =>
            threeWayMiddle f sch pf ps pe pt d osO oeO
              (addRangeL none (some pf) d [])) = Except.ok l := h
      by_cases hgt : pt.depth > d
      · rw [if_pos hgt] at h
        cases hj2 : joinable sch pe pt (d + 1) with
        | error e => rw [hj2] at h; cases h
        | ok oeN =>
          rw [hj2] at h
          have hoeN := joinable_ok hj2
          replace h : threeWayMiddle f sch pf ps pe pt d none (some oeN)
              (addRangeL none (some pf) d []) = Except.ok l := h
          exact threeWayMiddle_size f sch pf ps pe pt d none (some oeN) _ l h
            hpf hps hpe hpt hdfs hdet hdf hdt hnode hstart hpos htos htoe hwfe
            (Or.inl ⟨rfl, by omega⟩) (Or.inr ⟨by rw [hoeN], hgt⟩)
            (by intro ⟨ha, _, _⟩; omega) hc0 hS2
      · rw [if_neg hgt] at h
        replace h : threeWayMiddle f sch pf ps pe pt d none none
            (addRangeL none (some pf) d []) = Except.ok l := h
        exact threeWayMiddle_size f sch pf ps pe pt d none none _ l h
          hpf hps hpe hpt hdfs hdet hdf hdt hnode hstart hpos htos htoe hwfe
          (Or.inl ⟨rfl, by omega⟩) (Or.inl ⟨rfl, by omega⟩)
          (by intro ⟨ha, _, _⟩; omega) hc0 hS2

theorem wfLB_sub {l : List Node} (hw : wfLB l = true) :
    ∀ l' : List Node, (∀ x, x ∈ l' → x ∈ l) → wfLB l' = true := by
  intro l'
  induction l' with
  | nil => intro _; rfl
  | cons c cs ih =>
    intro hsub
    show (c.wfB && wfLB cs) = true
    rw [Bool.and_eq_true]
    exact ⟨wfLB_mem hw (hsub c (by simp)),
      ih (fun x hx => hsub x (by simp [hx]))⟩

theorem sizeL_take_drop (l : List Node) (i : Nat) :
    sizeL (l.drop i) = sizeL l - takeSize l i := by
  have h : l.take i ++ l.drop i = l := List.take_append_drop i l
  have := sizeL_append (l.take i) (l.drop i)
  rw [h] at this
  unfold takeSize
  omega

theorem drop_cons_getD (l : List Node) (i : Nat) (hi : i < l.length) :
    l.drop i = l.getD i (Node.text [] "") :: l.drop (i + 1) := by
  rw [List.drop_eq_getElem_cons hi]
  congr 1
  rw [List.getD_eq_getElem?_getD, List.getElem?_eq_getElem hi]
  rfl

/-- The boundary-or-inside-text shape of a resolved offset in a child
list: `po` splits as the size of `index` whole children plus a strict
offset into a text child (or zero). -/
def BoundaryPos (l : List Node) (po : Int) (index : Nat) (tOff : Int) : Prop :=
  po = takeSize l index + tOff ∧ index ≤ l.length ∧
    (tOff = 0 ∨ (index < l.length ∧ 0 < tOff ∧
      tOff < (l.getD index (Node.text [] "")).nodeSize ∧
      (l.getD index (Node.text [] "")).isText = true))

/-- Cutting `[0, po)` at a boundary-or-inside-text offset keeps exactly
`po` units. -/
theorem cut_prefix_size (l : List Node) (hw : wfLB l = true) (po : Int)
    (index : Nat) (tOff : Int) (hb : BoundaryPos l po index tOff) :
    sizeL (cutL l 0 po) = po := by
  obtain ⟨hpo, hidx, hdisj⟩ := hb
  have htnn : 0 ≤ tOff := by
    rcases hdisj with h | ⟨_, h, _, _⟩ <;> omega
  have htk := takeSize_nonneg l index
  have htkl := takeSize_le_size l index
  unfold cutL
  split_ifs with hfull hpos
  · omega
  · have hsplit : l = l.take index ++ l.drop index := (List.take_append_drop index l).symm
    conv_lhs => rw [hsplit]
    rw [cutGo_concat]
    have htt : sizeL (l.take index) = takeSize l index := rfl
    have hkeep : cutGo 0 po (l.take index) 0 = l.take index := by
      apply cutGo_keep
      · exact wfLB_sub hw _ (fun x hx => List.mem_of_mem_take hx)
      · omega
      · rw [htt]; omega
    rw [hkeep, sizeL_append, htt, zero_add]
    rcases hdisj with ht0 | ⟨hlt, ht1, ht2, ht3⟩
    · have hstop : cutGo 0 po (l.drop index) (takeSize l index) = [] :=
        cutGo_stop 0 po _ _ (by omega)
      rw [hstop]
      have hz : sizeL ([] : List Node) = 0 := rfl
      rw [hz]
      omega
    · rw [drop_cons_getD l index hlt]
      cases hc : l.getD index (Node.text [] "") with
      | node ty a ms cs => rw [hc] at ht3; simp [Node.isText] at ht3
      | text ms s =>
        rw [hc] at ht2
        have hsz : (Node.text ms s).nodeSize = (s.length : Int) := rfl
        rw [hsz] at ht2
        rw [cutGo]
        have hcnd1 : takeSize l index < po := by omega
        rw [if_pos hcnd1]
        have hcnd2 : takeSize l index + (Node.text ms s).nodeSize > 0 := by
          rw [hsz]; omega
        rw [if_pos hcnd2]
        have hcnd3 : takeSize l index < 0 ∨
            takeSize l index + (Node.text ms s).nodeSize > po := by
          right
          rw [hsz]
          omega
        rw [if_pos hcnd3]
        rw [if_pos (show (Node.text ms s).isText = true from rfl)]
        have hmax : max 0 (0 - takeSize l index) = 0 := by omega
        have hts2 : (Node.text ms s).textStr.length = s.length := rfl
        have hmin : min ((Node.text ms s).textStr.length : Int) (po - takeSize l index)
            = tOff := by
          rw [hts2]
          omega
        rw [hmax, hmin]
        have hstop : cutGo 0 po (l.drop (index + 1))
            (takeSize l index + (Node.text ms s).nodeSize) = [] := by
          apply cutGo_stop
          rw [hsz]
          omega
        rw [hstop]
        have h1 : sizeL [(Node.text ms s).cut 0 tOff] =
            ((Node.text ms s).cut 0 tOff).nodeSize + 0 := rfl
        rw [sizeL_append, h1]
        rw [text_cut_size ms s 0 tOff le_rfl (by omega) (by omega)]
        have hz : sizeL ([] : List Node) = 0 := rfl
        rw [hz]
        omega
  · have hz : sizeL ([] : List Node) = 0 := rfl
    rw [hz]
    omega

/-- Cutting `[po, size)` at a boundary-or-inside-text offset keeps
exactly `size − po` units. -/
theorem cut_suffix_size (l : List Node) (hw : wfLB l = true) (po : Int)
    (index : Nat) (tOff : Int) (hb : BoundaryPos l po index tOff) :
    sizeL (cutL l po (sizeL l)) = sizeL l - po := by
  obtain ⟨hpo, hidx, hdisj⟩ := hb
  have htnn : 0 ≤ tOff := by
    rcases hdisj with h | ⟨_, h, _, _⟩ <;> omega
  have htk := takeSize_nonneg l index
  have htkl := takeSize_le_size l index
  have hple : po ≤ sizeL l := by
    rcases hdisj with ht0 | ⟨hlt, ht1, ht2, ht3⟩
    · omega
    · have hts := takeSize_succ l index hlt
      have := takeSize_le_size l (index + 1)
      omega
  unfold cutL
  split_ifs with hfull hpos
  · omega
  · obtain ⟨T, hT⟩ : ∃ T, sizeL l = T := ⟨sizeL l, rfl⟩
    rw [hT]
    have hsplit : l = l.take index ++ l.drop index := (List.take_append_drop index l).symm
    conv_lhs => rw [hsplit]
    rw [cutGo_concat]
    have htt : sizeL (l.take index) = takeSize l index := rfl
    have hdropw : wfLB (l.drop index) = true :=
      wfLB_sub hw _ (fun x hx => List.mem_of_mem_drop hx)
    have hdrop : cutGo po T (l.take index) 0 = [] :=
      cutGo_drop _ _ _ _ (by rw [htt]; omega)
    rw [hdrop, htt, zero_add]
    have hz : sizeL ([] : List Node) = 0 := rfl
    rcases hdisj with ht0 | ⟨hlt, ht1, ht2, ht3⟩
    · have hkeep : cutGo po T (l.drop index) (takeSize l index) = l.drop index := by
        apply cutGo_keep _ _ _ _ hdropw (by omega)
        rw [sizeL_take_drop]
        omega
      rw [hkeep, sizeL_append, hz, sizeL_take_drop]
      omega
    · rw [drop_cons_getD l index hlt]
      cases hc : l.getD index (Node.text [] "") with
      | node ty a ms cs => rw [hc] at ht3; simp [Node.isText] at ht3
      | text ms s =>
        rw [hc] at ht2
        have hsz : (Node.text ms s).nodeSize = (s.length : Int) := rfl
        rw [hsz] at ht2
        have hts := takeSize_succ l index hlt
        rw [hc, hsz] at hts
        have htsl := takeSize_le_size l (index + 1)
        rw [cutGo]
        have hcnd1 : takeSize l index < T := by omega
        rw [if_pos hcnd1]
        have hcnd2 : takeSize l index + (Node.text ms s).nodeSize > po := by
          rw [hsz]; omega
        rw [if_pos hcnd2]
        have hcnd3 : takeSize l index < po ∨
            takeSize l index + (Node.text ms s).nodeSize > T := by
          left
          omega
        rw [if_pos hcnd3]
        rw [if_pos (show (Node.text ms s).isText = true from rfl)]
        have hts2 : (Node.text ms s).textStr.length = s.length := rfl
        have hmax : max 0 (po - takeSize l index) = tOff := by omega
        have hmin : min ((Node.text ms s).textStr.length : Int)
            (T - takeSize l index) = (s.length : Int) := by
          rw [hts2]
          omega
        rw [hmax, hmin]
        have hrest : wfLB (l.drop (index + 1)) = true :=
          wfLB_sub hw _ (fun x hx => List.mem_of_mem_drop hx)
        have hkeep : cutGo po T (l.drop (index + 1))
            (takeSize l index + (Node.text ms s).nodeSize) = l.drop (index + 1) := by
          apply cutGo_keep _ _ _ _ hrest (by rw [hsz]; omega)
          rw [hsz, sizeL_take_drop]
          omega
        rw [hkeep]
        have h1 : sizeL [(Node.text ms s).cut tOff (s.length : Int)] =
            ((Node.text ms s).cut tOff (s.length : Int)).nodeSize + 0 := rfl
        rw [sizeL_append, sizeL_append, h1]
        rw [text_cut_size ms s tOff (s.length : Int) (by omega) (by omega) le_rfl]
        rw [sizeL_take_drop]
        omega
  · have hz : sizeL ([] : List Node) = 0 := rfl
    rw [hz]
    omega

mutual

theorem open_start_nonnegN : ∀ n : Node, 0 ≤ openDepthStartN true n
  | .text ms s => by
    show (0 : Int) ≤ 0
    omega
  | .node t a ms cs => by
    show (0 : Int) ≤ if t.leaf = true ∨ (true = false ∧ t.isolating = true) then 0
      else 1 + openDepthStartL true cs
    split
    · omega
    · have := open_start_nonnegL cs
      omega

theorem open_start_nonnegL : ∀ l : List Node, 0 ≤ openDepthStartL true l
  | [] => by
    show (0 : Int) ≤ 0
    omega
  | c :: rest => open_start_nonnegN c

end

mutual

theorem open_end_nonnegN : ∀ n : Node, 0 ≤ openDepthEndN true n
  | .text ms s => by
    show (0 : Int) ≤ 0
    omega
  | .node t a ms cs => by
    show (0 : Int) ≤ if t.leaf = true ∨ (true = false ∧ t.isolating = true) then 0
      else 1 + openDepthEndL true cs
    split
    · omega
    · have := open_end_nonnegL cs
      omega

theorem open_end_nonnegL : ∀ l : List Node, 0 ≤ openDepthEndL true l
  | [] => by
    show (0 : Int) ≤ 0
    omega
  | [c] => open_end_nonnegN c
  | _ :: d :: ds => open_end_nonnegL (d :: ds)

end

mutual

theorem open_start_le_sizeN : ∀ n : Node, 2 * openDepthStartN true n ≤ n.nodeSize
  | .text ms s => by
    show 2 * (0 : Int) ≤ (s.length : Int)
    omega
  | .node t a ms cs => by
    show 2 * (if t.leaf = true ∨ (true = false ∧ t.isolating = true) then 0
      else 1 + openDepthStartL true cs) ≤ (if t.leaf = true then 1 else 2 + sizeL cs)
    by_cases hl : t.leaf = true
    · rw [if_pos (Or.inl hl), if_pos hl]
      omega
    · rw [if_neg (by rintro (h | ⟨h, _⟩); exact hl h; cases h), if_neg hl]
      have := open_start_le_sizeL cs
      omega

theorem open_start_le_sizeL : ∀ l : List Node, 2 * openDepthStartL true l ≤ sizeL l
  | [] => by
    show 2 * (0 : Int) ≤ 0
    omega
  | c :: rest => by
    show 2 * openDepthStartN true c ≤ c.nodeSize + sizeL rest
    have h1 := open_start_le_sizeN c
    have h2 := sizeL_nonneg rest
    omega

end

mutual

theorem open_end_le_sizeN : ∀ n : Node, 2 * openDepthEndN true n ≤ n.nodeSize
  | .text ms s => by
    show 2 * (0 : Int) ≤ (s.length : Int)
    omega
  | .node t a ms cs => by
    show 2 * (if t.leaf = true ∨ (true = false ∧ t.isolating = true) then 0
      else 1 + openDepthEndL true cs) ≤ (if t.leaf = true then 1 else 2 + sizeL cs)
    by_cases hl : t.leaf = true
    · rw [if_pos (Or.inl hl), if_pos hl]
      omega
    · rw [if_neg (by rintro (h | ⟨h, _⟩); exact hl h; cases h), if_neg hl]
      have := open_end_le_sizeL cs
      omega

theorem open_end_le_sizeL : ∀ l : List Node, 2 * openDepthEndL true l ≤ sizeL l
  | [] => by
    show 2 * (0 : Int) ≤ 0
    omega
  | [c] => by
    show 2 * openDepthEndN true c ≤ c.nodeSize + sizeL []
    have h1 := open_end_le_sizeN c
    have h2 : sizeL ([] : List Node) = 0 := rfl
    omega
  | c :: d :: ds => by
    show 2 * openDepthEndL true (d :: ds) ≤ c.nodeSize + sizeL (d :: ds)
    have h1 := open_end_le_sizeL (d :: ds)
    have h2 := Node.nodeSize_nonneg c
    omega

end

mutual

theorem open_start_le_depthN : ∀ n : Node, openDepthStartN true n ≤ (n.depthNat : Int)
  | .text ms s => by
    show (0 : Int) ≤ ((0 : Nat) : Int)
    omega
  | .node t a ms cs => by
    show (if t.leaf = true ∨ (true = false ∧ t.isolating = true) then 0
      else 1 + openDepthStartL true cs) ≤ ((depthLNat cs + 1 : Nat) : Int)
    split
    · omega
    · have := open_start_le_depthL cs
      push_cast
      omega

theorem open_start_le_depthL : ∀ l : List Node, openDepthStartL true l ≤ (depthLNat l : Int)
  | [] => by
    show (0 : Int) ≤ ((0 : Nat) : Int)
    omega
  | c :: rest => by
    show openDepthStartN true c ≤ ((max c.depthNat (depthLNat rest) : Nat) : Int)
    have h1 := open_start_le_depthN c
    have h2 : c.depthNat ≤ max c.depthNat (depthLNat rest) := le_max_left _ _
    push_cast
    omega

end

mutual

theorem open_end_le_depthN : ∀ n : Node, openDepthEndN true n ≤ (n.depthNat : Int)
  | .text ms s => by
    show (0 : Int) ≤ ((0 : Nat) : Int)
    omega
  | .node t a ms cs => by
    show (if t.leaf = true ∨ (true = false ∧ t.isolating = true) then 0
      else 1 + openDepthEndL true cs) ≤ ((depthLNat cs + 1 : Nat) : Int)
    split
    · omega
    · have := open_end_le_depthL cs
      push_cast
      omega

theorem open_end_le_depthL : ∀ l : List Node, openDepthEndL true l ≤ (depthLNat l : Int)
  | [] => by
    show (0 : Int) ≤ ((0 : Nat) : Int)
    omega
  | [c] => by
    show openDepthEndN true c ≤ ((max c.depthNat (depthLNat []) : Nat) : Int)
    have h1 := open_end_le_depthN c
    have h2 : c.depthNat ≤ max c.depthNat (depthLNat []) := le_max_left _ _
    push_cast
    omega
  | c :: d :: ds => by
    show openDepthEndL true (d :: ds) ≤ ((max c.depthNat (depthLNat (d :: ds)) : Nat) : Int)
    have h1 := open_end_le_depthL (d :: ds)
    have h2 : depthLNat (d :: ds) ≤ max c.depthNat (depthLNat (d :: ds)) := le_max_right _ _
    push_cast
    omega

end

/-- Peeling one level off a start-side open-boundary chain. -/
theorem open_start_chain {l : List Node} {r : Int} (h1 : 1 ≤ r)
    (h2 : r ≤ openDepthStartL true l) :
    ∃ c rest, l = c :: rest ∧ c.isText = false ∧ c.typeOf.leaf = false ∧
      c.nodeSize = 2 + sizeL c.contentList ∧ 2 * r ≤ c.nodeSize ∧
      r - 1 ≤ openDepthStartL true c.contentList := by
  cases l with
  | nil =>
    have : openDepthStartL true ([] : List Node) = 0 := rfl
    omega
  | cons c rest =>
    have hh : openDepthStartL true (c :: rest) = openDepthStartN true c := rfl
    rw [hh] at h2
    cases c with
    | text ms s =>
      have : openDepthStartN true (Node.text ms s) = 0 := rfl
      omega
    | node t a ms cs =>
      have hn : openDepthStartN true (Node.node t a ms cs) =
          if t.leaf = true ∨ (true = false ∧ t.isolating = true) then 0
          else 1 + openDepthStartL true cs := rfl
      rw [hn] at h2
      by_cases hl : t.leaf = true
      · rw [if_pos (Or.inl hl)] at h2
        omega
      · rw [if_neg (by rintro (h | ⟨h, _⟩); exact hl h; cases h)] at h2
        refine ⟨Node.node t a ms cs, rest, rfl, rfl, ?_, ?_, ?_, ?_⟩
        · show t.leaf = false
          simpa using hl
        · show (if t.leaf = true then (1 : Int) else 2 + sizeL cs) = 2 + sizeL cs
          rw [if_neg hl]
        · have hsz := open_start_le_sizeN (Node.node t a ms cs)
          rw [hn, if_neg (by rintro (h | ⟨h, _⟩); exact hl h; cases h)] at hsz
          show 2 * r ≤ (Node.node t a ms cs).nodeSize
          have hns : (Node.node t a ms cs).nodeSize =
              if t.leaf = true then 1 else 2 + sizeL cs := rfl
          rw [hns, if_neg hl]
          rw [hns, if_neg hl] at hsz
          omega
        · show r - 1 ≤ openDepthStartL true cs
          omega

/-- Peeling one level off an end-side open-boundary chain. -/
theorem open_end_chain : ∀ {l : List Node} {r : Int}, 1 ≤ r →
    r ≤ openDepthEndL true l →
    ∃ last, l.getLast? = some last ∧ last.isText = false ∧ last.typeOf.leaf = false ∧
      last.nodeSize = 2 + sizeL last.contentList ∧ 2 * r ≤ last.nodeSize ∧
      r - 1 ≤ openDepthEndL true last.contentList := by
  intro l
  induction l with
  | nil =>
    intro r h1 h2
    have : openDepthEndL true ([] : List Node) = 0 := rfl
    omega
  | cons c rest ih =>
    intro r h1 h2
    cases rest with
    | nil =>
      have hh : openDepthEndL true [c] = openDepthEndN true c := rfl
      rw [hh] at h2
      cases c with
      | text ms s =>
        have : openDepthEndN true (Node.text ms s) = 0 := rfl
        omega
      | node t a ms cs =>
        have hn : openDepthEndN true (Node.node t a ms cs) =
            if t.leaf = true ∨ (true = false ∧ t.isolating = true) then 0
            else 1 + openDepthEndL true cs := rfl
        rw [hn] at h2
        by_cases hl : t.leaf = true
        · rw [if_pos (Or.inl hl)] at h2
          omega
        · rw [if_neg (by rintro (h | ⟨h, _⟩); exact hl h; cases h)] at h2
          refine ⟨Node.node t a ms cs, rfl, rfl, ?_, ?_, ?_, ?_⟩
          · show t.leaf = false
            simpa using hl
          · show (if t.leaf = true then (1 : Int) else 2 + sizeL cs) = 2 + sizeL cs
            rw [if_neg hl]
          · have hsz := open_end_le_sizeN (Node.node t a ms cs)
            rw [hn, if_neg (by rintro (h | ⟨h, _⟩); exact hl h; cases h)] at hsz
            have hns : (Node.node t a ms cs).nodeSize =
                if t.leaf = true then 1 else 2 + sizeL cs := rfl
            rw [hns, if_neg hl]
            rw [hns, if_neg hl] at hsz
            omega
          · show r - 1 ≤ openDepthEndL true cs
            omega
    | cons d ds =>
      have hh : openDepthEndL true (c :: d :: ds) = openDepthEndL true (d :: ds) := rfl
      rw [hh] at h2
      obtain ⟨last, hl1, hrest⟩ := ih h1 h2
      exact ⟨last, by rw [List.getLast?_cons_cons]; exact hl1, hrest⟩

theorem copy_isText (n : Node) (hn : n.isText = false) (cs : List Node) :
    (n.copy cs).isText = false := by
  cases n with
  | text ms s => simp [Node.isText] at hn
  | node ty a ms cs0 => rfl

/-- The synthetic tree of `prepareSliceForReplace` indexed from a level:
`wrapFrom along base m j` is the subtree rooted at level `j` when the
base sits `m` levels deeper. -/
def wrapFrom (along : ResolvedPos) (base : Node) : Nat → Nat → Node
  | 0, _ => base
  | m + 1, j => (along.node j).copy [wrapFrom along base m (j + 1)]

theorem wrapFrom_shift (along : ResolvedPos) (base : Node) : ∀ (m j : Nat),
    wrapFrom along ((along.node (j + m)).copy [base]) m j = wrapFrom along base (m + 1) j := by
  intro m
  induction m with
  | zero =>
    intro j
    show (along.node (j + 0)).copy [base] = (along.node j).copy [wrapFrom along base 0 (j + 1)]
    rw [Nat.add_zero]
    rfl
  | succ k ih =>
    intro j
    show (along.node j).copy [wrapFrom along ((along.node (j + (k + 1))).copy [base]) k (j + 1)] =
      (along.node j).copy [wrapFrom along base (k + 1) (j + 1)]
    have hj : j + (k + 1) = (j + 1) + k := by omega
    rw [hj, ih (j + 1)]

theorem prepWrap_eq_wrapFrom (along : ResolvedPos) : ∀ (e : Nat) (base : Node),
    prepWrap along e base = wrapFrom along base e 0 := by
  intro e
  induction e with
  | zero => intro base; rfl
  | succ k ih =>
    intro base
    show prepWrap along k ((along.node k).copy [base]) = _
    rw [ih ((along.node k).copy [base])]
    have hsh := wrapFrom_shift along base k 0
    rw [Nat.zero_add] at hsh
    exact hsh

theorem wrapFrom_isText (along : ResolvedPos) (base : Node) (hbt : base.isText = false) :
    ∀ (m j : Nat), (∀ j', j ≤ j' → j' < j + m → (along.node j').isText = false) →
    (wrapFrom along base m j).isText = false := by
  intro m
  cases m with
  | zero => intro j _; exact hbt
  | succ k =>
    intro j hnt
    exact copy_isText _ (hnt j le_rfl (by omega)) _

theorem wrapFrom_nodeSize (along : ResolvedPos) (base : Node) : ∀ (m j : Nat),
    (∀ j', j ≤ j' → j' < j + m → (along.node j').isText = false ∧
      (along.node j').typeOf.leaf = false) →
    (wrapFrom along base m j).nodeSize = 2 * m + base.nodeSize := by
  intro m
  induction m with
  | zero =>
    intro j _
    show base.nodeSize = 2 * 0 + base.nodeSize
    omega
  | succ k ih =>
    intro j hok
    show ((along.node j).copy [wrapFrom along base k (j + 1)]).nodeSize = _
    obtain ⟨hnt, hnl⟩ := hok j le_rfl (by omega)
    rw [node_copy_nodeSize _ hnt hnl]
    have hone : sizeL [wrapFrom along base k (j + 1)] =
        (wrapFrom along base k (j + 1)).nodeSize + 0 := rfl
    rw [hone, ih (j + 1) (fun j' h1 h2 => hok j' (by omega) (by omega))]
    push_cast
    ring

theorem wrapFrom_contentList (along : ResolvedPos) (base : Node) (m j : Nat)
    (hnt : (along.node j).isText = false) :
    (wrapFrom along base (m + 1) j).contentList = [wrapFrom along base m (j + 1)] :=
  node_copy_contentList _ hnt _

theorem wrapFrom_depthNat (along : ResolvedPos) (base : Node) : ∀ (m j : Nat),
    (∀ j', j ≤ j' → j' < j + m → (along.node j').isText = false) →
    (wrapFrom along base m j).depthNat = m + base.depthNat := by
  intro m
  induction m with
  | zero =>
    intro j _
    show base.depthNat = 0 + base.depthNat
    omega
  | succ k ih =>
    intro j hnt
    show ((along.node j).copy [wrapFrom along base k (j + 1)]).depthNat = _
    cases hc : along.node j with
    | text ms s =>
      have := hnt j le_rfl (by omega)
      rw [hc] at this
      simp [Node.isText] at this
    | node ty a ms cs =>
      show (Node.node ty a ms [wrapFrom along base k (j + 1)]).depthNat = k + 1 + base.depthNat
      have hd : (Node.node ty a ms [wrapFrom along base k (j + 1)]).depthNat =
          depthLNat [wrapFrom along base k (j + 1)] + 1 := rfl
      have hdl : depthLNat [wrapFrom along base k (j + 1)] =
          max (wrapFrom along base k (j + 1)).depthNat (depthLNat []) := rfl
      have hdn : depthLNat ([] : List Node) = 0 := rfl
      rw [hd, hdl, hdn, Nat.max_zero, ih (j + 1) (fun j' h1 h2 => hnt j' (by omega) (by omega))]
      omega

theorem wrapFrom_wfB (along : ResolvedPos) (base : Node) (hbw : base.wfB = true) :
    ∀ (m j : Nat), (∀ j', j ≤ j' → j' < j + m → (along.node j').isText = false) →
    (wrapFrom along base m j).wfB = true := by
  intro m
  induction m with
  | zero => intro j _; exact hbw
  | succ k ih =>
    intro j hnt
    show ((along.node j).copy [wrapFrom along base k (j + 1)]).wfB = true
    cases hc : along.node j with
    | text ms s =>
      have := hnt j le_rfl (by omega)
      rw [hc] at this
      simp [Node.isText] at this
    | node ty a ms cs =>
      show wfLB [wrapFrom along base k (j + 1)] = true
      show ((wrapFrom along base k (j + 1)).wfB && wfLB []) = true
      rw [Bool.and_eq_true]
      exact ⟨ih (j + 1) (fun j' h1 h2 => hnt j' (by omega) (by omega)), rfl⟩

theorem resolveGo_succ (pos : Int) (f : Nat) (node : Node) (po start : Int)
    (path : List (Node × Nat × Int)) :
    resolveGo pos (f + 1) node po start path =
      (match (Fragment.mk node.contentList).findIndex po (-1) with
       | .error e => .error e
       | .ok (index, offset) =>
         if po - offset = 0 then
           .ok ⟨pos, path ++ [(node, index, start + offset)], po⟩
         else
           match node.contentList.get? index with
           | none => .error (.range "resolve: missing child")
           | some child =>
             if child.isText then
               .ok ⟨pos, path ++ [(node, index, start + offset)], po⟩
             else
               resolveGo pos f child (po - offset - 1) (start + offset + 1)
                 (path ++ [(node, index, start + offset)])) := rfl

/-- `resolve` walks straight through the single-child wrapper levels of
the prepared tree, consuming one position unit per level. -/
theorem resolveGo_wrap (pos : Int) (along : ResolvedPos) (base : Node) (B : Int)
    (hB : sizeL base.contentList = B) (hbs : base.nodeSize = 2 + B)
    (hbt : base.isText = false) :
    ∀ (m j fuel : Nat) (start q : Int) (path : List (Node × Nat × Int)),
    (∀ j', j ≤ j' → j' < j + m → (along.node j').isText = false ∧
      (along.node j').typeOf.leaf = false) →
    0 ≤ q → q ≤ B →
    ∃ ep : List (Node × Nat × Int), ep.length = m ∧
      resolveGo pos (fuel + m) (wrapFrom along base m j) (q + (m : Int)) start path =
        resolveGo pos fuel base q (start + (m : Int)) (path ++ ep) := by
  intro m
  induction m with
  | zero =>
    intro j fuel start q path _ _ _
    refine ⟨[], rfl, ?_⟩
    have h1 : q + ((0 : Nat) : Int) = q := by push_cast; ring
    have h2 : start + ((0 : Nat) : Int) = start := by push_cast; ring
    rw [h1, h2, List.append_nil]
    rfl
  | succ k ih =>
    intro j fuel start q path hok hq0 hqB
    set inner := wrapFrom along base k (j + 1) with hinner
    have hok' : ∀ j', j + 1 ≤ j' → j' < (j + 1) + k → (along.node j').isText = false ∧
        (along.node j').typeOf.leaf = false :=
      fun j' h1 h2 => hok j' (by omega) (by omega)
    have hisz : inner.nodeSize = 2 * k + base.nodeSize :=
      wrapFrom_nodeSize along base k (j + 1) hok'
    have hitx : inner.isText = false :=
      wrapFrom_isText along base hbt k (j + 1) (fun j' h1 h2 => (hok' j' h1 h2).1)
    have hcl : (wrapFrom along base (k + 1) j).contentList = [inner] :=
      wrapFrom_contentList along base k j (hok j le_rfl (by omega)).1
    have hfe : fuel + (k + 1) = (fuel + k) + 1 := by omega
    rw [hfe, resolveGo_succ, hcl]
    have hq : q + ((k + 1 : Nat) : Int) = q + k + 1 := by push_cast; ring
    have hsone : sizeL [inner] = inner.nodeSize + 0 := rfl
    have hfrs : (Fragment.mk [inner]).size = sizeL [inner] := rfl
    have hpos_lt : q + ((k + 1 : Nat) : Int) < (Fragment.mk [inner]).size := by
      rw [hfrs, hsone, hisz, hbs, hq]
      push_cast
      omega
    have hpos_pos : 0 < q + ((k + 1 : Nat) : Int) := by
      rw [hq]
      push_cast
      omega
    have hfi : (Fragment.mk [inner]).findIndex (q + ((k + 1 : Nat) : Int)) (-1) =
        .ok (0, 0) := by
      unfold Fragment.findIndex
      rw [if_neg (by omega), if_neg (by omega), if_neg (by push_neg; constructor <;> omega)]
      rw [findIndexGo]
      rw [if_pos (by
        show 0 + inner.nodeSize ≥ q + ((k + 1 : Nat) : Int)
        rw [hfrs, hsone] at hpos_lt
        omega)]
      rw [if_neg (by
        push_neg
        constructor
        · show ¬0 + inner.nodeSize = q + ((k + 1 : Nat) : Int)
          rw [hfrs, hsone] at hpos_lt
          omega
        · omega)]
    rw [hfi]
    obtain ⟨ep, hlen, heq⟩ := ih (j + 1) fuel (start + 1) q
      (path ++ [(wrapFrom along base (k + 1) j, 0, start + 0)]) hok' hq0 hqB
    refine ⟨(wrapFrom along base (k + 1) j, 0, start + 0) :: ep, by simp [hlen], ?_⟩
    show (if q + ((k + 1 : Nat) : Int) - 0 = 0 then
        Except.ok (⟨pos, path ++ [(wrapFrom along base (k + 1) j, 0, start + 0)],
          q + ((k + 1 : Nat) : Int)⟩ : ResolvedPos)
      else
        match [inner].get? 0 with
        | none => Except.error (PMErr.range "resolve: missing child")
        | some child =>
          if child.isText = true then
            Except.ok (⟨pos, path ++ [(wrapFrom along base (k + 1) j, 0, start + 0)],
              q + ((k + 1 : Nat) : Int)⟩ : ResolvedPos)
          else resolveGo pos (fuel + k) child (q + ((k + 1 : Nat) : Int) - 0 - 1)
            (start + 0 + 1) (path ++ [(wrapFrom along base (k + 1) j, 0, start + 0)])) =
      resolveGo pos fuel base q (start + ((k + 1 : Nat) : Int))
        (path ++ ((wrapFrom along base (k + 1) j, 0, start + 0) :: ep))
    rw [if_neg (by omega)]
    have hget : [inner].get? 0 = some inner := rfl
    rw [hget]
    show (if inner.isText = true then
        Except.ok (⟨pos, path ++ [(wrapFrom along base (k + 1) j, 0, start + 0)],
          q + ((k + 1 : Nat) : Int)⟩ : ResolvedPos)
      else resolveGo pos (fuel + k) inner (q + ((k + 1 : Nat) : Int) - 0 - 1)
        (start + 0 + 1) (path ++ [(wrapFrom along base (k + 1) j, 0, start + 0)])) =
      resolveGo pos fuel base q (start + ((k + 1 : Nat) : Int))
        (path ++ ((wrapFrom along base (k + 1) j, 0, start + 0) :: ep))
    rw [if_neg (by rw [hitx]; exact Bool.false_ne_true)]
    have harg1 : q + ((k + 1 : Nat) : Int) - 0 - 1 = q + (k : Int) := by push_cast; ring
    have harg2 : start + 0 + 1 = (start + 1) := by ring
    rw [harg1, harg2]
    rw [heq]
    have harg3 : start + 1 + (k : Int) = start + ((k + 1 : Nat) : Int) := by push_cast; ring
    rw [harg3, List.append_assoc]
    rfl

theorem mkRP_parentOffset (pos po : Int) (l : List (Node × Nat × Int)) :
    (⟨pos, l, po⟩ : ResolvedPos).parentOffset = po := rfl

theorem mkRP_node_depth (pos po : Int) (l : List (Node × Nat × Int)) :
    (⟨pos, l, po⟩ : ResolvedPos).node ((⟨pos, l, po⟩ : ResolvedPos).depth) =
      eN l (l.length - 1) := rfl

/-- `resolve` descends an open start-boundary chain, consuming one unit
per level, and stops at offset 0 of the deepest chain node. -/
theorem resolveGo_chain_start (pos : Int) : ∀ (r fuel : Nat) (node : Node)
    (start po : Int) (path : List (Node × Nat × Int)),
    po = (r : Int) →
    node.isText = false →
    po ≤ openDepthStartL true node.contentList →
    ∃ p : ResolvedPos, resolveGo pos (fuel + r + 1) node po start path = .ok p ∧
      p.path.length = path.length + r + 1 ∧ p.parentOffset = 0 := by
  intro r
  induction r with
  | zero =>
    intro fuel node start po path hpo hnt hch
    have hpo0 : po = 0 := by push_cast at hpo; omega
    subst hpo0
    exact ⟨⟨pos, path ++ [(node, 0, start + 0)], 0⟩, rfl, by simp, rfl⟩
  | succ n ih =>
    intro fuel node start po path hpo hnt hch
    have h1r : (1 : Int) ≤ po := by push_cast at hpo; omega
    obtain ⟨c, rest, hl, hct, hcle, hcsz, h2r, hsub⟩ := open_start_chain h1r hch
    have hrnn := sizeL_nonneg rest
    have hszl : sizeL node.contentList = c.nodeSize + sizeL rest := by
      rw [hl]
      rfl
    have hfi : (Fragment.mk node.contentList).findIndex po (-1) = .ok (0, 0) := by
      unfold Fragment.findIndex
      have hfs : (Fragment.mk node.contentList).size = sizeL node.contentList := rfl
      rw [if_neg (by omega)]
      rw [if_neg (by rw [hfs]; omega)]
      rw [if_neg (by rw [hfs]; push_neg; constructor <;> omega)]
      have hcc : (Fragment.mk node.contentList).content = node.contentList := rfl
      rw [hcc, hl, findIndexGo]
      rw [if_pos (by omega)]
      rw [if_neg (by push_neg; constructor <;> omega)]
    obtain ⟨p, hp1, hp2, hp3⟩ := ih fuel c (start + 0 + 1) (po - 0 - 1)
      (path ++ [(node, 0, start + 0)]) (by push_cast at hpo ⊢; omega) hct
      (by
        show po - 0 - 1 ≤ openDepthStartL true c.contentList
        omega)
    refine ⟨p, ?_, by simp at hp2 ⊢; omega, hp3⟩
    rw [resolveGo_succ, hfi]
    have hget : node.contentList.get? 0 = some c := by rw [hl]; rfl
    show (if po - 0 = 0 then
        Except.ok (⟨pos, path ++ [(node, 0, start + 0)], po⟩ : ResolvedPos)
      else
        match node.contentList.get? 0 with
        | none => Except.error (PMErr.range "resolve: missing child")
        | some child =>
          if child.isText = true then
            Except.ok (⟨pos, path ++ [(node, 0, start + 0)], po⟩ : ResolvedPos)
          else resolveGo pos (fuel + n + 1) child (po - 0 - 1) (start + 0 + 1)
            (path ++ [(node, 0, start + 0)])) = Except.ok p
    rw [if_neg (by omega), hget]
    show (if c.isText = true then
        Except.ok (⟨pos, path ++ [(node, 0, start + 0)], po⟩ : ResolvedPos)
      else resolveGo pos (fuel + n + 1) c (po - 0 - 1) (start + 0 + 1)
        (path ++ [(node, 0, start + 0)])) = Except.ok p
    rw [if_neg (by rw [hct]; exact Bool.false_ne_true)]
    exact hp1

/-- `resolve` descends an open end-boundary chain along last children,
consuming one unit per level, and stops at the content end of the
deepest chain node. -/
theorem resolveGo_chain_end (pos : Int) : ∀ (r fuel : Nat) (node : Node)
    (start po : Int) (path : List (Node × Nat × Int)),
    po = sizeL node.contentList - (r : Int) →
    node.isText = false →
    (r : Int) ≤ openDepthEndL true node.contentList →
    ∃ p : ResolvedPos, resolveGo pos (fuel + r + 1) node po start path = .ok p ∧
      p.path.length = path.length + r + 1 ∧
      p.parentOffset = sizeL (p.node p.depth).contentList := by
  intro r
  induction r with
  | zero =>
    intro fuel node start po path hpo hnt hch
    have hpo0 : po = sizeL node.contentList := by push_cast at hpo; omega
    by_cases hz : sizeL node.contentList = 0
    · refine ⟨⟨pos, path ++ [(node, 0, start + 0)], po⟩, ?_, by simp, ?_⟩
      · rw [resolveGo_succ]
        have hfi : (Fragment.mk node.contentList).findIndex po (-1) = .ok (0, 0) := by
          unfold Fragment.findIndex
          rw [if_pos (by omega)]
          rw [show po = (0 : Int) by omega]
        rw [hfi]
        show (if po - 0 = 0 then
            Except.ok (⟨pos, path ++ [(node, 0, start + 0)], po⟩ : ResolvedPos)
          else
            match node.contentList.get? 0 with
            | none => Except.error (PMErr.range "resolve: missing child")
            | some child =>
              if child.isText = true then
                Except.ok (⟨pos, path ++ [(node, 0, start + 0)], po⟩ : ResolvedPos)
              else resolveGo pos (fuel + 0) child (po - 0 - 1) (start + 0 + 1)
                (path ++ [(node, 0, start + 0)])) = _
        rw [if_pos (by omega)]
      · rw [mkRP_parentOffset, mkRP_node_depth]
        have hlast : eN (path ++ [(node, 0, start + 0)])
            ((path ++ [(node, 0, start + 0)]).length - 1) = node := by
          unfold eN
          rw [List.length_append]
          simp
        rw [hlast]
        omega
    · refine ⟨⟨pos, path ++ [(node, node.contentList.length, start + po)], po⟩, ?_,
        by simp, ?_⟩
      · rw [resolveGo_succ]
        have hfi : (Fragment.mk node.contentList).findIndex po (-1) =
            .ok (node.contentList.length, po) := by
          unfold Fragment.findIndex
          have hfs : (Fragment.mk node.contentList).size = sizeL node.contentList := rfl
          rw [if_neg (by omega)]
          rw [if_pos (by rw [hfs]; omega)]
        rw [hfi]
        show (if po - po = 0 then
            Except.ok (⟨pos, path ++ [(node, node.contentList.length, start + po)], po⟩ :
              ResolvedPos)
          else
            match node.contentList.get? node.contentList.length with
            | none => Except.error (PMErr.range "resolve: missing child")
            | some child =>
              if child.isText = true then
                Except.ok (⟨pos, path ++ [(node, node.contentList.length, start + po)], po⟩ :
                  ResolvedPos)
              else resolveGo pos (fuel + 0) child (po - po - 1) (start + po + 1)
                (path ++ [(node, node.contentList.length, start + po)])) = _
        rw [if_pos (by omega)]
      · rw [mkRP_parentOffset, mkRP_node_depth]
        have hlast : eN (path ++ [(node, node.contentList.length, start + po)])
            ((path ++ [(node, node.contentList.length, start + po)]).length - 1) = node := by
          unfold eN
          rw [List.length_append]
          simp
        rw [hlast]
        omega
  | succ n ih =>
    intro fuel node start po path hpo hnt hch
    have h1r : (1 : Int) ≤ ((n + 1 : Nat) : Int) := by push_cast; omega
    obtain ⟨last, hl, hct, hcle, hcsz, h2r, hsub⟩ := open_end_chain h1r hch
    have hlen1 : 1 ≤ node.contentList.length := by
      cases hcl : node.contentList with
      | nil => rw [hcl] at hl; cases hl
      | cons x xs => simp
    have hgetl : node.contentList.get? (node.contentList.length - 1) = some last := by
      rw [List.get?_eq_getElem?]
      rw [← List.getLast?_eq_getElem?]
      exact hl
    obtain ⟨hlast_eq, hlast_lt⟩ := get?_eq_getD hgetl
    have htsl : takeSize node.contentList ((node.contentList.length - 1) + 1) =
        takeSize node.contentList (node.contentList.length - 1) + last.nodeSize := by
      rw [takeSize_succ _ _ hlast_lt, ← hlast_eq]
    have htlen : (node.contentList.length - 1) + 1 = node.contentList.length := by omega
    rw [htlen] at htsl
    have htfull : takeSize node.contentList node.contentList.length = sizeL node.contentList :=
      takeSize_len _
    have hcast : ((n + 1 : Nat) : Int) = (n : Int) + 1 := by push_cast; ring
    rw [hcast] at hpo
    have hpo_in : takeSize node.contentList (node.contentList.length - 1) < po ∧
        po < takeSize node.contentList (node.contentList.length - 1) + last.nodeSize := by
      constructor <;> omega
    have htknn := takeSize_nonneg node.contentList (node.contentList.length - 1)
    have hfi : (Fragment.mk node.contentList).findIndex po (-1) =
        .ok (node.contentList.length - 1,
          takeSize node.contentList (node.contentList.length - 1)) := by
      unfold Fragment.findIndex
      have hfs : (Fragment.mk node.contentList).size = sizeL node.contentList := rfl
      rw [if_neg (by omega)]
      rw [if_neg (by rw [hfs]; omega)]
      rw [if_neg (by rw [hfs]; push_neg; constructor <;> omega)]
      have hcc : (Fragment.mk node.contentList).content = node.contentList := rfl
      obtain ⟨k, hk1, hk2, hk3⟩ := findIndexGo_spec po node.contentList 0 0
        (by omega) (by omega)
      rw [hcc, hk1]
      have hkval : k = node.contentList.length - 1 := by
        rcases hk3 with hb | ⟨hk4, hk5, hk6⟩
        · by_cases hkle : k ≤ node.contentList.length - 1
          · have := takeSize_mono node.contentList k (node.contentList.length - 1) hkle
            omega
          · have hke : k = node.contentList.length := by omega
            rw [hke, htfull] at hb
            omega
        · by_cases hklt : k < node.contentList.length - 1
          · have hmono := takeSize_mono node.contentList (k + 1)
              (node.contentList.length - 1) (by omega)
            have hstep := takeSize_succ node.contentList k (by omega)
            omega
          · omega
      rw [hkval]
      rw [Nat.zero_add, zero_add]
    have hnl : last.nodeSize = 2 + sizeL last.contentList := hcsz
    obtain ⟨p, hp1, hp2, hp3⟩ := ih fuel last
      (start + takeSize node.contentList (node.contentList.length - 1) + 1)
      (po - takeSize node.contentList (node.contentList.length - 1) - 1)
      (path ++ [(node, node.contentList.length - 1,
        start + takeSize node.contentList (node.contentList.length - 1))])
      (by push_cast; omega) hct (by
        show _ ≤ openDepthEndL true last.contentList
        push_cast
        omega)
    refine ⟨p, ?_, by simp at hp2; omega, hp3⟩
    rw [resolveGo_succ, hfi]
    show (if po - takeSize node.contentList (node.contentList.length - 1) = 0 then
        Except.ok (⟨pos, path ++ [(node, node.contentList.length - 1,
          start + takeSize node.contentList (node.contentList.length - 1))], po⟩ :
          ResolvedPos)
      else
        match node.contentList.get? (node.contentList.length - 1) with
        | none => Except.error (PMErr.range "resolve: missing child")
        | some child =>
          if child.isText = true then
            Except.ok (⟨pos, path ++ [(node, node.contentList.length - 1,
              start + takeSize node.contentList (node.contentList.length - 1))], po⟩ :
              ResolvedPos)
          else resolveGo pos (fuel + n + 1) child
            (po - takeSize node.contentList (node.contentList.length - 1) - 1)
            (start + takeSize node.contentList (node.contentList.length - 1) + 1)
            (path ++ [(node, node.contentList.length - 1,
              start + takeSize node.contentList (node.contentList.length - 1))])) =
      Except.ok p
    rw [if_neg (by omega), hgetl]
    show (if last.isText = true then
        Except.ok (⟨pos, path ++ [(node, node.contentList.length - 1,
          start + takeSize node.contentList (node.contentList.length - 1))], po⟩ :
          ResolvedPos)
      else resolveGo pos (fuel + n + 1) last
        (po - takeSize node.contentList (node.contentList.length - 1) - 1)
        (start + takeSize node.contentList (node.contentList.length - 1) + 1)
        (path ++ [(node, node.contentList.length - 1,
          start + takeSize node.contentList (node.contentList.length - 1))])) =
      Except.ok p
    rw [if_neg (by rw [hct]; exact Bool.false_ne_true)]
    exact hp1

/-- What `prepareSliceForReplace` produces: the two boundary positions
of the synthetic tree, resolved at the open-depth boundaries, with
offset 0 (resp. the content end) at their stop levels, and single-child
wrapper levels above the slice content. -/
theorem prepared_spec (slice : Slice) (pf : ResolvedPos) (ps pe : ResolvedPos)
    (hp : prepareSliceForReplace slice pf = .ok (ps, pe))
    (hpf : PathOK pf)
    (hws : slice.wfB = true)
    (hd0t : (pf.node 0).isText = false)
    (hd0l : (pf.node 0).typeOf.leaf = false)
    (hopre : slice.openStart ≤ (pf.depth : Int)) :
    ∃ (extra : Nat) (T : Node),
      (extra : Int) = (pf.depth : Int) - slice.openStart ∧
      ps.pos = slice.openStart + (extra : Int) ∧
      pe.pos = sizeL slice.content.content - slice.openEnd + (extra : Int) ∧
      PathOK ps ∧ PathOK pe ∧
      (ps.depth : Int) = (extra : Int) + slice.openStart ∧
      (pe.depth : Int) = (extra : Int) + slice.openEnd ∧
      ps.node 0 = T ∧ pe.node 0 = T ∧ T.wfB = true ∧
      ps.textOffset = 0 ∧ pe.textOffset = 0 ∧
      (∀ j, j < extra → (ps.node j).contentList.length = 1) := by
  have hwf := hws
  unfold Slice.wfB at hwf
  simp only [Bool.and_eq_true, decide_eq_true_eq] at hwf
  obtain ⟨⟨⟨⟨hwl, hos0⟩, hoe0⟩, hosb⟩, hoeb⟩ := hwf
  obtain ⟨extra, hextra⟩ : ∃ extra : Nat,
      extra = ((pf.depth : Int) - slice.openStart).toNat := ⟨_, rfl⟩
  have hextraI : (extra : Int) = (pf.depth : Int) - slice.openStart := by omega
  obtain ⟨base, hbase⟩ : ∃ base : Node,
      base = (pf.node extra).copy slice.content.content := ⟨_, rfl⟩
  -- facts about the wrapped-at node
  have hextra_le : extra ≤ pf.depth := by omega
  have hent : (pf.node extra).isText = false := by
    cases he : extra with
    | zero => rw [← he]; rw [he]; exact hd0t
    | succ k =>
      have : k < pf.depth := by omega
      exact hpf.child_notext k this
  have henl : (pf.node extra).typeOf.leaf = false := by
    cases he : extra with
    | zero => rw [← he]; rw [he]; exact hd0l
    | succ k =>
      have : k < pf.depth := by omega
      exact (pathOK_child_nonleaf pf hpf k this).1
  have hbct : base.contentList = slice.content.content := by
    rw [hbase]
    exact node_copy_contentList _ hent _
  have hbnt : base.isText = false := by
    rw [hbase]
    exact copy_isText _ hent _
  have hbsz : base.nodeSize = 2 + sizeL slice.content.content := by
    rw [hbase, node_copy_nodeSize _ hent henl]
  have hbwf : base.wfB = true := by
    rw [hbase]
    cases hc : pf.node extra with
    | text ms s => rw [hc] at hent; simp [Node.isText] at hent
    | node ty a ms cs => exact hwl
  have hok : ∀ j', 0 ≤ j' → j' < 0 + extra → (pf.node j').isText = false ∧
      (pf.node j').typeOf.leaf = false := by
    intro j' _ hj'
    cases j' with
    | zero => exact ⟨hd0t, hd0l⟩
    | succ k =>
      have : k < pf.depth := by omega
      exact ⟨hpf.child_notext k this, (pathOK_child_nonleaf pf hpf k this).1⟩
  obtain ⟨T, hT⟩ : ∃ T : Node, T = wrapFrom pf base extra 0 := ⟨_, rfl⟩
  have hTwf : T.wfB = true := by
    rw [hT]
    exact wrapFrom_wfB pf base hbwf extra 0 (fun j' h1 h2 => (hok j' h1 h2).1)
  have hTd : T.depthNat = extra + base.depthNat := by
    rw [hT]
    exact wrapFrom_depthNat pf base extra 0 (fun j' h1 h2 => (hok j' h1 h2).1)
  have hTsz : sizeL T.contentList = 2 * extra + sizeL slice.content.content := by
    cases he : extra with
    | zero =>
      rw [hT, he]
      show sizeL base.contentList = 2 * ((0 : Nat) : Int) + sizeL slice.content.content
      rw [hbct]
      push_cast
      ring
    | succ k =>
      rw [hT, he, wrapFrom_contentList pf base k 0 hd0t]
      have hone : sizeL [wrapFrom pf base k 1] = (wrapFrom pf base k 1).nodeSize + 0 := rfl
      rw [hone, wrapFrom_nodeSize pf base k 1 (fun j' h1 h2 => hok j' (by omega) (by omega))]
      rw [hbsz]
      push_cast
      ring
  have hbd : base.depthNat = depthLNat slice.content.content + 1 := by
    rw [hbase]
    cases hc : pf.node extra with
    | text ms s => rw [hc] at hent; simp [Node.isText] at hent
    | node ty a ms cs => rfl
  -- rewrite the preparation to the two resolves
  have hpeq : prepareSliceForReplace slice pf =
      (match T.resolve (slice.openStart + (extra : Int)) with
       | .error e => .error e
       | .ok start =>
         match T.resolve (sizeL T.contentList - slice.openEnd - (extra : Int)) with
         | .error e => .error e
         | .ok endR => .ok (start, endR)) := by
    rw [hT, hbase, ← prepWrap_eq_wrapFrom, hextra]
    rfl
  rw [hpeq] at hp
  cases hr1 : T.resolve (slice.openStart + (extra : Int)) with
  | error e => rw [hr1] at hp; cases hp
  | ok ps' =>
    rw [hr1] at hp
    cases hr2 : T.resolve (sizeL T.contentList - slice.openEnd - (extra : Int)) with
    | error e => rw [hr2] at hp; cases hp
    | ok pe' =>
      rw [hr2] at hp
      replace hp : (Except.ok (ps', pe') :
          Except PMErr (ResolvedPos × ResolvedPos)) = Except.ok (ps, pe) := hp
      cases hp
      -- generic resolve facts
      obtain ⟨hs_pos, hs_node0, hs_ok⟩ := resolve_spec T _ ps hr1
      obtain ⟨he_pos, he_node0, he_ok⟩ := resolve_spec T _ pe hr2
      -- raw resolveGo equations
      have hg1 : resolveGo (slice.openStart + (extra : Int)) (T.depthNat + 1) T
          (slice.openStart + (extra : Int)) 0 [] = .ok ps := by
        unfold Node.resolve at hr1
        by_cases hb : slice.openStart + (extra : Int) < 0 ∨
            slice.openStart + (extra : Int) > T.contentSize
        · rw [if_pos hb] at hr1; cases hr1
        · rw [if_neg hb] at hr1; exact hr1
      have hg2 : resolveGo (sizeL T.contentList - slice.openEnd - (extra : Int))
          (T.depthNat + 1) T
          (sizeL T.contentList - slice.openEnd - (extra : Int)) 0 [] = .ok pe := by
        unfold Node.resolve at hr2
        by_cases hb : sizeL T.contentList - slice.openEnd - (extra : Int) < 0 ∨
            sizeL T.contentList - slice.openEnd - (extra : Int) > T.contentSize
        · rw [if_pos hb] at hr2; cases hr2
        · rw [if_neg hb] at hr2; exact hr2
      -- size chain bounds
      have hssz := open_start_le_sizeL slice.content.content
      have hesz := open_end_le_sizeL slice.content.content
      have hsnn := open_start_nonnegL slice.content.content
      have henn := open_end_nonnegL slice.content.content
      have hsdep := open_start_le_depthL slice.content.content
      have hedep := open_end_le_depthL slice.content.content
      have hcsnn := sizeL_nonneg slice.content.content
      -- the start-side composition
      have hfuel1 : T.depthNat + 1 = ((base.depthNat - slice.openStart.toNat) +
          slice.openStart.toNat + 1) + extra := by
        rw [hTd, hbd]
        omega
      obtain ⟨ep1, hep1len, hep1⟩ := resolveGo_wrap (slice.openStart + (extra : Int)) pf base
        (sizeL slice.content.content) (by rw [hbct]) (by rw [hbsz]) hbnt
        extra 0 ((base.depthNat - slice.openStart.toNat) + slice.openStart.toNat + 1)
        0 slice.openStart [] hok hos0 (by omega)
      rw [hfuel1, hT] at hg1
      rw [hep1] at hg1
      obtain ⟨p1, hp1eq, hp1len, hp1po⟩ := resolveGo_chain_start
        (slice.openStart + (extra : Int)) slice.openStart.toNat
        (base.depthNat - slice.openStart.toNat) base (0 + (extra : Int)) slice.openStart
        ([] ++ ep1) (by omega) hbnt (by rw [hbct]; exact hosb)
      have hps1 : p1 = ps := by
        have := hp1eq.symm.trans hg1
        exact Except.ok.inj this
      subst hps1
      have hslen : p1.path.length = extra + slice.openStart.toNat + 1 := by
        rw [hp1len]
        simp [hep1len]
      have hs_depth : p1.depth = extra + slice.openStart.toNat := by
        show p1.path.length - 1 = _
        omega
      have hs_depthI : (p1.depth : Int) = (extra : Int) + slice.openStart := by
        rw [hs_depth]
        push_cast
        omega
      have hto_s : p1.textOffset = 0 := by
        have h1 := hs_ok.po_eq
        have h2 := hs_ok.cs_eq p1.depth le_rfl
        have h3 : p1.textOffset = p1.pos - p1.childStart p1.depth := rfl
        have h4 := takeSize_nonneg (p1.node p1.depth).contentList (p1.index p1.depth)
        rcases hs_ok.stop with h5 | ⟨_, h5, _, _⟩
        · exact h5
        · omega
      -- the end-side composition
      have harg2 : sizeL T.contentList - slice.openEnd - (extra : Int) =
          (sizeL slice.content.content - slice.openEnd) + (extra : Int) := by
        rw [hTsz]
        ring
      rw [harg2] at hg2
      have hfuel2 : T.depthNat + 1 = ((base.depthNat - slice.openEnd.toNat) +
          slice.openEnd.toNat + 1) + extra := by
        rw [hTd, hbd]
        omega
      obtain ⟨ep2, hep2len, hep2⟩ := resolveGo_wrap
        ((sizeL slice.content.content - slice.openEnd) + (extra : Int)) pf base
        (sizeL slice.content.content) (by rw [hbct]) (by rw [hbsz]) hbnt
        extra 0 ((base.depthNat - slice.openEnd.toNat) + slice.openEnd.toNat + 1)
        0 (sizeL slice.content.content - slice.openEnd) [] hok (by omega) (by omega)
      rw [hfuel2, hT] at hg2
      rw [hep2] at hg2
      obtain ⟨p2, hp2eq, hp2len, hp2po⟩ := resolveGo_chain_end
        ((sizeL slice.content.content - slice.openEnd) + (extra : Int)) slice.openEnd.toNat
        (base.depthNat - slice.openEnd.toNat) base (0 + (extra : Int))
        (sizeL slice.content.content - slice.openEnd)
        ([] ++ ep2) (by rw [hbct]; omega) hbnt (by rw [hbct]; omega)
      have hpe2 : p2 = pe := by
        have := hp2eq.symm.trans hg2
        exact Except.ok.inj this
      subst hpe2
      have helen : p2.path.length = extra + slice.openEnd.toNat + 1 := by
        rw [hp2len]
        simp [hep2len]
      have he_depth : p2.depth = extra + slice.openEnd.toNat := by
        show p2.path.length - 1 = _
        omega
      have he_depthI : (p2.depth : Int) = (extra : Int) + slice.openEnd := by
        rw [he_depth]
        push_cast
        omega
      have hto_e : p2.textOffset = 0 := by
        have h1 := he_ok.po_eq
        have h2 := he_ok.cs_eq p2.depth le_rfl
        have h3 : p2.textOffset = p2.pos - p2.childStart p2.depth := rfl
        rcases he_ok.stop with h5 | ⟨hlt, h5, h6, _⟩
        · exact h5
        · have hts := takeSize_succ (p2.node p2.depth).contentList (p2.index p2.depth) hlt
          have htle := takeSize_le_size (p2.node p2.depth).contentList (p2.index p2.depth + 1)
          omega
      -- the wrapper levels are single-child
      have hnode_j : ∀ j, j ≤ extra → p1.node j = wrapFrom pf base (extra - j) j := by
        intro j
        induction j with
        | zero =>
          intro _
          rw [hs_node0, hT]
          have : extra - 0 = extra := by omega
          rw [this]
        | succ k ih =>
          intro hk
          have hnk := ih (by omega)
          have hkd : k < p1.depth := by omega
          have hch := hs_ok.child_eq k hkd
          rw [hnk] at hch
          have hee : extra - k = (extra - k - 1) + 1 := by omega
          have hcl2 : (wrapFrom pf base (extra - k) k).contentList =
              [wrapFrom pf base (extra - k - 1) (k + 1)] := by
            rw [hee]
            exact wrapFrom_contentList pf base _ k (hok k (by omega) (by omega)).1
          rw [hcl2] at hch
          cases hI : p1.index k with
          | zero =>
            rw [hI] at hch
            have hres := Option.some.inj hch
            rw [← hres]
            have : extra - (k + 1) = extra - k - 1 := by omega
            rw [this]
          | succ m =>
            rw [hI] at hch
            cases hch
      have hsingle : ∀ j, j < extra → (p1.node j).contentList.length = 1 := by
        intro j hj
        have hnj := hnode_j j (by omega)
        have hee : extra - j = (extra - j - 1) + 1 := by omega
        rw [hnj, hee, wrapFrom_contentList pf base _ j (hok j (by omega) (by omega)).1]
        rfl
      have hpe_pos : p2.pos = sizeL slice.content.content - slice.openEnd +
          (extra : Int) := by
        rw [he_pos, hTsz]
        ring
      exact ⟨extra, T, hextraI, hs_pos, hpe_pos, hs_ok, he_ok, hs_depthI, he_depthI,
        hs_node0, he_node0, hTwf, hto_s, hto_e, hsingle⟩

theorem sizeL_set (l : List Node) : ∀ (i : Nat) (x : Node), i < l.length →
    sizeL (l.set i x) = sizeL l - (l.getD i (Node.text [] "")).nodeSize + x.nodeSize := by
  induction l with
  | nil => intro i x hi; simp at hi
  | cons c cs ih =>
    intro i x hi
    cases i with
    | zero =>
      show sizeL (x :: cs) = sizeL (c :: cs) - c.nodeSize + x.nodeSize
      show x.nodeSize + sizeL cs = (c.nodeSize + sizeL cs) - c.nodeSize + x.nodeSize
      ring
    | succ k =>
      show sizeL (c :: cs.set k x) = sizeL (c :: cs) - (cs.getD k (Node.text [] "")).nodeSize +
        x.nodeSize
      show c.nodeSize + sizeL (cs.set k x) = (c.nodeSize + sizeL cs) -
        (cs.getD k (Node.text [] "")).nodeSize + x.nodeSize
      rw [ih k x (by simpa using hi)]
      ring

/-- Two resolved positions in the same tree agree on node and content
start at every level reached through single-child levels. -/
theorem same_level_of_single (ps pe : ResolvedPos) (hps : PathOK ps) (hpe : PathOK pe)
    (hroot : ps.node 0 = pe.node 0) :
    ∀ (d : Nat), d ≤ ps.depth → d ≤ pe.depth →
    (∀ j, j < d → (ps.node j).contentList.length = 1) →
    ps.node d = pe.node d ∧ ps.start d = pe.start d := by
  intro d
  induction d with
  | zero =>
    intro _ _ _
    exact ⟨hroot, rfl⟩
  | succ k ih =>
    intro hd1 hd2 hsingle
    obtain ⟨hn, hst⟩ := ih (by omega) (by omega) (fun j hj => hsingle j (by omega))
    have hks : k < ps.depth := by omega
    have hke : k < pe.depth := by omega
    have hlen : (ps.node k).contentList.length = 1 := hsingle k (by omega)
    have his : ps.index k = 0 := by
      have := pathOK_idx_lt ps hps k hks
      omega
    have hie : pe.index k = 0 := by
      have := pathOK_idx_lt pe hpe k hke
      rw [← hn] at this
      omega
    have h1 := hps.child_eq k hks
    have h2 := hpe.child_eq k hke
    rw [his] at h1
    rw [hie, ← hn] at h2
    have hnode : ps.node (k + 1) = pe.node (k + 1) := Option.some.inj (h1.symm.trans h2)
    have hc1 := hps.cs_eq k (by omega)
    have hc2 := hpe.cs_eq k (by omega)
    rw [his] at hc1
    rw [hie, ← hn] at hc2
    refine ⟨hnode, ?_⟩
    show ps.childStart k + 1 = pe.childStart k + 1
    omega

theorem pathOK_node_notext (p : ResolvedPos) (hp : PathOK p)
    (h0 : (p.node 0).isText = false) :
    ∀ d, d ≤ p.depth → (p.node d).isText = false := by
  intro d hd
  cases d with
  | zero => exact h0
  | succ k => exact hp.child_notext k (by omega)

theorem replaceOuter_succ (fuel : Nat) (sch : Schema) (pf pt : ResolvedPos) (slice : Slice)
    (d : Nat) :
    replaceOuter (fuel + 1) sch pf pt slice d =
      (if pf.index d = pt.index d ∧ (d : Int) < (pf.depth : Int) - slice.openStart then
        match replaceOuter fuel sch pf pt slice (d + 1) with
        | .error e => .error e
        | .ok inner =>
          .ok ((pf.node d).copy
            ((Fragment.mk (pf.node d).contentList).replaceChild (pf.index d) inner).content)
      else if slice.content.size = 0 then
        match replaceTwoWay fuel sch pf pt d with
        | .error e => .error e
        | .ok content => close sch (pf.node d) content
      else if slice.openStart = 0 ∧ slice.openEnd = 0 ∧ pf.depth = d ∧ pt.depth = d then
        close sch pf.parent
          ((((Fragment.mk pf.parent.contentList).cut 0 pf.parentOffset).append
            slice.content).append
            ((Fragment.mk pf.parent.contentList).cutFrom pt.parentOffset)).content
      else
        match prepareSliceForReplace slice pf with
        | .error e => .error e
        | .ok (start, endR) =>
          match replaceThreeWay fuel sch pf start endR pt d with
          | .error e => .error e
          | .ok content => close sch (pf.node d) content) := rfl

/-- Size invariant of `replaceOuter`: the replaced ancestor's content
grows by the slice size minus the replaced range. -/
theorem replaceOuter_size : ∀ (fuel : Nat) (sch : Schema) (pf pt : ResolvedPos)
    (slice : Slice) (d : Nat) (res : Node),
    replaceOuter fuel sch pf pt slice d = .ok res →
    PathOK pf → PathOK pt →
    pf.node d = pt.node d → pf.start d = pt.start d →
    pf.pos ≤ pt.pos →
    d ≤ pf.depth → d ≤ pt.depth →
    (d : Int) ≤ (pf.depth : Int) - slice.openStart →
    slice.wfB = true →
    (pf.node 0).wfB = true →
    (pf.node 0).isText = false →
    (pf.node 0).typeOf.leaf = false →
    slice.openStart ≤ (pf.depth : Int) →
    (pf.depth : Int) - slice.openStart = (pt.depth : Int) - slice.openEnd →
    (∃ cl : List Node, res = (pf.node d).copy cl) ∧
      res.contentSize = (pf.node d).contentSize - (pt.pos - pf.pos) + slice.size := by
  intro fuel
  induction fuel with
  | zero =>
    intro sch pf pt slice d res h
    cases h
  | succ f ih =>
    intro sch pf pt slice d res h hpf hpt hnode hstart hpos hdf hdt hdex hws hw0 h0t h0l
      hopre hpre2
    have hwfs := hws
    unfold Slice.wfB at hwfs
    simp only [Bool.and_eq_true, decide_eq_true_eq] at hwfs
    obtain ⟨⟨⟨⟨hwl, hos0⟩, hoe0⟩, hosb⟩, hoeb⟩ := hwfs
    have hntd : (pf.node d).isText = false := pathOK_node_notext pf hpf h0t d hdf
    rw [replaceOuter_succ] at h
    by_cases hguard : pf.index d = pt.index d ∧ (d : Int) < (pf.depth : Int) - slice.openStart
    · -- descend
      rw [if_pos hguard] at h
      obtain ⟨hie, hdlt⟩ := hguard
      have hdf' : d < pf.depth := by omega
      have hdt' : d < pt.depth := by omega
      have hnode' : pf.node (d + 1) = pt.node (d + 1) := by
        have h1 := hpf.child_eq d hdf'
        have h2 := hpt.child_eq d hdt'
        rw [hie, hnode] at h1
        exact Option.some.inj (h1.symm.trans h2)
      have hstart' : pf.start (d + 1) = pt.start (d + 1) := by
        have hc1 := hpf.cs_eq d hdf
        have hc2 := hpt.cs_eq d hdt
        rw [hie, hnode] at hc1
        show pf.childStart d + 1 = pt.childStart d + 1
        omega
      cases hr : replaceOuter f sch pf pt slice (d + 1) with
      | error e => rw [hr] at h; cases h
      | ok inner =>
        rw [hr] at h
        replace h : Except.ok ((pf.node d).copy
            ((Fragment.mk (pf.node d).contentList).replaceChild (pf.index d) inner).content) =
            Except.ok res := h
        cases h
        obtain ⟨⟨cl, hcl⟩, hsz⟩ := ih sch pf pt slice (d + 1) inner hr hpf hpt hnode' hstart'
          hpos (by omega) (by omega) (by push_cast; omega) hws hw0 h0t h0l hopre hpre2
        have hcnl := pathOK_child_nonleaf pf hpf d hdf'
        have hcnt := hpf.child_notext d hdf'
        have hinsz : inner.nodeSize = 2 + inner.contentSize := by
          rw [hcl, node_copy_nodeSize _ hcnt hcnl.1]
          have : ((pf.node (d + 1)).copy cl).contentSize = sizeL cl := by
            show sizeL ((pf.node (d + 1)).copy cl).contentList = sizeL cl
            rw [node_copy_contentList _ hcnt]
          omega
        have hidx_lt := pathOK_idx_lt pf hpf d hdf'
        have hchild : (pf.node d).contentList.getD (pf.index d) (Node.text [] "") =
            pf.node (d + 1) := (get?_eq_getD (hpf.child_eq d hdf')).1.symm
        have hrc : ((Fragment.mk (pf.node d).contentList).replaceChild (pf.index d)
            inner).content = (pf.node d).contentList.set (pf.index d) inner := rfl
        refine ⟨⟨((Fragment.mk (pf.node d).contentList).replaceChild (pf.index d)
          inner).content, rfl⟩, ?_⟩
        show sizeL ((pf.node d).copy _).contentList = _
        rw [node_copy_contentList _ hntd, hrc]
        rw [sizeL_set _ _ _ hidx_lt, hchild]
        have hcs : (pf.node (d + 1)).nodeSize = 2 + (pf.node (d + 1)).contentSize := by
          have := hcnl.2
          show _ = 2 + sizeL (pf.node (d + 1)).contentList
          omega
        show sizeL (pf.node d).contentList - (pf.node (d + 1)).nodeSize + inner.nodeSize =
          sizeL (pf.node d).contentList - (pt.pos - pf.pos) + slice.size
        rw [hcs, hinsz]
        have hszc : inner.contentSize = (pf.node (d + 1)).contentSize -
            (pt.pos - pf.pos) + slice.size := hsz
        omega
    · rw [if_neg hguard] at h
      by_cases hempty : slice.content.size = 0
      · -- empty slice: two-way join
        rw [if_pos hempty] at h
        have hnil : slice.content.content = [] := by
          apply sizeL_zero_nil hwl
          exact hempty
        have hos00 : slice.openStart = 0 := by
          rw [hnil] at hosb
          have : openDepthStartL true ([] : List Node) = 0 := rfl
          omega
        have hoe00 : slice.openEnd = 0 := by
          rw [hnil] at hoeb
          have : openDepthEndL true ([] : List Node) = 0 := rfl
          omega
        have hdeq : pf.depth = pt.depth := by
          rw [hos00, hoe00] at hpre2
          omega
        cases hr : replaceTwoWay f sch pf pt d with
        | error e => rw [hr] at h; cases h
        | ok content =>
          rw [hr] at h
          have hres := close_ok h
          have hS2 := replaceTwoWay_size f sch pf pt d content hr hpf hpt hdeq hdf
          refine ⟨⟨content, hres⟩, ?_⟩
          rw [hres]
          show sizeL ((pf.node d).copy content).contentList = _
          rw [node_copy_contentList _ hntd]
          rw [hS2]
          have hssz : slice.size = 0 := by
            unfold Slice.size
            rw [hos00, hoe00]
            show slice.content.size - 0 - 0 = 0
            omega
          rw [hssz, hnode, hstart]
          have hcsz : (pt.node d).contentSize = sizeL (pt.node d).contentList := rfl
          omega
      · rw [if_neg hempty] at h
        by_cases hflat : slice.openStart = 0 ∧ slice.openEnd = 0 ∧ pf.depth = d ∧ pt.depth = d
        · -- flat replacement inside one parent
          rw [if_pos hflat] at h
          obtain ⟨hos00, hoe00, hpfd, hptd⟩ := hflat
          have hres := close_ok h
          have hpar : pf.parent = pf.node d := by
            show pf.node pf.depth = pf.node d
            rw [hpfd]
          have hwfd : wfLB (pf.node d).contentList = true :=
            wfB_contentList (pathOK_wf pf hpf hw0 d hdf)
          -- boundary shapes of the two offsets
          have hb1 : BoundaryPos (pf.node d).contentList pf.parentOffset (pf.index d)
              pf.textOffset := by
            refine ⟨?_, ?_, ?_⟩
            · have h1 := hpf.po_eq
              have h2 := hpf.cs_eq d hdf
              have h3 : pf.textOffset = pf.pos - pf.childStart pf.depth := rfl
              rw [hpfd] at h1 h3
              omega
            · exact hpf.idx_le d hdf
            · have := hpf.stop
              rw [hpfd] at this
              exact this
          have hb2 : BoundaryPos (pf.node d).contentList pt.parentOffset (pt.index d)
              pt.textOffset := by
            rw [hnode]
            refine ⟨?_, ?_, ?_⟩
            · have h1 := hpt.po_eq
              have h2 := hpt.cs_eq d hdt
              have h3 : pt.textOffset = pt.pos - pt.childStart pt.depth := rfl
              rw [hptd] at h1 h3
              omega
            · exact hpt.idx_le d hdt
            · have := hpt.stop
              rw [hptd] at this
              exact this
          have hc1 : ((Fragment.mk pf.parent.contentList).cut 0 pf.parentOffset).size =
              pf.parentOffset := by
            show sizeL (cutL pf.parent.contentList 0 pf.parentOffset) = _
            rw [hpar]
            exact cut_prefix_size _ hwfd _ _ _ hb1
          have hc2 : ((Fragment.mk pf.parent.contentList).cutFrom pt.parentOffset).size =
              sizeL (pf.node d).contentList - pt.parentOffset := by
            show sizeL (cutL pf.parent.contentList pt.parentOffset
              (Fragment.mk pf.parent.contentList).size) = _
            rw [hpar]
            have hfs : (Fragment.mk (pf.node d).contentList).size =
                sizeL (pf.node d).contentList := rfl
            rw [hfs]
            exact cut_suffix_size _ hwfd _ _ _ hb2
          refine ⟨⟨_, by rw [hres, hpar]⟩, ?_⟩
          rw [hres]
          show sizeL (pf.parent.copy _).contentList = _
          have hpnt : pf.parent.isText = false := by rw [hpar]; exact hntd
          rw [node_copy_contentList _ hpnt]
          have happ1 := Fragment.append_size
            ((Fragment.mk pf.parent.contentList).cut 0 pf.parentOffset) slice.content
          have happ2 := Fragment.append_size
            (((Fragment.mk pf.parent.contentList).cut 0 pf.parentOffset).append slice.content)
            ((Fragment.mk pf.parent.contentList).cutFrom pt.parentOffset)
          have hsz_eq : ∀ fr : Fragment, fr.size = sizeL fr.content := fun _ => rfl
          rw [hsz_eq] at happ2
          rw [happ2, happ1, hc1, hc2]
          have hpo1 := hpf.po_eq
          have hpo2 := hpt.po_eq
          rw [hpfd] at hpo1
          rw [hptd] at hpo2
          have hssz : slice.size = slice.content.size := by
            unfold Slice.size
            rw [hos00, hoe00]
            omega
          have hcsz : (pf.node d).contentSize = sizeL (pf.node d).contentList := rfl
          omega
        · -- general case: prepared slice and three-way replace
          rw [if_neg hflat] at h
          cases hprep : prepareSliceForReplace slice pf with
          | error e => rw [hprep] at h; cases h
          | ok pr =>
            obtain ⟨ps, pe⟩ := pr
            rw [hprep] at h
            replace h : (match replaceThreeWay f sch pf ps pe pt d with
              | .error e => Except.error e
              | .ok content => close sch (pf.node d) content) = Except.ok res := h
            cases hr : replaceThreeWay f sch pf ps pe pt d with
            | error e => rw [hr] at h; cases h
            | ok content =>
              rw [hr] at h
              have hres := close_ok h
              obtain ⟨extra, T, hexI, hs_pos, he_pos, hs_ok, he_ok, hs_dep, he_dep,
                hs_n0, he_n0, hTwf, hto_s, hto_e, hsingle⟩ :=
                prepared_spec slice pf ps pe hprep hpf hws h0t h0l hopre
              have hdfs : ps.depth = pf.depth := by omega
              have hdet : pe.depth = pt.depth := by omega
              have hdex2 : d ≤ extra := by omega
              have hsame := same_level_of_single ps pe hs_ok he_ok (hs_n0.trans he_n0.symm)
                d (by omega) (by omega) (fun j hj => hsingle j (by omega))
              have hssz := open_start_le_sizeL slice.content.content
              have hesz := open_end_le_sizeL slice.content.content
              have hpse : ps.pos ≤ pe.pos := by
                rw [hs_pos, he_pos]
                omega
              have hS3 := replaceThreeWay_size f sch pf ps pe pt d content hr hpf hs_ok
                he_ok hpt hdfs hdet hdf hdt hsame.1 hsame.2 hpse hto_s hto_e
                (by rw [he_n0]; exact hTwf)
              refine ⟨⟨content, hres⟩, ?_⟩
              rw [hres]
              show sizeL ((pf.node d).copy content).contentList = _
              rw [node_copy_contentList _ hntd]
              rw [hS3]
              have hdiff : pe.pos - ps.pos = slice.size := by
                rw [hs_pos, he_pos]
                unfold Slice.size
                have : slice.content.size = sizeL slice.content.content := rfl
                omega
              rw [hdiff, hnode, hstart]
              have hcsz : (pt.node d).contentSize = sizeL (pt.node d).contentList := rfl
              omega

end PMCore
